import Mathlib

/-!
# Size-constrained label propagation clustering

A shallow embedding of
`lib/partition/coarsening/clustering/size_constraint_label_propagation.cpp`
and a verification of its contract.

Vectors are lists, read with `getD` and written with `set`.  Node identifiers
and cluster labels are natural numbers.  Node weights are machine words of type
`NodeWeight`: sums and differences of node weights are reduced modulo
`NodeWeight_mod`, exactly where the program adds or subtracts them.  The vote
sums of the table `hash_map` are machine words of type `EdgeWeight`, reduced
modulo `EdgeWeight_mod` where the program stores them, and narrowed modulo
`PartitionID_mod` where the selection pass reads them into a `PartitionID`.
The external collaborators (graph accessors, node ordering, random bits) are
inputs of the model.
-/

namespace SCLP

/-! ## Data model -/

/-- Modelled from the spec: the type `NodeWeight` is declared in a header that
is not part of the sources at hand; node weights are taken as unsigned 32-bit
words, so that arithmetic on them wraps modulo this number. -/
def NodeWeight_mod : Nat := 2 ^ 32

/-- Modelled from the spec: the type `EdgeWeight` is declared in a header that
is not part of the sources at hand; edge weights and the vote sums stored in
`hash_map` are taken as 32-bit words, so that a stored sum wraps modulo this
number. -/
def EdgeWeight_mod : Nat := 2 ^ 32

/-- Modelled from the spec: the type `PartitionID` is declared in a header that
is not part of the sources at hand; it is taken as an unsigned 32-bit word, so
that a vote read into a `PartitionID` is narrowed modulo this number. -/
def PartitionID_mod : Nat := 2 ^ 32

/-- One out-edge as seen through `getEdgeTarget` and `getEdgeWeight`. -/
structure Edge where
  target : Nat
  weight : Nat
deriving DecidableEq, Repr

/-- Modelled from the spec: the graph collaborator `graph_access` (only its
accessors are used by the clustering code): node count, node weights, out-edge
iteration, the stored partition index, the secondary partition index and the
stored block count. -/
structure graph_access where
  number_of_nodes : Nat
  getNodeWeight : Nat → Nat
  out_edges : Nat → List Edge
  getPartitionIndex : Nat → Nat
  getSecondPartitionIndex : Nat → Nat
  partition_count : Nat

/-- The mutator `setPartitionIndex` of the graph collaborator. -/
def graph_access.setPartitionIndex (G : graph_access) (node p : Nat) : graph_access :=
  { G with getPartitionIndex := fun n => if n = node then p else G.getPartitionIndex n }

/-- The mutator `set_partition_count` of the graph collaborator. -/
def graph_access.set_partition_count (G : graph_access) (k : Nat) : graph_access :=
  { G with partition_count := k }

/-- The fields of `PartitionConfig` read by the clustering code. -/
structure PartitionConfig where
  upper_bound_partition : Nat
  cluster_coarsening_factor : Nat
  quotient_nodes : Nat
  label_iterations : Nat
  ensemble_clusterings : Bool
  number_of_clusterings : Nat
  graph_allready_partitioned : Bool
  combine : Bool

/-! ## Hash maps as association lists -/

/-- The lookup `m.find(k)` of an `unordered_map`: `none` stands for `end()`. -/
def map_find {α : Type} [DecidableEq α] : List (α × Nat) → α → Option Nat
  | [], _ => none
  | (k1, v) :: rest, k => if k1 = k then some v else map_find rest k

/-- The insertion `m[k] = v` of a key that is not yet present. -/
def map_insert {α : Type} (m : List (α × Nat)) (k : α) (v : Nat) : List (α × Nat) :=
  (k, v) :: m

/-! ## remap_cluster_ids -/

/-- The loop state of `remap_cluster_ids`. -/
structure RemapState where
  remap : List (Nat × Nat)
  cur_no_clusters : Nat
  cluster_id : List Nat

/-- One iteration of the `forall_nodes` loop of `remap_cluster_ids`. -/
def remap_visit (st : RemapState) (node : Nat) : RemapState :=
  let cur_cluster := st.cluster_id.getD node 0
  let st1 : RemapState :=
    match map_find st.remap cur_cluster with
    | none => { st with remap := map_insert st.remap cur_cluster st.cur_no_clusters,
                        cur_no_clusters := st.cur_no_clusters + 1 }
    | some _ => st
  { st1 with cluster_id := st1.cluster_id.set node ((map_find st1.remap cur_cluster).getD 0) }

/-- The state after the `forall_nodes` loop of `remap_cluster_ids`. -/
def remap_loop (G : graph_access) (cluster_id : List Nat) : RemapState :=
  (List.range G.number_of_nodes).foldl remap_visit
    { remap := [], cur_no_clusters := 0, cluster_id := cluster_id }

/-- The second loop of `remap_cluster_ids`, run when `apply_to_graph` holds. -/
def remap_apply (G : graph_access) (cluster_id : List Nat) (cur_no_clusters : Nat) :
    graph_access :=
  ((List.range G.number_of_nodes).foldl
      (fun H node => H.setPartitionIndex node (cluster_id.getD node 0)) G).set_partition_count
    cur_no_clusters

/-- The function `remap_cluster_ids`: the graph after the call, the rewritten
`cluster_id` and `no_of_coarse_vertices`. -/
def remap_cluster_ids (G : graph_access) (cluster_id : List Nat) (apply_to_graph : Bool) :
    graph_access × List Nat × Nat :=
  let st := remap_loop G cluster_id
  let G1 := if apply_to_graph then remap_apply G st.cluster_id st.cur_no_clusters else G
  (G1, st.cluster_id, st.cur_no_clusters)

/-! ## ensemble_two_clusterings -/

/-- The key type of `hash_ensemble`. -/
structure ensemble_pair where
  lhs : Nat
  rhs : Nat
  n : Nat

/-- Modelled from the spec: the comparator of `hash_ensemble` (declared in the
header, which is not part of the sources at hand) compares two keys as the pair
(lhs label, rhs label). -/
def ensemble_pair.key (p : ensemble_pair) : Nat × Nat := (p.lhs, p.rhs)

/-- The loop state of `ensemble_two_clusterings`. -/
structure EnsembleState where
  new_mapping : List ((Nat × Nat) × Nat)
  no_of_coarse_vertices : Nat
  output : List Nat

/-- One iteration of the loop of `ensemble_two_clusterings`, reading the
vectors `lhs` and `rhs` and writing `output`. -/
def ensemble_visit (G : graph_access) (lhs rhs : List Nat) (st : EnsembleState) (node : Nat) :
    EnsembleState :=
  let cur_pair : ensemble_pair :=
    { lhs := lhs.getD node 0, rhs := rhs.getD node 0, n := G.number_of_nodes }
  let st1 : EnsembleState :=
    match map_find st.new_mapping cur_pair.key with
    | none => { st with new_mapping := map_insert st.new_mapping cur_pair.key
                                        st.no_of_coarse_vertices,
                        no_of_coarse_vertices := st.no_of_coarse_vertices + 1 }
    | some _ => st
  { st1 with output := st1.output.set node ((map_find st1.new_mapping cur_pair.key).getD 0) }

/-- The state at the end of the loop of `ensemble_two_clusterings` when `lhs`,
`rhs` and `output` are three distinct vectors. -/
def ensemble_loop (G : graph_access) (lhs rhs output : List Nat) : EnsembleState :=
  (List.range lhs.length).foldl (ensemble_visit G lhs rhs)
    { new_mapping := [], no_of_coarse_vertices := 0, output := output }

/-- The function `ensemble_two_clusterings` on distinct vectors: the final
`output` and `no_of_coarse_vertices` (set to `new_mapping.size()`). -/
def ensemble_two_clusterings (G : graph_access) (lhs rhs output : List Nat) : List Nat × Nat :=
  let st := ensemble_loop G lhs rhs output
  (st.output, st.new_mapping.length)

/-- The state at the end of the loop of `ensemble_two_clusterings` in the call
`ensemble_two_clusterings(G, cur_cluster, ensemble_cluster, ensemble_cluster, ...)`,
where `rhs` and `output` are the same vector: `rhs[node]` is read from the
vector being written. -/
def ensemble_loop_shared (G : graph_access) (lhs shared : List Nat) : EnsembleState :=
  (List.range lhs.length).foldl (fun st node => ensemble_visit G lhs st.output st node)
    { new_mapping := [], no_of_coarse_vertices := 0, output := shared }

/-- The function `ensemble_two_clusterings` called with `rhs` and `output`
being the same vector. -/
def ensemble_two_clusterings_shared (G : graph_access) (lhs shared : List Nat) :
    List Nat × Nat :=
  let st := ensemble_loop_shared G lhs shared
  (st.output, st.new_mapping.length)

/-! ## create_coarsemapping -/

/-- The function `create_coarsemapping`: copies `cluster_id` into
`coarse_mapping` node by node. -/
def create_coarsemapping (G : graph_access) (cluster_id coarse_mapping : List Nat) : List Nat :=
  (List.range G.number_of_nodes).foldl
    (fun cm node => cm.set node (cluster_id.getD node 0)) coarse_mapping

/-! ## label_propagation -/

/-- The vectors of one `label_propagation` call, and the number of random bits
drawn so far from the tie-break generator `random_obj`. -/
structure LPState where
  hash_map : List Nat
  neighboring_blocks : List Nat
  cluster_sizes : List Nat
  cluster_id : List Nat
  isolated_nodes : List Nat
  coin : Nat

/-- The number `G.number_of_nodes() - partition_config.quotient_nodes`, for a
configuration with at most as many quotient nodes as the graph has nodes. -/
def moving_nodes (cfg : PartitionConfig) (G : graph_access) : Nat :=
  G.number_of_nodes - cfg.quotient_nodes

/-- The test that makes the first loop over the out-edges `continue`. -/
def edge_skipped (cfg : PartitionConfig) (G : graph_access) (node target : Nat) : Bool :=
  decide (target ≥ G.number_of_nodes - cfg.quotient_nodes) ||
  (cfg.graph_allready_partitioned &&
    decide (G.getPartitionIndex node ≠ G.getPartitionIndex target)) ||
  (cfg.combine &&
    decide (G.getSecondPartitionIndex node ≠ G.getSecondPartitionIndex target))

/-- One iteration of `forall_out_edges(G, e, node)`: the vote of edge `e`,
added to the entry of the cluster of its target in the word `EdgeWeight`. -/
def accumulate_edge (cfg : PartitionConfig) (G : graph_access) (node : Nat)
    (st : LPState) (e : Edge) : LPState :=
  let target := e.target
  if edge_skipped cfg G node target then st
  else
    let cur_block := st.cluster_id.getD target 0
    let cur_value := st.hash_map.getD cur_block 0
    let nb := if cur_value = 0 then st.neighboring_blocks ++ [cur_block]
              else st.neighboring_blocks
    { st with neighboring_blocks := nb,
              hash_map := st.hash_map.set cur_block
                ((cur_value + e.weight) % EdgeWeight_mod) }

/-- The locals of the second pass over `neighboring_blocks`. -/
structure SelState where
  max_value : Nat
  max_block : Nat
  hash_map : List Nat
  coin : Nat

/-- One iteration of the loop over `neighboring_blocks`: the vote entry read
into a `PartitionID`, the comparison with the running maximum (a random bit is
drawn only when the values are equal), the capacity test, and the reset of the
vote entry. -/
def select_step (G : graph_access) (block_upperbound : Nat) (coins : Nat → Bool)
    (cluster_sizes : List Nat) (node my_block : Nat) (s : SelState) (cur_block : Nat) :
    SelState :=
  let cur_value := s.hash_map.getD cur_block 0 % PartitionID_mod
  let draws : Bool := !decide (cur_value > s.max_value) && decide (cur_value = s.max_value)
  let better : Bool := decide (cur_value > s.max_value) ||
    (decide (cur_value = s.max_value) && coins s.coin)
  let coin1 := if draws then s.coin + 1 else s.coin
  let fits : Bool :=
    decide ((cluster_sizes.getD cur_block 0 + G.getNodeWeight node) % NodeWeight_mod
      < block_upperbound) || decide (cur_block = my_block)
  if better && fits then
    { max_value := cur_value, max_block := cur_block,
      hash_map := s.hash_map.set cur_block 0, coin := coin1 }
  else
    { s with hash_map := s.hash_map.set cur_block 0, coin := coin1 }

/-- The first loop of a node visit, `forall_out_edges(G, e, node)`: the votes
of all out-edges of `node`. -/
def tally (cfg : PartitionConfig) (G : graph_access) (node : Nat) (st : LPState) : LPState :=
  (G.out_edges node).foldl (accumulate_edge cfg G node) st

/-- The second loop of a node visit, over `neighboring_blocks`, started with
`max_block = my_block` and `max_value = 0`. -/
def select (G : graph_access) (block_upperbound : Nat) (coins : Nat → Bool)
    (st1 : LPState) (node : Nat) : SelState :=
  st1.neighboring_blocks.foldl
    (select_step G block_upperbound coins st1.cluster_sizes node (st1.cluster_id.getD node 0))
    { max_value := 0, max_block := st1.cluster_id.getD node 0,
      hash_map := st1.hash_map, coin := st1.coin }

/-- The two statements `cluster_sizes[src] -= w; cluster_sizes[dst] += w` on
unsigned words. -/
def transfer (cluster_sizes : List Nat) (src dst w : Nat) : List Nat :=
  let sizes1 := cluster_sizes.set src
    ((cluster_sizes.getD src 0 + NodeWeight_mod - w) % NodeWeight_mod)
  sizes1.set dst ((sizes1.getD dst 0 + w) % NodeWeight_mod)

/-- The body of the loop `for (NodeID node: permutation)` in sweep `j`. -/
def visit (cfg : PartitionConfig) (G : graph_access) (block_upperbound : Nat)
    (coins : Nat → Bool) (j : Nat) (st : LPState) (node : Nat) : LPState :=
  let st1 := tally cfg G node st
  let isolated := if j = 0 ∧ st1.neighboring_blocks.length = 0
                  then st1.isolated_nodes ++ [node] else st1.isolated_nodes
  let my_block := st1.cluster_id.getD node 0
  let sel := select G block_upperbound coins st1 node
  { hash_map := sel.hash_map,
    neighboring_blocks := [],
    cluster_sizes := transfer st1.cluster_sizes my_block sel.max_block (G.getNodeWeight node),
    cluster_id := st1.cluster_id.set node sel.max_block,
    isolated_nodes := isolated,
    coin := sel.coin }

/-- The state after the declarations and the initialisation loop of
`label_propagation`; `neighboring_blocks` is constructed with `moving_nodes`
entries. -/
def lp_init (cfg : PartitionConfig) (G : graph_access) : LPState :=
  { hash_map := List.replicate G.number_of_nodes 0,
    neighboring_blocks := List.replicate (moving_nodes cfg G) 0,
    cluster_sizes := (List.range G.number_of_nodes).map G.getNodeWeight,
    cluster_id := List.range G.number_of_nodes,
    isolated_nodes := [],
    coin := 0 }

/-- One sweep `j` over the visiting order. -/
def sweep (cfg : PartitionConfig) (G : graph_access) (block_upperbound : Nat)
    (permutation : List Nat) (coins : Nat → Bool) (st : LPState) (j : Nat) : LPState :=
  permutation.foldl (visit cfg G block_upperbound coins j) st

/-- The state after the `label_iterations` sweeps. -/
def lp_sweeps (cfg : PartitionConfig) (G : graph_access) (block_upperbound : Nat)
    (permutation : List Nat) (coins : Nat → Bool) : LPState :=
  (List.range cfg.label_iterations).foldl (sweep cfg G block_upperbound permutation coins)
    (lp_init cfg G)

/-! ## cluster_isolated_nodes -/

/-- The vectors changed by `cluster_isolated_nodes`. -/
structure IsoState where
  combined : List Bool
  cluster_id : List Nat
  cluster_sizes : List Nat

/-- The test of the inner loop of `cluster_isolated_nodes`. -/
def iso_accepts (cfg : PartitionConfig) (G : graph_access) (block_upperbound : Nat)
    (st : IsoState) (node target : Nat) : Bool :=
  let cur_block := st.cluster_id.getD target 0
  (decide ((st.cluster_sizes.getD cur_block 0 + G.getNodeWeight node) % NodeWeight_mod
      ≤ block_upperbound) || decide (cur_block = st.cluster_id.getD node 0)) &&
  (!cfg.graph_allready_partitioned ||
    decide (G.getPartitionIndex node = G.getPartitionIndex target)) &&
  (!cfg.combine ||
    decide (G.getSecondPartitionIndex node = G.getSecondPartitionIndex target))

/-- The inner loop `for (int it2 = it+1; ...)` over the remaining positions,
left at the first accepted partner (`break`). -/
def iso_inner (cfg : PartitionConfig) (G : graph_access) (block_upperbound : Nat)
    (isolated_nodes : List Nat) (node : Nat) : List Nat → IsoState → IsoState
  | [], st => st
  | it2 :: rest, st =>
    let target := isolated_nodes.getD it2 0
    if st.combined.getD it2 false then
      iso_inner cfg G block_upperbound isolated_nodes node rest st
    else
      let cur_block := st.cluster_id.getD target 0
      if iso_accepts cfg G block_upperbound st node target then
        { combined := st.combined.set it2 true,
          cluster_sizes := transfer st.cluster_sizes (st.cluster_id.getD node 0) cur_block
            (G.getNodeWeight node),
          cluster_id := st.cluster_id.set node cur_block }
      else
        iso_inner cfg G block_upperbound isolated_nodes node rest st

/-- The body of the outer loop of `cluster_isolated_nodes` at position `it`. -/
def iso_outer (cfg : PartitionConfig) (G : graph_access) (block_upperbound : Nat)
    (isolated_nodes : List Nat) (st : IsoState) (it : Nat) : IsoState :=
  let node := isolated_nodes.getD it 0
  if st.combined.getD it false then st
  else
    iso_inner cfg G block_upperbound isolated_nodes node
      (List.range' (it + 1) (isolated_nodes.length - (it + 1)))
      { st with combined := st.combined.set it true }

/-- The function `cluster_isolated_nodes`. -/
def cluster_isolated_nodes (cfg : PartitionConfig) (G : graph_access)
    (cluster_id cluster_sizes : List Nat) (block_upperbound : Nat)
    (isolated_nodes : List Nat) : IsoState :=
  (List.range isolated_nodes.length).foldl (iso_outer cfg G block_upperbound isolated_nodes)
    { combined := List.replicate isolated_nodes.length false,
      cluster_id := cluster_id,
      cluster_sizes := cluster_sizes }

/-- The state of `label_propagation` just before `remap_cluster_ids`: the
sweeps, and the reconciliation when two or more isolated nodes were recorded. -/
def lp_reconciled (cfg : PartitionConfig) (G : graph_access) (block_upperbound : Nat)
    (permutation : List Nat) (coins : Nat → Bool) : LPState :=
  let st := lp_sweeps cfg G block_upperbound permutation coins
  if st.isolated_nodes.length ≥ 2 then
    let r := cluster_isolated_nodes cfg G st.cluster_id st.cluster_sizes block_upperbound
      st.isolated_nodes
    { st with cluster_id := r.cluster_id, cluster_sizes := r.cluster_sizes }
  else st

/-- The five-argument `label_propagation`: the final `cluster_id` and
`no_of_blocks`.  The visiting order and the random bits are inputs. -/
def label_propagation (cfg : PartitionConfig) (G : graph_access) (block_upperbound : Nat)
    (permutation : List Nat) (coins : Nat → Bool) : List Nat × Nat :=
  let st := lp_reconciled cfg G block_upperbound permutation coins
  (remap_cluster_ids G st.cluster_id false).2

/-- The bound `ceil(upper_bound_partition / (double) cluster_coarsening_factor)`
for a positive coarsening factor, the division read as exact. -/
def block_upperbound_of (cfg : PartitionConfig) : Nat :=
  (cfg.upper_bound_partition + cfg.cluster_coarsening_factor - 1) / cfg.cluster_coarsening_factor

/-- The four-argument `label_propagation`, which derives the bound from the
configuration. -/
def label_propagation_config (cfg : PartitionConfig) (G : graph_access)
    (permutation : List Nat) (coins : Nat → Bool) : List Nat × Nat :=
  label_propagation cfg G (block_upperbound_of cfg) permutation coins

/-! ## The orchestrator -/

/-- The function `match_internal`: `coarse_mapping` and `no_of_coarse_vertices`. -/
def match_internal (cfg : PartitionConfig) (G : graph_access) (coarse_mapping : List Nat)
    (permutation : List Nat) (coins : Nat → Bool) : List Nat × Nat :=
  let r := label_propagation cfg G (block_upperbound_of cfg) permutation coins
  (create_coarsemapping G r.1 coarse_mapping, r.2)

/-- The variables of the loop of `ensemble_clusterings`. -/
structure RunState where
  cur_cluster : List Nat
  ensemble_cluster : List Nat
  no_of_coarse_vertices : Nat
  new_cf : Nat

/-- The body of the loop of `ensemble_clusterings` for run `i`.  Run `i` uses
the visiting order `orders i` and the random bits `coins i`; `draws i` is the
value of `random_functions::nextInt(10, 30)` at the end of run `i`. -/
def ensemble_run (cfg : PartitionConfig) (G : graph_access) (orders : Nat → List Nat)
    (coins : Nat → Nat → Bool) (draws : Nat → Nat) (st : RunState) (i : Nat) : RunState :=
  let config : PartitionConfig := { cfg with cluster_coarsening_factor := st.new_cf }
  let r := label_propagation_config config G (orders i) (coins i)
  if i ≠ 0 then
    let e := ensemble_two_clusterings_shared G r.1 st.ensemble_cluster
    { cur_cluster := r.1, ensemble_cluster := e.1, no_of_coarse_vertices := e.2,
      new_cf := draws i }
  else
    { cur_cluster := r.1,
      ensemble_cluster := (List.range G.number_of_nodes).foldl
        (fun ec node => ec.set node (r.1.getD node 0)) st.ensemble_cluster,
      no_of_coarse_vertices := r.2,
      new_cf := draws i }

/-- The state of `ensemble_clusterings` after its loop. -/
def ensemble_runs (cfg : PartitionConfig) (G : graph_access) (orders : Nat → List Nat)
    (coins : Nat → Nat → Bool) (draws : Nat → Nat) (no_of_coarse_vertices : Nat) : RunState :=
  (List.range cfg.number_of_clusterings).foldl (ensemble_run cfg G orders coins draws)
    { cur_cluster := List.replicate G.number_of_nodes 0,
      ensemble_cluster := List.replicate G.number_of_nodes 0,
      no_of_coarse_vertices := no_of_coarse_vertices,
      new_cf := cfg.cluster_coarsening_factor }

/-- The function `ensemble_clusterings`: `coarse_mapping` and
`no_of_coarse_vertices`. -/
def ensemble_clusterings (cfg : PartitionConfig) (G : graph_access) (coarse_mapping : List Nat)
    (no_of_coarse_vertices : Nat) (orders : Nat → List Nat) (coins : Nat → Nat → Bool)
    (draws : Nat → Nat) : List Nat × Nat :=
  let st := ensemble_runs cfg G orders coins draws no_of_coarse_vertices
  (create_coarsemapping G st.ensemble_cluster coarse_mapping, st.no_of_coarse_vertices)

/-- The call `v.resize(n)` of a vector of numbers: the first `n` entries are
kept and new entries are zero. -/
def resize (v : List Nat) (n : Nat) : List Nat :=
  v.take n ++ List.replicate (n - v.length) 0

/-- The function `match`: `coarse_mapping` is resized to the node count,
`no_of_coarse_vertices` is zeroed, and the configuration selects the path.  The
single-run path uses the visiting order `orders 0` and the bits `coins 0`. -/
def match_ (cfg : PartitionConfig) (G : graph_access) (coarse_mapping : List Nat)
    (orders : Nat → List Nat) (coins : Nat → Nat → Bool) (draws : Nat → Nat) :
    List Nat × Nat :=
  let coarse_mapping := resize coarse_mapping G.number_of_nodes
  if cfg.ensemble_clusterings then
    ensemble_clusterings cfg G coarse_mapping 0 orders coins draws
  else
    match_internal cfg G coarse_mapping (orders 0) (coins 0)

/-! ## Specification-level notions -/

/-- The distinct values among `keys 0, ..., keys (i - 1)`, in order of first
occurrence. -/
def first_seen {α : Type} [DecidableEq α] (keys : Nat → α) : Nat → List α
  | 0 => []
  | i + 1 =>
    if keys i ∈ first_seen keys i then first_seen keys i else first_seen keys i ++ [keys i]

/-- The first-encounter label of node `j` among the first `n` nodes: the rank of
its key among the distinct keys in order of first occurrence. -/
def first_label {α : Type} [DecidableEq α] (keys : Nat → α) (n j : Nat) : Nat :=
  (first_seen keys n).indexOf (keys j)

/-- The renumbering loop shared by `remap_cluster_ids` and
`ensemble_two_clusterings`, on the triple (map, counter, vector); `key node x`
is the key of `node` when the vector holds `x` at `node`. -/
def renumber_visit {α : Type} [DecidableEq α] (key : Nat → Nat → α)
    (st : List (α × Nat) × Nat × List Nat) (node : Nat) : List (α × Nat) × Nat × List Nat :=
  match map_find st.1 (key node (st.2.2.getD node 0)) with
  | none => ((key node (st.2.2.getD node 0), st.2.1) :: st.1, st.2.1 + 1,
             st.2.2.set node st.2.1)
  | some v => (st.1, st.2.1, st.2.2.set node v)

/-- The loop state of `remap_cluster_ids` as a triple (map, counter, vector). -/
def RemapState.toTriple (st : RemapState) : List (Nat × Nat) × Nat × List Nat :=
  (st.remap, st.cur_no_clusters, st.cluster_id)

/-- The loop state of `ensemble_two_clusterings` as a triple (map, counter,
vector). -/
def EnsembleState.toTriple (st : EnsembleState) : List ((Nat × Nat) × Nat) × Nat × List Nat :=
  (st.new_mapping, st.no_of_coarse_vertices, st.output)

/-- The key of node `j` in `ensemble_two_clusterings`: its pair of labels. -/
def pair_key (lhs rhs : List Nat) (j : Nat) : Nat × Nat := (lhs.getD j 0, rhs.getD j 0)

/-- The key of node `j` in `remap_cluster_ids`: its old label. -/
def label_key (cluster_id : List Nat) (j : Nat) : Nat := cluster_id.getD j 0

/-- The total weight of the nodes whose label in `cluster_id` is `c`. -/
def cluster_weight (G : graph_access) (cluster_id : List Nat) (c : Nat) : Nat :=
  ∑ i in Finset.range G.number_of_nodes,
    if cluster_id.getD i 0 = c then G.getNodeWeight i else 0

/-- The total weight of all nodes of the graph. -/
def total_weight (G : graph_access) : Nat :=
  ∑ i in Finset.range G.number_of_nodes, G.getNodeWeight i

/-- The sequence of node visits of `label_propagation`, each with the index of
its sweep. -/
def visits (cfg : PartitionConfig) (permutation : List Nat) : List (Nat × Nat) :=
  (List.range cfg.label_iterations).flatMap (fun j => permutation.map (fun node => (j, node)))

/-- The state of `label_propagation` after the first `k` node visits. -/
def lp_after (cfg : PartitionConfig) (G : graph_access) (block_upperbound : Nat)
    (permutation : List Nat) (coins : Nat → Bool) (k : Nat) : LPState :=
  ((visits cfg permutation).take k).foldl
    (fun st v => visit cfg G block_upperbound coins v.1 st v.2) (lp_init cfg G)

/-- The invariant of the two vectors `cluster_id` and `cluster_sizes`: both have
one entry per node, every label is a node index, `cluster_sizes` holds the
exact weight of every cluster, and every cluster with two distinct nodes weighs
at most `block_upperbound`. -/
structure CoreInv (G : graph_access) (block_upperbound : Nat)
    (cluster_id cluster_sizes : List Nat) : Prop where
  len_id : cluster_id.length = G.number_of_nodes
  len_sizes : cluster_sizes.length = G.number_of_nodes
  id_lt : ∀ i, i < G.number_of_nodes → cluster_id.getD i 0 < G.number_of_nodes
  exact : ∀ c, c < G.number_of_nodes →
    cluster_sizes.getD c 0 = cluster_weight G cluster_id c
  cap : ∀ a b, a < G.number_of_nodes → b < G.number_of_nodes → a ≠ b →
    cluster_id.getD a 0 = cluster_id.getD b 0 →
    cluster_weight G cluster_id (cluster_id.getD a 0) ≤ block_upperbound

/-- The invariant of `cluster_id` about the quotient nodes: every quotient node
carries its own index as label, and every movable node carries the index of a
movable node. -/
structure QuotInv (cfg : PartitionConfig) (G : graph_access) (cluster_id : List Nat) :
    Prop where
  len : cluster_id.length = G.number_of_nodes
  fixed : ∀ i, G.number_of_nodes - cfg.quotient_nodes ≤ i → i < G.number_of_nodes →
    cluster_id.getD i 0 = i
  movable : ∀ i, i < G.number_of_nodes - cfg.quotient_nodes →
    cluster_id.getD i 0 < G.number_of_nodes - cfg.quotient_nodes

/-- A property `I` of the vectors `cluster_id` and `cluster_sizes`, with a set
`R` of node indices, that is kept by every move the program can make: `R`
holds all movable nodes and the labels of its members, and moving a member of
`R` to a member of `R` that is its own cluster or passes the capacity test
keeps `I`. -/
structure MoveClosed (cfg : PartitionConfig) (G : graph_access) (block_upperbound : Nat)
    (R : Nat → Prop) (I : List Nat → List Nat → Prop) : Prop where
  movable : ∀ t, t < G.number_of_nodes - cfg.quotient_nodes → R t
  label : ∀ cluster_id sizes i, I cluster_id sizes → R i → R (cluster_id.getD i 0)
  move : ∀ cluster_id sizes node m, I cluster_id sizes → R node → R m →
    (m = cluster_id.getD node 0 ∨
      (sizes.getD m 0 + G.getNodeWeight node) % NodeWeight_mod ≤ block_upperbound) →
    I (cluster_id.set node m)
      (transfer sizes (cluster_id.getD node 0) m (G.getNodeWeight node))

/-- The invariant of the state of `label_propagation` between node visits, for
a property `I` of the two vectors and a set `R` of node indices. -/
structure LPInv (R : Nat → Prop) (I : List Nat → List Nat → Prop) (st : LPState) : Prop where
  core : I st.cluster_id st.cluster_sizes
  nb_in : ∀ b, b ∈ st.neighboring_blocks → R b
  iso_in : ∀ x, x ∈ st.isolated_nodes → R x

/-- The node of visit number `k` (counted from zero). -/
def visited_node (cfg : PartitionConfig) (permutation : List Nat) (k : Nat) : Nat :=
  ((visits cfg permutation).getD k (0, 0)).2

/-- The block `max_block` chosen in visit number `k`. -/
def chosen_block (cfg : PartitionConfig) (G : graph_access) (block_upperbound : Nat)
    (permutation : List Nat) (coins : Nat → Bool) (k : Nat) : Nat :=
  (select G block_upperbound coins
    (tally cfg G (visited_node cfg permutation k)
      (lp_after cfg G block_upperbound permutation coins k))
    (visited_node cfg permutation k)).max_block

/-- The coarsening factor used by run `i` of `ensemble_clusterings`: the
configured one for the first run, the previous random draw afterwards. -/
def run_cf (cfg : PartitionConfig) (draws : Nat → Nat) (i : Nat) : Nat :=
  if i = 0 then cfg.cluster_coarsening_factor else draws (i - 1)

/-- The clustering returned by the `label_propagation` call of run `i` of
`ensemble_clusterings`. -/
def run_clustering (cfg : PartitionConfig) (G : graph_access) (orders : Nat → List Nat)
    (coins : Nat → Nat → Bool) (draws : Nat → Nat) (i : Nat) : List Nat :=
  (label_propagation_config { cfg with cluster_coarsening_factor := run_cf cfg draws i } G
    (orders i) (coins i)).1

/-- The state of the loop of `ensemble_clusterings` after `i` runs. -/
def runs_after (cfg : PartitionConfig) (G : graph_access) (orders : Nat → List Nat)
    (coins : Nat → Nat → Bool) (draws : Nat → Nat) (no_of_coarse_vertices : Nat) (i : Nat) :
    RunState :=
  (List.range i).foldl (ensemble_run cfg G orders coins draws)
    { cur_cluster := List.replicate G.number_of_nodes 0,
      ensemble_cluster := List.replicate G.number_of_nodes 0,
      no_of_coarse_vertices := no_of_coarse_vertices,
      new_cf := cfg.cluster_coarsening_factor }

/-- A configuration with no quotient nodes, two sweeps and two clusterings. -/
def example_config : PartitionConfig :=
  { upper_bound_partition := 3,
    cluster_coarsening_factor := 1,
    quotient_nodes := 0,
    label_iterations := 2,
    ensemble_clusterings := true,
    number_of_clusterings := 2,
    graph_allready_partitioned := false,
    combine := false }

/-- The path 0 - 1 - 2 with unit node weights and unit edge weights. -/
def example_path3 : graph_access :=
  { number_of_nodes := 3,
    getNodeWeight := fun _ => 1,
    out_edges := fun n =>
      if n = 0 then [{ target := 1, weight := 1 }]
      else if n = 1 then [{ target := 0, weight := 1 }, { target := 2, weight := 1 }]
      else [{ target := 1, weight := 1 }],
    getPartitionIndex := fun _ => 0,
    getSecondPartitionIndex := fun _ => 0,
    partition_count := 1 }

/-- The configuration `example_config` with the last node as quotient node. -/
def example_config_quotient : PartitionConfig :=
  { example_config with quotient_nodes := 1 }

/-- The visiting order 1, 0, 2 in every run. -/
def example_orders : Nat → List Nat := fun _ => [1, 0, 2]

/-- The tie-break stream of every run that always answers `true`. -/
def example_coins : Nat → Nat → Bool := fun _ _ => true

/-- The stream of coarsening factors that always draws 10. -/
def example_draws : Nat → Nat := fun _ => 10

/-- The labels stored in `out` are exactly the numbers `0, ..., count - 1`. -/
def DenseLabels (out : List Nat) (count : Nat) : Prop :=
  ∀ v, v ∈ out ↔ v < count

/-- Labels are handed out in order of first occurrence: node 0 has label 0, and
the label of every node is either the label of an earlier node, or larger than
all earlier labels and (when there is an earlier node) exactly one more than
one of them. -/
def FirstEncounterOrder (out : List Nat) : Prop :=
  (0 < out.length → out.getD 0 0 = 0) ∧
  ∀ i, i < out.length →
    (∃ j, j < i ∧ out.getD j 0 = out.getD i 0) ∨
    ((∀ j, j < i → out.getD j 0 < out.getD i 0) ∧
      (0 < i → ∃ j, j < i ∧ out.getD j 0 + 1 = out.getD i 0))

/-- A graph with three nodes of weight one and no edges. -/
def example_graph3 : graph_access :=
  { number_of_nodes := 3,
    getNodeWeight := fun _ => 1,
    out_edges := fun _ => [],
    getPartitionIndex := fun _ => 0,
    getSecondPartitionIndex := fun _ => 0,
    partition_count := 1 }

/-- The state of the loop of `ensemble_two_clusterings`, called with `rhs` and
`output` being the same vector, after `i` iterations. -/
def ensemble_shared_after (G : graph_access) (lhs shared : List Nat) (i : Nat) :
    EnsembleState :=
  (List.range i).foldl (fun st node => ensemble_visit G lhs st.output st node)
    { new_mapping := [], no_of_coarse_vertices := 0, output := shared }

/-- A graph with four nodes of weight one and no edges. -/
def example_graph4 : graph_access :=
  { number_of_nodes := 4,
    getNodeWeight := fun _ => 1,
    out_edges := fun _ => [],
    getPartitionIndex := fun _ => 0,
    getSecondPartitionIndex := fun _ => 0,
    partition_count := 1 }

/-- A configuration for the ensemble of two runs with the bound 100, the
coarsening factor 1 and one sweep. -/
def example_config_ensemble : PartitionConfig :=
  { upper_bound_partition := 100,
    cluster_coarsening_factor := 1,
    quotient_nodes := 0,
    label_iterations := 1,
    ensemble_clusterings := true,
    number_of_clusterings := 2,
    graph_allready_partitioned := false,
    combine := false }

/-- The visiting order 0, 1, 2, 3 in every run. -/
def example_orders4 : Nat → List Nat := fun _ => [0, 1, 2, 3]

/-- The tie-break stream of every run that always answers `false`. -/
def example_coins_false : Nat → Nat → Bool := fun _ _ => false

/-- The path 0 - 1 - 2 - 3 - 4 - 5 with unit node weights and unit edge
weights. -/
def path6 : graph_access :=
  { number_of_nodes := 6,
    getNodeWeight := fun _ => 1,
    out_edges := fun n =>
      if n = 0 then [{ target := 1, weight := 1 }]
      else if n = 1 then [{ target := 0, weight := 1 }, { target := 2, weight := 1 }]
      else if n = 2 then [{ target := 1, weight := 1 }, { target := 3, weight := 1 }]
      else if n = 3 then [{ target := 2, weight := 1 }, { target := 4, weight := 1 }]
      else if n = 4 then [{ target := 3, weight := 1 }, { target := 5, weight := 1 }]
      else [{ target := 4, weight := 1 }],
    getPartitionIndex := fun _ => 0,
    getSecondPartitionIndex := fun _ => 0,
    partition_count := 1 }

/-- The configuration of the path scenario: five sweeps, no quotient nodes. -/
def path_config : PartitionConfig :=
  { upper_bound_partition := 3,
    cluster_coarsening_factor := 1,
    quotient_nodes := 0,
    label_iterations := 5,
    ensemble_clusterings := false,
    number_of_clusterings := 1,
    graph_allready_partitioned := false,
    combine := false }

/-- The triangle: three nodes of weight one, every pair joined by an edge of
weight one. -/
def triangle : graph_access :=
  { number_of_nodes := 3,
    getNodeWeight := fun _ => 1,
    out_edges := fun n =>
      if n = 0 then [{ target := 1, weight := 1 }, { target := 2, weight := 1 }]
      else if n = 1 then [{ target := 0, weight := 1 }, { target := 2, weight := 1 }]
      else [{ target := 0, weight := 1 }, { target := 1, weight := 1 }],
    getPartitionIndex := fun _ => 0,
    getSecondPartitionIndex := fun _ => 0,
    partition_count := 1 }

/-- A configuration with one sweep and no quotient nodes. -/
def one_sweep_config : PartitionConfig :=
  { upper_bound_partition := 4,
    cluster_coarsening_factor := 1,
    quotient_nodes := 0,
    label_iterations := 1,
    ensemble_clusterings := false,
    number_of_clusterings := 1,
    graph_allready_partitioned := false,
    combine := false }

/-- The tie-break stream whose fifth bit alone is `true`. -/
def coins_fifth : Nat → Bool := fun n => decide (n = 4)

/-- The tie-break stream that always answers `true`. -/
def coins_true : Nat → Bool := fun _ => true

/-- The tie-break stream that always answers `false`. -/
def coins_false : Nat → Bool := fun _ => false

/-- The capacity test of the sweeps for moving `node` to the block `m`, as the
program computes it. -/
def sweep_fit (G : graph_access) (block_upperbound : Nat) (sizes : List Nat) (node m : Nat) :
    Prop :=
  (sizes.getD m 0 + G.getNodeWeight node) % NodeWeight_mod < block_upperbound

/-- The capacity test of `cluster_isolated_nodes` for moving `node` to the
block `m`, as the program computes it. -/
def merge_fit (G : graph_access) (block_upperbound : Nat) (sizes : List Nat) (node m : Nat) :
    Prop :=
  (sizes.getD m 0 + G.getNodeWeight node) % NodeWeight_mod ≤ block_upperbound

/-- A property `I` of the vectors `cluster_id` and `cluster_sizes` that is kept
by every move of a node in `Rn` to a block in `Rl` that is the block of the
node or passes the capacity test `fit`; `Rn` holds all movable nodes and `Rl`
the labels of the members of `Rn`. -/
structure StepClosed (cfg : PartitionConfig) (G : graph_access) (Rn Rl : Nat → Prop)
    (fit : List Nat → Nat → Nat → Prop) (I : List Nat → List Nat → Prop) : Prop where
  movable : ∀ t, t < G.number_of_nodes - cfg.quotient_nodes → Rn t
  label : ∀ cluster_id sizes i, I cluster_id sizes → Rn i → Rl (cluster_id.getD i 0)
  move : ∀ cluster_id sizes node m, I cluster_id sizes → Rn node → Rl m →
    (m = cluster_id.getD node 0 ∨ fit sizes node m) →
    I (cluster_id.set node m)
      (transfer sizes (cluster_id.getD node 0) m (G.getNodeWeight node))

/-- The invariant of the state of `label_propagation` between node visits, for
a property `I` of the two vectors, a set `Rn` of nodes and a set `Rl` of
labels. -/
structure VisitInv (Rn Rl : Nat → Prop) (I : List Nat → List Nat → Prop) (st : LPState) :
    Prop where
  core : I st.cluster_id st.cluster_sizes
  nb_in : ∀ b, b ∈ st.neighboring_blocks → Rl b
  iso_in : ∀ x, x ∈ st.isolated_nodes → Rn x

/-- The configuration `example_config_ensemble` with the bound 1. -/
def example_config_tight : PartitionConfig :=
  { example_config_ensemble with upper_bound_partition := 1 }

/-- The out-edge `e` of `node` is eligible and leads into the cluster `c`. -/
def eligible_into (cfg : PartitionConfig) (G : graph_access) (cluster_id : List Nat)
    (node c : Nat) (e : Edge) : Bool :=
  !edge_skipped cfg G node e.target && decide (cluster_id.getD e.target 0 = c)

/-- The vote weight of the cluster `c` for `node`: the sum of the weights of the
eligible out-edges of `node` whose target is in `c`. -/
def vote (cfg : PartitionConfig) (G : graph_access) (cluster_id : List Nat)
    (node c : Nat) : Nat :=
  (((G.out_edges node).filter (eligible_into cfg G cluster_id node c)).map Edge.weight).sum

/-- The locals of the second loop of a node visit after its first `p`
iterations. -/
def select_after (G : graph_access) (block_upperbound : Nat) (coins : Nat → Bool)
    (st1 : LPState) (node p : Nat) : SelState :=
  (st1.neighboring_blocks.take p).foldl
    (select_step G block_upperbound coins st1.cluster_sizes node (st1.cluster_id.getD node 0))
    { max_value := 0, max_block := st1.cluster_id.getD node 0,
      hash_map := st1.hash_map, coin := st1.coin }

/-- The search made by the inner loop of `cluster_isolated_nodes`: the first
position among `cands` that is not combined and passes the test, if any. -/
def find_partner (cfg : PartitionConfig) (G : graph_access) (block_upperbound : Nat)
    (isolated_nodes : List Nat) (node : Nat) : List Nat → IsoState → Option Nat
  | [], _ => none
  | it2 :: rest, st =>
    if st.combined.getD it2 false then
      find_partner cfg G block_upperbound isolated_nodes node rest st
    else if iso_accepts cfg G block_upperbound st node (isolated_nodes.getD it2 0) then some it2
    else find_partner cfg G block_upperbound isolated_nodes node rest st

/-- The merge of `node` into the cluster of the node at position `it2`. -/
def iso_merge (G : graph_access) (isolated_nodes : List Nat) (node : Nat) (st : IsoState)
    (it2 : Nat) : IsoState :=
  { combined := st.combined.set it2 true,
    cluster_sizes := transfer st.cluster_sizes (st.cluster_id.getD node 0)
      (st.cluster_id.getD (isolated_nodes.getD it2 0) 0) (G.getNodeWeight node),
    cluster_id := st.cluster_id.set node (st.cluster_id.getD (isolated_nodes.getD it2 0) 0) }

/-- The state of `cluster_isolated_nodes` at the start of iteration `it` of its
outer loop. -/
def iso_before (cfg : PartitionConfig) (G : graph_access) (cluster_id cluster_sizes : List Nat)
    (block_upperbound : Nat) (isolated_nodes : List Nat) (it : Nat) : IsoState :=
  (List.range it).foldl (iso_outer cfg G block_upperbound isolated_nodes)
    { combined := List.replicate isolated_nodes.length false,
      cluster_id := cluster_id,
      cluster_sizes := cluster_sizes }

/-- The position of the partner with which iteration `it` of the outer loop
makes a merge, if it makes one. -/
def merge_partner (cfg : PartitionConfig) (G : graph_access) (cluster_id cluster_sizes : List Nat)
    (block_upperbound : Nat) (isolated_nodes : List Nat) (it : Nat) : Option Nat :=
  if (iso_before cfg G cluster_id cluster_sizes block_upperbound isolated_nodes it).combined.getD
      it false then none
  else
    find_partner cfg G block_upperbound isolated_nodes (isolated_nodes.getD it 0)
      (List.range' (it + 1) (isolated_nodes.length - (it + 1)))
      { iso_before cfg G cluster_id cluster_sizes block_upperbound isolated_nodes it with
        combined := (iso_before cfg G cluster_id cluster_sizes block_upperbound
          isolated_nodes it).combined.set it true }

/-- The clique on two nodes with unit node weights and unit edge weights. -/
def clique2 : graph_access :=
  { number_of_nodes := 2,
    getNodeWeight := fun _ => 1,
    out_edges := fun n =>
      if n = 0 then [{ target := 1, weight := 1 }] else [{ target := 0, weight := 1 }],
    getPartitionIndex := fun _ => 0,
    getSecondPartitionIndex := fun _ => 0,
    partition_count := 1 }

/-- The total weight of the eligible out-edges of `node`: the sum of all its
vote weights. -/
def eligible_weight (cfg : PartitionConfig) (G : graph_access) (node : Nat) : Nat :=
  (((G.out_edges node).filter (fun e => !edge_skipped cfg G node e.target)).map
    Edge.weight).sum

/-- Three nodes of weight one; node 0 is joined to node 1 by three parallel
edges whose weights add up to `2 ^ 32`, and to node 2 by an edge of weight
one. -/
def heavy_edges : graph_access :=
  { number_of_nodes := 3,
    getNodeWeight := fun _ => 1,
    out_edges := fun n =>
      if n = 0 then
        [{ target := 1, weight := 2147483647 }, { target := 1, weight := 2147483647 },
          { target := 1, weight := 2 }, { target := 2, weight := 1 }]
      else if n = 1 then
        [{ target := 0, weight := 2147483647 }, { target := 0, weight := 2147483647 },
          { target := 0, weight := 2 }]
      else [{ target := 0, weight := 1 }],
    getPartitionIndex := fun _ => 0,
    getSecondPartitionIndex := fun _ => 0,
    partition_count := 1 }

/-- Two nodes of weights `2 ^ 32 - 1` and 2, joined by an edge of weight one:
their total weight does not fit the word `NodeWeight`. -/
def heavy_nodes : graph_access :=
  { number_of_nodes := 2,
    getNodeWeight := fun n => if n = 0 then 4294967295 else 2,
    out_edges := fun n =>
      if n = 0 then [{ target := 1, weight := 1 }] else [{ target := 0, weight := 1 }],
    getPartitionIndex := fun _ => 0,
    getSecondPartitionIndex := fun _ => 0,
    partition_count := 1 }

/-- The test for merging `node` into the cluster of `target`, in the words of
the specification, on the vectors `cluster_id` and `cluster_sizes`: the
capacity test (the size of the cluster of `target` plus the weight of `node`,
as a `NodeWeight` word, is at most `block_upperbound`, or the two nodes are in
the same cluster), and the equality of the partition indices and of the
secondary partition indices when the configuration asks for them. -/
def partner_test (cfg : PartitionConfig) (G : graph_access) (block_upperbound : Nat)
    (cluster_id cluster_sizes : List Nat) (node target : Nat) : Prop :=
  ((cluster_sizes.getD (cluster_id.getD target 0) 0 + G.getNodeWeight node) % NodeWeight_mod
      ≤ block_upperbound ∨
    cluster_id.getD target 0 = cluster_id.getD node 0) ∧
  (cfg.graph_allready_partitioned = true →
    G.getPartitionIndex node = G.getPartitionIndex target) ∧
  (cfg.combine = true →
    G.getSecondPartitionIndex node = G.getSecondPartitionIndex target)

/-! ## Lemmas on vectors -/

theorem getD_set_eq {α : Type} (l : List α) (i : Nat) (a d : α) (h : i < l.length) :
    (l.set i a).getD i d = a := by
  simp [List.getD_eq_getElem?_getD, List.getElem?_set, h]

theorem getD_set_ne {α : Type} (l : List α) (i j : Nat) (a d : α) (h : i ≠ j) :
    (l.set i a).getD j d = l.getD j d := by
  simp [List.getD_eq_getElem?_getD, List.getElem?_set_ne h]

theorem getD_set_self_ge {α : Type} (l : List α) (i j : Nat) (a d : α) (h : l.length ≤ i) :
    (l.set i a).getD j d = l.getD j d := by
  rw [List.set_eq_of_length_le h]

theorem list_eq_of_getD {l1 l2 : List Nat} (hlen : l1.length = l2.length)
    (h : ∀ j, j < l1.length → l1.getD j 0 = l2.getD j 0) : l1 = l2 := by
  apply List.ext_getElem hlen
  intro j h1 h2
  have := h j h1
  rwa [List.getD_eq_getElem _ _ h1, List.getD_eq_getElem _ _ h2] at this

theorem foldl_copy (src : List Nat) : ∀ (n : Nat) (dst : List Nat),
    ((List.range n).foldl (fun cm node => cm.set node (src.getD node 0)) dst).length
      = dst.length ∧
    ∀ j, ((List.range n).foldl (fun cm node => cm.set node (src.getD node 0)) dst).getD j 0
      = if j < n then (if j < dst.length then src.getD j 0 else 0) else dst.getD j 0 := by
  intro n
  induction n with
  | zero => intro dst; simp
  | succ n ih =>
    intro dst
    rw [List.range_succ, List.foldl_append]
    obtain ⟨hl, hg⟩ := ih dst
    refine ⟨by simp only [List.foldl_cons, List.foldl_nil, List.length_set]; exact hl, ?_⟩
    intro j
    simp only [List.foldl_cons, List.foldl_nil]
    by_cases hjn : j = n
    · subst hjn
      by_cases hd : j < dst.length
      · rw [getD_set_eq _ _ _ _ (by rw [hl]; exact hd)]
        simp [hd]
      · rw [getD_set_self_ge _ _ _ _ _ (by rw [hl]; omega), hg]
        simp [hd]
        simp [List.getD_eq_getElem?_getD, List.getElem?_eq_none (Nat.le_of_not_lt hd)]
    · rw [getD_set_ne _ _ _ _ _ (Ne.symm hjn), hg]
      by_cases h1 : j < n
      · simp [h1, Nat.lt_succ_of_lt h1]
      · have : ¬ j < n + 1 := by omega
        simp [h1, this]

/-! ## First-encounter order -/

theorem mem_first_seen {α : Type} [DecidableEq α] (keys : Nat → α) (x : α) :
    ∀ i, x ∈ first_seen keys i ↔ ∃ j, j < i ∧ keys j = x := by
  intro i
  induction i with
  | zero => simp [first_seen]
  | succ i ih =>
    unfold first_seen
    split
    · rename_i hmem
      rw [ih]
      constructor
      · rintro ⟨j, hj, rfl⟩; exact ⟨j, by omega, rfl⟩
      · rintro ⟨j, hj, rfl⟩
        by_cases hji : j = i
        · subst hji; exact ih.mp hmem
        · exact ⟨j, by omega, rfl⟩
    · rw [List.mem_append, ih]
      constructor
      · rintro (⟨j, hj, rfl⟩ | h)
        · exact ⟨j, by omega, rfl⟩
        · exact ⟨i, by omega, (List.mem_singleton.mp h).symm⟩
      · rintro ⟨j, hj, rfl⟩
        by_cases hji : j = i
        · subst hji; right; simp
        · left; exact ⟨j, by omega, rfl⟩

theorem first_seen_succ_of_mem {α : Type} [DecidableEq α] (keys : Nat → α) (i : Nat)
    (h : keys i ∈ first_seen keys i) : first_seen keys (i + 1) = first_seen keys i := by
  rw [first_seen]; simp [h]

theorem first_seen_succ_of_not_mem {α : Type} [DecidableEq α] (keys : Nat → α) (i : Nat)
    (h : keys i ∉ first_seen keys i) :
    first_seen keys (i + 1) = first_seen keys i ++ [keys i] := by
  rw [first_seen]; simp [h]

theorem first_seen_nodup {α : Type} [DecidableEq α] (keys : Nat → α) :
    ∀ i, (first_seen keys i).Nodup := by
  intro i
  induction i with
  | zero => simp [first_seen]
  | succ i ih =>
    by_cases h : keys i ∈ first_seen keys i
    · rw [first_seen_succ_of_mem keys i h]; exact ih
    · rw [first_seen_succ_of_not_mem keys i h]
      exact List.Nodup.append ih (List.nodup_singleton _) (by
        intro a ha hb
        rw [List.mem_singleton] at hb
        subst hb
        exact h ha)

theorem first_seen_length_le {α : Type} [DecidableEq α] (keys : Nat → α) (i : Nat) :
    (first_seen keys i).length ≤ (first_seen keys (i + 1)).length := by
  by_cases h : keys i ∈ first_seen keys i
  · rw [first_seen_succ_of_mem keys i h]
  · rw [first_seen_succ_of_not_mem keys i h]; simp

theorem indexOf_first_seen_succ {α : Type} [DecidableEq α] (keys : Nat → α) (i : Nat) (x : α)
    (hx : x ∈ first_seen keys i) :
    (first_seen keys (i + 1)).indexOf x = (first_seen keys i).indexOf x := by
  by_cases h : keys i ∈ first_seen keys i
  · rw [first_seen_succ_of_mem keys i h]
  · rw [first_seen_succ_of_not_mem keys i h, List.indexOf_append_of_mem hx]

theorem indexOf_first_seen_stable {α : Type} [DecidableEq α] (keys : Nat → α) (i : Nat) (x : α)
    (hx : x ∈ first_seen keys i) :
    ∀ n, i ≤ n → (first_seen keys n).indexOf x = (first_seen keys i).indexOf x := by
  intro n hn
  induction n with
  | zero =>
    have : i = 0 := by omega
    subst this; rfl
  | succ n ih =>
    by_cases hin : i = n + 1
    · subst hin; rfl
    · have hle : i ≤ n := by omega
      have hmem : x ∈ first_seen keys n := by
        rw [mem_first_seen] at hx ⊢
        obtain ⟨j, hj, hjx⟩ := hx
        exact ⟨j, by omega, hjx⟩
      rw [indexOf_first_seen_succ keys n x hmem, ih hle]

theorem first_label_lt {α : Type} [DecidableEq α] (keys : Nat → α) (n j : Nat) (hj : j < n) :
    first_label keys n j < (first_seen keys n).length := by
  unfold first_label
  rw [List.indexOf_lt_length, mem_first_seen]
  exact ⟨j, hj, rfl⟩

theorem first_label_eq_iff {α : Type} [DecidableEq α] (keys : Nat → α) (n a b : Nat)
    (ha : a < n) (hb : b < n) :
    first_label keys n a = first_label keys n b ↔ keys a = keys b := by
  unfold first_label
  exact List.indexOf_inj ((mem_first_seen keys _ n).mpr ⟨a, ha, rfl⟩)
    ((mem_first_seen keys _ n).mpr ⟨b, hb, rfl⟩)

theorem first_label_surj {α : Type} [DecidableEq α] (keys : Nat → α) (n v : Nat)
    (hv : v < (first_seen keys n).length) : ∃ j, j < n ∧ first_label keys n j = v := by
  have hmem : (first_seen keys n)[v] ∈ first_seen keys n := List.getElem_mem hv
  rw [mem_first_seen] at hmem
  obtain ⟨j, hj, hjk⟩ := hmem
  refine ⟨j, hj, ?_⟩
  unfold first_label
  rw [hjk]
  exact List.indexOf_getElem (first_seen_nodup keys n) v hv

theorem first_seen_length_eq_card {α : Type} [DecidableEq α] (keys : Nat → α) (n : Nat) :
    (first_seen keys n).length = ((Finset.range n).image keys).card := by
  rw [← List.toFinset_card_of_nodup (first_seen_nodup keys n)]
  congr 1
  ext x
  rw [List.mem_toFinset, mem_first_seen, Finset.mem_image]
  constructor
  · rintro ⟨j, hj, h⟩; exact ⟨j, Finset.mem_range.mpr hj, h⟩
  · rintro ⟨j, hj, h⟩; exact ⟨j, Finset.mem_range.mp hj, h⟩

/-- The label of node `i` at the moment it is visited: either the label of an
earlier node, or the number of labels handed out so far. -/
theorem first_label_next {α : Type} [DecidableEq α] (keys : Nat → α) (n i : Nat) (hi : i < n) :
    (∃ j, j < i ∧ first_label keys n j = first_label keys n i) ∨
    (first_label keys n i = (first_seen keys i).length ∧
      ∀ j, j < i → first_label keys n j < first_label keys n i) := by
  by_cases h : keys i ∈ first_seen keys i
  · left
    rw [mem_first_seen] at h
    obtain ⟨j, hj, hjk⟩ := h
    exact ⟨j, hj, by unfold first_label; rw [hjk]⟩
  · right
    have hmem : keys i ∈ first_seen keys (i + 1) := (mem_first_seen keys _ _).mpr ⟨i, by omega, rfl⟩
    have h1 : first_label keys n i = (first_seen keys i).length := by
      unfold first_label
      rw [indexOf_first_seen_stable keys (i + 1) _ hmem n (by omega),
        first_seen_succ_of_not_mem keys i h, List.indexOf_append_of_not_mem h]
      simp
    refine ⟨h1, ?_⟩
    intro j hj
    rw [h1]
    have hmemj : keys j ∈ first_seen keys i := (mem_first_seen keys _ _).mpr ⟨j, hj, rfl⟩
    unfold first_label
    rw [indexOf_first_seen_stable keys i _ hmemj n (by omega)]
    exact List.indexOf_lt_length.mpr hmemj

theorem map_find_cons {α : Type} [DecidableEq α] (m : List (α × Nat)) (k1 k : α) (v : Nat) :
    map_find ((k1, v) :: m) k = if k1 = k then some v else map_find m k := rfl

/-- The invariant of the renumbering loop after `i` iterations. -/
theorem renumber_fold_spec {α : Type} [DecidableEq α] (key : Nat → Nat → α) (keys : Nat → α)
    (arr0 : List Nat) (n : Nat) (hlen : arr0.length = n)
    (hkey : ∀ j, j < n → key j (arr0.getD j 0) = keys j) :
    ∀ i, i ≤ n →
      (∀ k, map_find ((List.range i).foldl (renumber_visit key) ([], 0, arr0)).1 k
          = if k ∈ first_seen keys i then some ((first_seen keys i).indexOf k) else none) ∧
      ((List.range i).foldl (renumber_visit key) ([], 0, arr0)).2.1
          = (first_seen keys i).length ∧
      ((List.range i).foldl (renumber_visit key) ([], 0, arr0)).1.length
          = (first_seen keys i).length ∧
      ((List.range i).foldl (renumber_visit key) ([], 0, arr0)).2.2.length = n ∧
      (∀ j, j < i → ((List.range i).foldl (renumber_visit key) ([], 0, arr0)).2.2.getD j 0
          = (first_seen keys i).indexOf (keys j)) ∧
      (∀ j, i ≤ j → ((List.range i).foldl (renumber_visit key) ([], 0, arr0)).2.2.getD j 0
          = arr0.getD j 0) := by
  intro i
  induction i with
  | zero =>
    intro _
    refine ⟨fun k => by simp [first_seen, map_find], by simp [first_seen], by simp [first_seen],
      by simpa using hlen, fun j hj => by omega, fun j _ => by simp⟩
  | succ i ih =>
    intro hi
    obtain ⟨ha, hb, hb2, hc, hd, he⟩ := ih (by omega)
    rw [List.range_succ, List.foldl_append]
    simp only [List.foldl_cons, List.foldl_nil]
    generalize (List.range i).foldl (renumber_visit key) ([], 0, arr0) = st at ha hb hb2 hc hd he
    obtain ⟨m, c, arr⟩ := st
    simp only at ha hb hb2 hc hd he
    have hk : key i (arr.getD i 0) = keys i := by
      rw [he i (le_refl i)]; exact hkey i (by omega)
    have hilt : i < arr.length := by omega
    unfold renumber_visit
    simp only [hk]
    by_cases hmem : keys i ∈ first_seen keys i
    · have hf : map_find m (keys i) = some ((first_seen keys i).indexOf (keys i)) := by
        rw [ha]; simp [hmem]
      rw [hf]
      simp only
      rw [first_seen_succ_of_mem keys i hmem]
      refine ⟨ha, hb, hb2, by simpa using hc, ?_, ?_⟩
      · intro j hj
        by_cases hji : j = i
        · subst hji; rw [getD_set_eq _ _ _ _ hilt]
        · rw [getD_set_ne _ _ _ _ _ (Ne.symm hji)]; exact hd j (by omega)
      · intro j hj
        rw [getD_set_ne _ _ _ _ _ (by omega)]; exact he j (by omega)
    · have hf : map_find m (keys i) = none := by
        rw [ha]; simp [hmem]
      rw [hf]
      simp only
      rw [first_seen_succ_of_not_mem keys i hmem]
      refine ⟨?_, by simp [hb], by simp [hb2], by simpa using hc, ?_, ?_⟩
      · intro k
        rw [map_find_cons]
        by_cases hkk : keys i = k
        · subst hkk
          simp [List.indexOf_append_of_not_mem hmem, hb]
        · rw [if_neg hkk, ha]
          by_cases hkm : k ∈ first_seen keys i
          · simp [hkm, List.indexOf_append_of_mem hkm]
          · have : ¬ k = keys i := fun h => hkk h.symm
            simp [hkm, this]
      · intro j hj
        by_cases hji : j = i
        · subst hji
          rw [getD_set_eq _ _ _ _ hilt, List.indexOf_append_of_not_mem hmem, hb]
          simp
        · rw [getD_set_ne _ _ _ _ _ (Ne.symm hji), hd j (by omega)]
          have hmemj : keys j ∈ first_seen keys i :=
            (mem_first_seen keys _ _).mpr ⟨j, by omega, rfl⟩
          rw [List.indexOf_append_of_mem hmemj]
      · intro j hj
        rw [getD_set_ne _ _ _ _ _ (by omega)]; exact he j (by omega)

theorem foldl_hom {S T ι : Type} (φ : S → T) (f : S → ι → S) (g : T → ι → T)
    (h : ∀ s i, φ (f s i) = g (φ s) i) : ∀ (l : List ι) (s : S),
    φ (l.foldl f s) = l.foldl g (φ s) := by
  intro l
  induction l with
  | nil => intro s; rfl
  | cons x xs ih => intro s; simp only [List.foldl_cons]; rw [ih, h]

theorem mem_iff_getD (l : List Nat) (v : Nat) :
    v ∈ l ↔ ∃ j, j < l.length ∧ l.getD j 0 = v := by
  rw [List.mem_iff_getElem]
  constructor
  · rintro ⟨j, hj, h⟩; exact ⟨j, hj, by rw [List.getD_eq_getElem _ _ hj]; exact h⟩
  · rintro ⟨j, hj, h⟩; exact ⟨j, hj, by rw [List.getD_eq_getElem _ _ hj] at h; exact h⟩

theorem image_label_key (cluster_id : List Nat) :
    (Finset.range cluster_id.length).image (label_key cluster_id) = cluster_id.toFinset := by
  ext x
  rw [Finset.mem_image, List.mem_toFinset, mem_iff_getD]
  constructor
  · rintro ⟨j, hj, h⟩; exact ⟨j, Finset.mem_range.mp hj, h⟩
  · rintro ⟨j, hj, h⟩; exact ⟨j, Finset.mem_range.mpr hj, h⟩

theorem remap_visit_toTriple (st : RemapState) (node : Nat) :
    (remap_visit st node).toTriple = renumber_visit (fun _ x => x) st.toTriple node := by
  unfold remap_visit renumber_visit RemapState.toTriple
  simp only
  cases h : map_find st.remap (st.cluster_id.getD node 0) with
  | none => simp [-List.getD_eq_getElem?_getD, map_insert, map_find_cons]
  | some v => simp [-List.getD_eq_getElem?_getD, h]

theorem ensemble_visit_toTriple (G : graph_access) (lhs rhs : List Nat) (st : EnsembleState)
    (node : Nat) :
    (ensemble_visit G lhs rhs st node).toTriple
      = renumber_visit (fun i _ => pair_key lhs rhs i) st.toTriple node := by
  unfold ensemble_visit renumber_visit EnsembleState.toTriple pair_key ensemble_pair.key
  simp only
  cases h : map_find st.new_mapping (lhs.getD node 0, rhs.getD node 0) with
  | none => simp [-List.getD_eq_getElem?_getD, map_insert, map_find_cons]
  | some v => simp [-List.getD_eq_getElem?_getD, h]

theorem ensemble_visit_shared_toTriple (G : graph_access) (lhs : List Nat) (st : EnsembleState)
    (node : Nat) :
    (ensemble_visit G lhs st.output st node).toTriple
      = renumber_visit (fun i x => (lhs.getD i 0, x)) st.toTriple node := by
  unfold ensemble_visit renumber_visit EnsembleState.toTriple ensemble_pair.key
  simp only
  cases h : map_find st.new_mapping (lhs.getD node 0, st.output.getD node 0) with
  | none => simp [-List.getD_eq_getElem?_getD, map_insert, map_find_cons]
  | some v => simp [-List.getD_eq_getElem?_getD, h]

/-- The result of the loop of `remap_cluster_ids`, in closed form. -/
theorem remap_loop_spec (G : graph_access) (cluster_id : List Nat)
    (hlen : cluster_id.length = G.number_of_nodes) :
    (remap_loop G cluster_id).cur_no_clusters
      = (first_seen (label_key cluster_id) G.number_of_nodes).length ∧
    (remap_loop G cluster_id).cluster_id.length = G.number_of_nodes ∧
    ∀ j, j < G.number_of_nodes → (remap_loop G cluster_id).cluster_id.getD j 0
      = first_label (label_key cluster_id) G.number_of_nodes j := by
  have hspec := renumber_fold_spec (fun _ x => x) (label_key cluster_id) cluster_id
    G.number_of_nodes hlen (fun j _ => rfl) G.number_of_nodes (le_refl _)
  have hhom := foldl_hom RemapState.toTriple remap_visit (renumber_visit (fun _ x => x))
    remap_visit_toTriple (List.range G.number_of_nodes)
    { remap := [], cur_no_clusters := 0, cluster_id := cluster_id }
  have e : (remap_loop G cluster_id).toTriple
      = (List.range G.number_of_nodes).foldl (renumber_visit (fun _ x => x))
          ([], 0, cluster_id) := hhom
  rw [← e] at hspec
  obtain ⟨_, hb, _, hc, hd, _⟩ := hspec
  exact ⟨hb, hc, hd⟩

/-- The result of the loop of `ensemble_two_clusterings` on distinct vectors,
in closed form. -/
theorem ensemble_loop_spec (G : graph_access) (lhs rhs output : List Nat)
    (hout : output.length = lhs.length) :
    (ensemble_loop G lhs rhs output).no_of_coarse_vertices
      = (first_seen (pair_key lhs rhs) lhs.length).length ∧
    (ensemble_loop G lhs rhs output).new_mapping.length
      = (first_seen (pair_key lhs rhs) lhs.length).length ∧
    (ensemble_loop G lhs rhs output).output.length = lhs.length ∧
    ∀ j, j < lhs.length → (ensemble_loop G lhs rhs output).output.getD j 0
      = first_label (pair_key lhs rhs) lhs.length j := by
  have hspec := renumber_fold_spec (fun i _ => pair_key lhs rhs i) (pair_key lhs rhs) output
    lhs.length hout (fun j _ => rfl) lhs.length (le_refl _)
  have hhom := foldl_hom EnsembleState.toTriple (ensemble_visit G lhs rhs)
    (renumber_visit (fun i _ => pair_key lhs rhs i))
    (ensemble_visit_toTriple G lhs rhs) (List.range lhs.length)
    { new_mapping := [], no_of_coarse_vertices := 0, output := output }
  have e : (ensemble_loop G lhs rhs output).toTriple
      = (List.range lhs.length).foldl (renumber_visit (fun i _ => pair_key lhs rhs i))
          ([], 0, output) := hhom
  rw [← e] at hspec
  obtain ⟨_, hb, hb2, hc, hd, _⟩ := hspec
  exact ⟨hb, hb2, hc, hd⟩

/-- The result of the loop of `ensemble_two_clusterings` when `rhs` and
`output` are the same vector, in closed form. -/
theorem ensemble_loop_shared_spec (G : graph_access) (lhs shared : List Nat)
    (hlen : shared.length = lhs.length) :
    (ensemble_loop_shared G lhs shared).no_of_coarse_vertices
      = (first_seen (pair_key lhs shared) lhs.length).length ∧
    (ensemble_loop_shared G lhs shared).new_mapping.length
      = (first_seen (pair_key lhs shared) lhs.length).length ∧
    (ensemble_loop_shared G lhs shared).output.length = lhs.length ∧
    ∀ j, j < lhs.length → (ensemble_loop_shared G lhs shared).output.getD j 0
      = first_label (pair_key lhs shared) lhs.length j := by
  have hspec := renumber_fold_spec (fun i x => (lhs.getD i 0, x)) (pair_key lhs shared) shared
    lhs.length hlen (fun j _ => rfl) lhs.length (le_refl _)
  have hhom := foldl_hom EnsembleState.toTriple
    (fun st node => ensemble_visit G lhs st.output st node)
    (renumber_visit (fun i x => (lhs.getD i 0, x)))
    (ensemble_visit_shared_toTriple G lhs) (List.range lhs.length)
    { new_mapping := [], no_of_coarse_vertices := 0, output := shared }
  have e : (ensemble_loop_shared G lhs shared).toTriple
      = (List.range lhs.length).foldl (renumber_visit (fun i x => (lhs.getD i 0, x)))
          ([], 0, shared) := hhom
  rw [← e] at hspec
  obtain ⟨_, hb, hb2, hc, hd, _⟩ := hspec
  exact ⟨hb, hb2, hc, hd⟩

/-- The values of a vector of first-encounter labels are exactly the numbers
below the number of distinct keys. -/
theorem dense_of_first_label {α : Type} [DecidableEq α] (keys : Nat → α) (n : Nat)
    (out : List Nat) (hlen : out.length = n)
    (hout : ∀ j, j < n → out.getD j 0 = first_label keys n j) (v : Nat) :
    v ∈ out ↔ v < (first_seen keys n).length := by
  rw [mem_iff_getD]
  constructor
  · rintro ⟨j, hj, rfl⟩
    rw [hout j (by omega)]
    exact first_label_lt keys n j (by omega)
  · intro hv
    obtain ⟨j, hj, h⟩ := first_label_surj keys n v hv
    exact ⟨j, by omega, by rw [hout j hj]; exact h⟩

theorem first_label_order {α : Type} [DecidableEq α] (keys : Nat → α) (n : Nat)
    (out : List Nat) (hlen : out.length = n)
    (hout : ∀ j, j < n → out.getD j 0 = first_label keys n j) : FirstEncounterOrder out := by
  have key : ∀ i, i < n →
      (∃ j, j < i ∧ out.getD j 0 = out.getD i 0) ∨
      ((∀ j, j < i → out.getD j 0 < out.getD i 0) ∧
        (0 < i → ∃ j, j < i ∧ out.getD j 0 + 1 = out.getD i 0)) := by
    intro i hi
    rcases first_label_next keys n i hi with ⟨j, hj, h⟩ | ⟨h1, h2⟩
    · left; exact ⟨j, hj, by rw [hout j (by omega), hout i hi]; exact h⟩
    · right
      refine ⟨fun j hj => by rw [hout j (by omega), hout i hi]; exact h2 j hj, ?_⟩
      intro hpos
      have hmem0 : keys 0 ∈ first_seen keys i := (mem_first_seen keys _ _).mpr ⟨0, hpos, rfl⟩
      have hlenpos : 0 < (first_seen keys i).length := List.length_pos_of_mem hmem0
      obtain ⟨j, hj, hjv⟩ := first_label_surj keys i ((first_seen keys i).length - 1) (by omega)
      refine ⟨j, hj, ?_⟩
      have hmemj : keys j ∈ first_seen keys i := (mem_first_seen keys _ _).mpr ⟨j, hj, rfl⟩
      have hst : first_label keys n j = first_label keys i j :=
        indexOf_first_seen_stable keys i _ hmemj n (by omega)
      rw [hout j (by omega), hout i hi, h1, hst, hjv]
      omega
  refine ⟨?_, fun i hi => key i (by omega)⟩
  intro hpos
  rcases key 0 (by omega) with ⟨j, hj, _⟩ | ⟨_, _⟩
  · omega
  · rcases first_label_next keys n 0 (by omega) with ⟨j, hj, _⟩ | ⟨h1, _⟩
    · omega
    · rw [hout 0 (by omega), h1]; rfl

/-! ## Cluster weights -/

theorem cluster_weight_split (G : graph_access) (cluster_id : List Nat) (c node : Nat)
    (h : node < G.number_of_nodes) :
    cluster_weight G cluster_id c
      = (if cluster_id.getD node 0 = c then G.getNodeWeight node else 0)
        + ∑ i in (Finset.range G.number_of_nodes).erase node,
            if cluster_id.getD i 0 = c then G.getNodeWeight i else 0 :=
  (Finset.add_sum_erase _ _ (Finset.mem_range.mpr h)).symm

theorem total_weight_split (G : graph_access) (node : Nat) (h : node < G.number_of_nodes) :
    total_weight G
      = G.getNodeWeight node + ∑ i in (Finset.range G.number_of_nodes).erase node,
          G.getNodeWeight i :=
  (Finset.add_sum_erase _ _ (Finset.mem_range.mpr h)).symm

theorem cluster_weight_set (G : graph_access) (cluster_id : List Nat) (c node m : Nat)
    (h : node < G.number_of_nodes) (hl : cluster_id.length = G.number_of_nodes) :
    cluster_weight G (cluster_id.set node m) c
        + (if cluster_id.getD node 0 = c then G.getNodeWeight node else 0)
      = cluster_weight G cluster_id c + (if m = c then G.getNodeWeight node else 0) := by
  rw [cluster_weight_split G (cluster_id.set node m) c node h,
    cluster_weight_split G cluster_id c node h, getD_set_eq _ _ _ _ (by omega)]
  have e : (∑ i in (Finset.range G.number_of_nodes).erase node,
        if (cluster_id.set node m).getD i 0 = c then G.getNodeWeight i else 0)
      = ∑ i in (Finset.range G.number_of_nodes).erase node,
        if cluster_id.getD i 0 = c then G.getNodeWeight i else 0 := by
    apply Finset.sum_congr rfl
    intro i hi
    rw [getD_set_ne _ _ _ _ _ (Ne.symm (Finset.ne_of_mem_erase hi))]
  rw [e]
  omega

theorem cluster_weight_add_le_total (G : graph_access) (cluster_id : List Nat) (node m : Nat)
    (h : node < G.number_of_nodes) (hne : cluster_id.getD node 0 ≠ m) :
    cluster_weight G cluster_id m + G.getNodeWeight node ≤ total_weight G := by
  rw [cluster_weight_split G cluster_id m node h, total_weight_split G node h, if_neg hne]
  have e : (∑ i in (Finset.range G.number_of_nodes).erase node,
        if cluster_id.getD i 0 = m then G.getNodeWeight i else 0)
      ≤ ∑ i in (Finset.range G.number_of_nodes).erase node, G.getNodeWeight i := by
    apply Finset.sum_le_sum
    intro i _
    split <;> omega
  omega

theorem cluster_weight_le_total (G : graph_access) (cluster_id : List Nat) (c : Nat) :
    cluster_weight G cluster_id c ≤ total_weight G := by
  unfold cluster_weight total_weight
  apply Finset.sum_le_sum
  intro i _
  split <;> omega

theorem le_cluster_weight_self (G : graph_access) (cluster_id : List Nat) (node : Nat)
    (h : node < G.number_of_nodes) :
    G.getNodeWeight node ≤ cluster_weight G cluster_id (cluster_id.getD node 0) := by
  rw [cluster_weight_split G cluster_id _ node h, if_pos rfl]
  omega

theorem cluster_weight_congr (G : graph_access) (cid1 cid2 : List Nat) (c : Nat)
    (h : ∀ i, i < G.number_of_nodes → (cid1.getD i 0 = c ↔ cid2.getD i 0 = c)) :
    cluster_weight G cid1 c = cluster_weight G cid2 c := by
  unfold cluster_weight
  apply Finset.sum_congr rfl
  intro i hi
  have := h i (Finset.mem_range.mp hi)
  by_cases h1 : cid1.getD i 0 = c
  · rw [if_pos h1, if_pos (this.mp h1)]
  · rw [if_neg h1, if_neg (fun h2 => h1 (this.mpr h2))]

/-! ## The weight transfer of a move -/

theorem transfer_length (sizes : List Nat) (src dst w : Nat) :
    (transfer sizes src dst w).length = sizes.length := by
  simp [transfer]

theorem wrap_sub (a w : Nat) (h1 : w ≤ a) (h2 : a < NodeWeight_mod) :
    (a + NodeWeight_mod - w) % NodeWeight_mod = a - w := by
  have e : a + NodeWeight_mod - w = (a - w) + NodeWeight_mod := by omega
  rw [e, Nat.add_mod_right, Nat.mod_eq_of_lt (by omega)]

/-- The transfer of the weight of `node` from its cluster to `m` keeps
`cluster_sizes` exact: no subtraction underflows and no addition overflows. -/
theorem transfer_exact (G : graph_access) (cluster_id sizes : List Nat) (node m : Nat)
    (hn : node < G.number_of_nodes) (hm : m < G.number_of_nodes)
    (hl : cluster_id.length = G.number_of_nodes) (hls : sizes.length = G.number_of_nodes)
    (hid : cluster_id.getD node 0 < G.number_of_nodes)
    (hex : ∀ c, c < G.number_of_nodes → sizes.getD c 0 = cluster_weight G cluster_id c)
    (hw : total_weight G < NodeWeight_mod) :
    ∀ c, c < G.number_of_nodes →
      (transfer sizes (cluster_id.getD node 0) m (G.getNodeWeight node)).getD c 0
        = cluster_weight G (cluster_id.set node m) c := by
  intro c hc
  have hself := le_cluster_weight_self G cluster_id node hn
  have htot := cluster_weight_le_total G cluster_id (cluster_id.getD node 0)
  have hset := cluster_weight_set G cluster_id c node m hn hl
  have hsub : (sizes.getD (cluster_id.getD node 0) 0 + NodeWeight_mod - G.getNodeWeight node)
      % NodeWeight_mod
      = cluster_weight G cluster_id (cluster_id.getD node 0) - G.getNodeWeight node := by
    rw [hex _ hid]
    exact wrap_sub _ _ hself (by omega)
  unfold transfer
  simp only
  rw [hsub]
  by_cases hmm : m = cluster_id.getD node 0
  · subst hmm
    rw [getD_set_eq _ _ _ _ (by omega)]
    have e : (cluster_weight G cluster_id (cluster_id.getD node 0) - G.getNodeWeight node
        + G.getNodeWeight node) % NodeWeight_mod
        = cluster_weight G cluster_id (cluster_id.getD node 0) := by
      rw [Nat.sub_add_cancel hself, Nat.mod_eq_of_lt (by omega)]
    rw [e]
    by_cases hcm : c = cluster_id.getD node 0
    · subst hcm
      rw [getD_set_eq _ _ _ _ (by rw [List.length_set]; omega)]
      simp only [if_true] at hset
      omega
    · rw [getD_set_ne _ _ _ _ _ (Ne.symm hcm), getD_set_ne _ _ _ _ _ (Ne.symm hcm), hex c hc]
      rw [if_neg (Ne.symm hcm)] at hset
      omega
  · rw [getD_set_ne _ _ _ _ _ (Ne.symm hmm), hex m hm]
    have hadd := cluster_weight_add_le_total G cluster_id node m hn (Ne.symm hmm)
    rw [Nat.mod_eq_of_lt (by omega)]
    by_cases hcm : c = m
    · subst hcm
      rw [getD_set_eq _ _ _ _ (by rw [List.length_set]; omega)]
      rw [if_neg (Ne.symm hmm), if_pos rfl] at hset
      omega
    · rw [getD_set_ne _ _ _ _ _ (Ne.symm hcm)]
      rw [if_neg (Ne.symm hcm)] at hset
      by_cases hcs : c = cluster_id.getD node 0
      · subst hcs
        rw [getD_set_eq _ _ _ _ (by omega)]
        simp only [if_true] at hset
        omega
      · rw [getD_set_ne _ _ _ _ _ (Ne.symm hcs), hex c hc]
        rw [if_neg (Ne.symm hcs)] at hset
        omega

theorem getD_set_ite (l : List Nat) (i j a : Nat) (h : i < l.length) :
    (l.set i a).getD j 0 = if j = i then a else l.getD j 0 := by
  by_cases hji : j = i
  · subst hji; rw [if_pos rfl, getD_set_eq _ _ _ _ h]
  · rw [if_neg hji, getD_set_ne _ _ _ _ _ (Ne.symm hji)]

/-- A move of `node` to the cluster `m`, which is its own cluster or a cluster
that the node fits into, preserves the invariant of the two vectors. -/
theorem core_move (G : graph_access) (ub : Nat) (cluster_id sizes : List Nat) (node m : Nat)
    (inv : CoreInv G ub cluster_id sizes)
    (hn : node < G.number_of_nodes) (hm : m < G.number_of_nodes)
    (hw : total_weight G < NodeWeight_mod)
    (hfit : m = cluster_id.getD node 0 ∨
      (sizes.getD m 0 + G.getNodeWeight node) % NodeWeight_mod ≤ ub) :
    CoreInv G ub (cluster_id.set node m)
      (transfer sizes (cluster_id.getD node 0) m (G.getNodeWeight node)) := by
  have hnl : node < cluster_id.length := by rw [inv.len_id]; exact hn
  refine ⟨by rw [List.length_set]; exact inv.len_id,
    by rw [transfer_length]; exact inv.len_sizes, ?_, ?_, ?_⟩
  · intro i hi
    rw [getD_set_ite _ _ _ _ hnl]
    split
    · exact hm
    · exact inv.id_lt i hi
  · exact transfer_exact G cluster_id sizes node m hn hm inv.len_id inv.len_sizes
      (inv.id_lt node hn) inv.exact hw
  · intro a b ha hb hab heq
    rw [getD_set_ite _ _ _ _ hnl, getD_set_ite _ _ _ _ hnl] at heq
    rw [getD_set_ite _ _ _ _ hnl]
    by_cases hmm : m = cluster_id.getD node 0
    · have hsame : ∀ i, (if i = node then m else cluster_id.getD i 0) = cluster_id.getD i 0 := by
        intro i
        split
        · rename_i h; rw [h, hmm]
        · rfl
      rw [hsame a, hsame b] at heq
      rw [hsame a]
      have hc := cluster_weight_congr G (cluster_id.set node m) cluster_id
        (cluster_id.getD a 0) (by
          intro i _
          rw [getD_set_ite _ _ _ _ hnl, hsame i])
      rw [hc]
      exact inv.cap a b ha hb hab heq
    · have hfit2 : cluster_weight G cluster_id m + G.getNodeWeight node ≤ ub := by
        rcases hfit with h | h
        · exact absurd h hmm
        · have hadd := cluster_weight_add_le_total G cluster_id node m hn (Ne.symm hmm)
          rw [inv.exact m hm, Nat.mod_eq_of_lt (by omega)] at h
          exact h
      by_cases hc : (if a = node then m else cluster_id.getD a 0) = m
      · rw [hc]
        have hset := cluster_weight_set G cluster_id m node m hn inv.len_id
        rw [if_neg (Ne.symm hmm), if_pos rfl] at hset
        omega
      · have han : a ≠ node := fun h => hc (by rw [if_pos h])
        rw [if_neg han] at hc heq ⊢
        have hbn : b ≠ node := by
          intro h
          rw [if_pos h] at heq
          exact hc heq
        rw [if_neg hbn] at heq
        have hcap := inv.cap a b ha hb hab heq
        have hset := cluster_weight_set G cluster_id (cluster_id.getD a 0) node m hn inv.len_id
        rw [if_neg (Ne.symm hc)] at hset
        omega

/-! ## The node visit -/

theorem accumulate_edge_skip (cfg : PartitionConfig) (G : graph_access) (node : Nat)
    (st : LPState) (e : Edge) (h : edge_skipped cfg G node e.target = true) :
    accumulate_edge cfg G node st e = st := by
  unfold accumulate_edge
  simp only [h, if_true]

theorem accumulate_edge_take (cfg : PartitionConfig) (G : graph_access) (node : Nat)
    (st : LPState) (e : Edge) (h : edge_skipped cfg G node e.target = false) :
    accumulate_edge cfg G node st e =
      { st with
        neighboring_blocks :=
          if st.hash_map.getD (st.cluster_id.getD e.target 0) 0 = 0
          then st.neighboring_blocks ++ [st.cluster_id.getD e.target 0]
          else st.neighboring_blocks,
        hash_map := st.hash_map.set (st.cluster_id.getD e.target 0)
          ((st.hash_map.getD (st.cluster_id.getD e.target 0) 0 + e.weight)
            % EdgeWeight_mod) } := by
  unfold accumulate_edge
  simp only [h, Bool.false_eq_true, if_false]

theorem accumulate_edge_fields (cfg : PartitionConfig) (G : graph_access) (node : Nat)
    (st : LPState) (e : Edge) :
    (accumulate_edge cfg G node st e).cluster_id = st.cluster_id ∧
    (accumulate_edge cfg G node st e).cluster_sizes = st.cluster_sizes ∧
    (accumulate_edge cfg G node st e).isolated_nodes = st.isolated_nodes ∧
    (accumulate_edge cfg G node st e).coin = st.coin := by
  cases hs : edge_skipped cfg G node e.target with
  | true => rw [accumulate_edge_skip cfg G node st e hs]; exact ⟨rfl, rfl, rfl, rfl⟩
  | false => rw [accumulate_edge_take cfg G node st e hs]; exact ⟨rfl, rfl, rfl, rfl⟩

theorem tally_fields (cfg : PartitionConfig) (G : graph_access) (node : Nat) (st : LPState) :
    (tally cfg G node st).cluster_id = st.cluster_id ∧
    (tally cfg G node st).cluster_sizes = st.cluster_sizes ∧
    (tally cfg G node st).isolated_nodes = st.isolated_nodes ∧
    (tally cfg G node st).coin = st.coin := by
  unfold tally
  generalize G.out_edges node = es
  induction es generalizing st with
  | nil => simp
  | cons e es ih =>
    simp only [List.foldl_cons]
    obtain ⟨h1, h2, h3, h4⟩ := ih (accumulate_edge cfg G node st e)
    obtain ⟨g1, g2, g3, g4⟩ := accumulate_edge_fields cfg G node st e
    exact ⟨h1.trans g1, h2.trans g2, h3.trans g3, h4.trans g4⟩

theorem edge_not_skipped (cfg : PartitionConfig) (G : graph_access) (node target : Nat)
    (h : edge_skipped cfg G node target = false) :
    target < G.number_of_nodes - cfg.quotient_nodes := by
  unfold edge_skipped at h
  simp only [Bool.or_eq_false_iff, decide_eq_false_iff_not] at h
  omega

/-- Every entry of `neighboring_blocks` after the first loop of a visit was
there before, or is the label of a movable node. -/
theorem tally_nb (cfg : PartitionConfig) (G : graph_access) (node : Nat) (R : Nat → Prop)
    (st : LPState) (h1 : ∀ b, b ∈ st.neighboring_blocks → R b)
    (h2 : ∀ t, t < G.number_of_nodes - cfg.quotient_nodes → R (st.cluster_id.getD t 0)) :
    ∀ b, b ∈ (tally cfg G node st).neighboring_blocks → R b := by
  unfold tally
  generalize G.out_edges node = es
  induction es generalizing st with
  | nil => simpa using h1
  | cons e es ih =>
    simp only [List.foldl_cons]
    apply ih
    · intro b hb
      cases hs : edge_skipped cfg G node e.target with
      | true =>
        rw [accumulate_edge_skip cfg G node st e hs] at hb
        exact h1 b hb
      | false =>
        rw [accumulate_edge_take cfg G node st e hs] at hb
        simp only at hb
        split at hb
        · rcases List.mem_append.mp hb with h | h
          · exact h1 b h
          · rw [List.mem_singleton] at h
            rw [h]
            exact h2 _ (edge_not_skipped cfg G node e.target hs)
        · exact h1 b hb
    · intro t ht
      rw [(accumulate_edge_fields cfg G node st e).1]
      exact h2 t ht

theorem select_step_good (G : graph_access) (ub : Nat) (coins : Nat → Bool) (sizes : List Nat)
    (node my : Nat) (R : Nat → Prop) (s : SelState) (cur : Nat)
    (hs : s.max_block = my ∨ (R s.max_block ∧
      (sizes.getD s.max_block 0 + G.getNodeWeight node) % NodeWeight_mod < ub))
    (hcur : R cur) :
    (select_step G ub coins sizes node my s cur).max_block = my ∨
    (R (select_step G ub coins sizes node my s cur).max_block ∧
      (sizes.getD (select_step G ub coins sizes node my s cur).max_block 0
        + G.getNodeWeight node) % NodeWeight_mod < ub) := by
  unfold select_step
  simp only
  split
  · rename_i h
    simp only [Bool.and_eq_true, Bool.or_eq_true, decide_eq_true_eq] at h
    rcases h.2 with h2 | h2
    · right; exact ⟨hcur, h2⟩
    · left; exact h2
  · exact hs

/-- The block chosen by the second loop of a visit is the block of the node, or
a block of `neighboring_blocks` that passed the capacity test. -/
theorem select_good (G : graph_access) (ub : Nat) (coins : Nat → Bool) (st1 : LPState)
    (node : Nat) (R : Nat → Prop) (hnb : ∀ b, b ∈ st1.neighboring_blocks → R b) :
    (select G ub coins st1 node).max_block = st1.cluster_id.getD node 0 ∨
    (R (select G ub coins st1 node).max_block ∧
      (st1.cluster_sizes.getD (select G ub coins st1 node).max_block 0
        + G.getNodeWeight node) % NodeWeight_mod < ub) := by
  unfold select
  have key : ∀ (nb : List Nat) (s : SelState), (∀ b, b ∈ nb → R b) →
      (s.max_block = st1.cluster_id.getD node 0 ∨ (R s.max_block ∧
        (st1.cluster_sizes.getD s.max_block 0 + G.getNodeWeight node) % NodeWeight_mod < ub)) →
      ((nb.foldl (select_step G ub coins st1.cluster_sizes node (st1.cluster_id.getD node 0))
          s).max_block = st1.cluster_id.getD node 0 ∨
        (R (nb.foldl (select_step G ub coins st1.cluster_sizes node
            (st1.cluster_id.getD node 0)) s).max_block ∧
          (st1.cluster_sizes.getD (nb.foldl (select_step G ub coins st1.cluster_sizes node
            (st1.cluster_id.getD node 0)) s).max_block 0
            + G.getNodeWeight node) % NodeWeight_mod < ub)) := by
    intro nb
    induction nb with
    | nil => intro s _ hs; exact hs
    | cons b nb ih =>
      intro s hR hs
      simp only [List.foldl_cons]
      apply ih
      · intro x hx; exact hR x (List.mem_cons_of_mem _ hx)
      · exact select_step_good G ub coins _ node _ R s b hs (hR b (List.mem_cons_self _ _))
  exact key _ _ hnb (Or.inl rfl)

/-- A node visit preserves the invariant of `label_propagation`. -/
theorem visit_inv (cfg : PartitionConfig) (G : graph_access) (ub : Nat) (coins : Nat → Bool)
    (R : Nat → Prop) (I : List Nat → List Nat → Prop) (mc : MoveClosed cfg G ub R I)
    (j : Nat) (st : LPState) (node : Nat) (inv : LPInv R I st) (hn : R node) :
    LPInv R I (visit cfg G ub coins j st node) := by
  obtain ⟨f1, f2, f3, _⟩ := tally_fields cfg G node st
  have hnb : ∀ b, b ∈ (tally cfg G node st).neighboring_blocks → R b :=
    tally_nb cfg G node R st inv.nb_in
      (fun t ht => mc.label _ _ t inv.core (mc.movable t ht))
  have hsel := select_good G ub coins (tally cfg G node st) node R hnb
  rw [f1, f2] at hsel
  have hm : R (select G ub coins (tally cfg G node st) node).max_block := by
    rcases hsel with h | h
    · rw [h]; exact mc.label _ _ node inv.core hn
    · exact h.1
  refine ⟨?_, ?_, ?_⟩
  · show I ((tally cfg G node st).cluster_id.set node _)
      (transfer (tally cfg G node st).cluster_sizes ((tally cfg G node st).cluster_id.getD node 0)
        _ (G.getNodeWeight node))
    rw [f1, f2]
    apply mc.move st.cluster_id st.cluster_sizes node _ inv.core hn hm
    rcases hsel with h | h
    · left; exact h
    · right; exact Nat.le_of_lt h.2
  · intro b hb
    exact absurd hb (List.not_mem_nil b)
  · intro x hx
    have hx2 : x ∈ (if j = 0 ∧ (tally cfg G node st).neighboring_blocks.length = 0
        then (tally cfg G node st).isolated_nodes ++ [node]
        else (tally cfg G node st).isolated_nodes) := hx
    rw [f3] at hx2
    split at hx2
    · rcases List.mem_append.mp hx2 with h | h
      · exact inv.iso_in x h
      · rw [List.mem_singleton] at h; rw [h]; exact hn
    · exact inv.iso_in x hx2

/-! ## The sequence of visits -/

theorem lp_after_zero (cfg : PartitionConfig) (G : graph_access) (ub : Nat)
    (perm : List Nat) (coins : Nat → Bool) :
    lp_after cfg G ub perm coins 0 = lp_init cfg G := by
  simp [lp_after]

theorem lp_after_succ (cfg : PartitionConfig) (G : graph_access) (ub : Nat)
    (perm : List Nat) (coins : Nat → Bool) (k : Nat) (hk : k < (visits cfg perm).length) :
    lp_after cfg G ub perm coins (k + 1)
      = visit cfg G ub coins ((visits cfg perm).getD k (0, 0)).1
          (lp_after cfg G ub perm coins k) ((visits cfg perm).getD k (0, 0)).2 := by
  unfold lp_after
  rw [List.take_succ, List.foldl_append, List.getD_eq_getElem _ _ hk,
    List.getElem?_eq_getElem hk]
  rfl

theorem lp_after_of_le (cfg : PartitionConfig) (G : graph_access) (ub : Nat)
    (perm : List Nat) (coins : Nat → Bool) (k : Nat) (hk : (visits cfg perm).length ≤ k) :
    lp_after cfg G ub perm coins k
      = lp_after cfg G ub perm coins (visits cfg perm).length := by
  unfold lp_after
  rw [List.take_of_length_le hk, List.take_length]

theorem mem_visits (cfg : PartitionConfig) (perm : List Nat) (v : Nat × Nat)
    (h : v ∈ visits cfg perm) : v.1 < cfg.label_iterations ∧ v.2 ∈ perm := by
  unfold visits at h
  rw [List.mem_flatMap] at h
  obtain ⟨j, hj, hv⟩ := h
  rw [List.mem_map] at hv
  obtain ⟨node, hnode, rfl⟩ := hv
  exact ⟨List.mem_range.mp hj, hnode⟩

theorem visits_getD_mem (cfg : PartitionConfig) (perm : List Nat) (k : Nat)
    (hk : k < (visits cfg perm).length) :
    ((visits cfg perm).getD k (0, 0)).2 ∈ perm := by
  rw [List.getD_eq_getElem _ _ hk]
  exact (mem_visits cfg perm _ (List.getElem_mem hk)).2

theorem foldl_flatMap_visits {S : Type} (g : S → Nat × Nat → S) (perm : List Nat) :
    ∀ (js : List Nat) (st : S),
      (js.flatMap (fun j => perm.map (fun node => (j, node)))).foldl g st
        = js.foldl (fun st j => perm.foldl (fun st node => g st (j, node)) st) st := by
  intro js
  induction js with
  | nil => intro st; rfl
  | cons j js ih =>
    intro st
    rw [List.flatMap_cons, List.foldl_append, ih, List.foldl_map]
    rfl

/-- The nested loops of `label_propagation` make the visits of `visits` in
order: the state after the sweeps is the state after the last visit. -/
theorem lp_sweeps_eq (cfg : PartitionConfig) (G : graph_access) (ub : Nat)
    (perm : List Nat) (coins : Nat → Bool) :
    lp_sweeps cfg G ub perm coins = lp_after cfg G ub perm coins (visits cfg perm).length := by
  unfold lp_after lp_sweeps visits sweep
  rw [List.take_length, foldl_flatMap_visits]

/-- The invariant holds after every number of visits. -/
theorem lp_after_inv (cfg : PartitionConfig) (G : graph_access) (ub : Nat)
    (perm : List Nat) (coins : Nat → Bool)
    (R : Nat → Prop) (I : List Nat → List Nat → Prop) (mc : MoveClosed cfg G ub R I)
    (hinit : I (lp_init cfg G).cluster_id (lp_init cfg G).cluster_sizes)
    (hperm : ∀ node, node ∈ perm → R node) :
    ∀ k, LPInv R I (lp_after cfg G ub perm coins k) := by
  intro k
  induction k with
  | zero =>
    rw [lp_after_zero]
    refine ⟨hinit, ?_, ?_⟩
    · intro b hb
      have hb2 : b ∈ List.replicate (moving_nodes cfg G) 0 := hb
      rw [List.mem_replicate] at hb2
      rw [hb2.2]
      exact mc.movable 0 (by unfold moving_nodes at hb2; omega)
    · intro x hx
      exact absurd hx (List.not_mem_nil x)
  | succ k ih =>
    by_cases hk : k < (visits cfg perm).length
    · rw [lp_after_succ cfg G ub perm coins k hk]
      exact visit_inv cfg G ub coins R I mc _ _ _ ih
        (hperm _ (visits_getD_mem cfg perm k hk))
    · rw [lp_after_of_le cfg G ub perm coins (k + 1) (by omega),
        ← lp_after_of_le cfg G ub perm coins k (by omega)]
      exact ih

/-! ## The reconciliation of isolated nodes -/

theorem iso_accepts_fit (cfg : PartitionConfig) (G : graph_access) (ub : Nat) (st : IsoState)
    (node target : Nat) (h : iso_accepts cfg G ub st node target = true) :
    st.cluster_id.getD target 0 = st.cluster_id.getD node 0 ∨
    (st.cluster_sizes.getD (st.cluster_id.getD target 0) 0 + G.getNodeWeight node)
      % NodeWeight_mod ≤ ub := by
  unfold iso_accepts at h
  simp only [Bool.and_eq_true, Bool.or_eq_true, decide_eq_true_eq] at h
  rcases h.1.1 with h1 | h1
  · right; exact h1
  · left; exact h1

theorem iso_inner_inv (cfg : PartitionConfig) (G : graph_access) (ub : Nat)
    (R : Nat → Prop) (I : List Nat → List Nat → Prop) (mc : MoveClosed cfg G ub R I)
    (iso : List Nat) (node : Nat) (hn : R node) :
    ∀ (cands : List Nat) (st : IsoState), (∀ it2, it2 ∈ cands → R (iso.getD it2 0)) →
      I st.cluster_id st.cluster_sizes →
      I (iso_inner cfg G ub iso node cands st).cluster_id
        (iso_inner cfg G ub iso node cands st).cluster_sizes := by
  intro cands
  induction cands with
  | nil => intro st _ h; exact h
  | cons it2 rest ih =>
    intro st hc h
    have hrest : ∀ x, x ∈ rest → R (iso.getD x 0) :=
      fun x hx => hc x (List.mem_cons_of_mem _ hx)
    rw [iso_inner]
    simp only
    split
    · exact ih st hrest h
    · split
      · rename_i hacc
        exact mc.move st.cluster_id st.cluster_sizes node _ h hn
          (mc.label _ _ _ h (hc it2 (List.mem_cons_self _ _)))
          (iso_accepts_fit cfg G ub st node _ hacc)
      · exact ih st hrest h

theorem iso_outer_inv (cfg : PartitionConfig) (G : graph_access) (ub : Nat)
    (R : Nat → Prop) (I : List Nat → List Nat → Prop) (mc : MoveClosed cfg G ub R I)
    (iso : List Nat) (hiso : ∀ x, x ∈ iso → R x) (st : IsoState) (it : Nat)
    (hit : it < iso.length) (h : I st.cluster_id st.cluster_sizes) :
    I (iso_outer cfg G ub iso st it).cluster_id (iso_outer cfg G ub iso st it).cluster_sizes := by
  have hget : ∀ i, i < iso.length → R (iso.getD i 0) := by
    intro i hi
    rw [List.getD_eq_getElem _ _ hi]
    exact hiso _ (List.getElem_mem hi)
  unfold iso_outer
  simp only
  split
  · exact h
  · apply iso_inner_inv cfg G ub R I mc iso _ (hget it hit)
    · intro it2 h2
      rw [List.mem_range'_1] at h2
      exact hget it2 (by omega)
    · exact h

/-- The function `cluster_isolated_nodes` preserves every move-closed property,
when the isolated nodes belong to `R`. -/
theorem cluster_isolated_nodes_inv (cfg : PartitionConfig) (G : graph_access) (ub : Nat)
    (R : Nat → Prop) (I : List Nat → List Nat → Prop) (mc : MoveClosed cfg G ub R I)
    (cluster_id sizes iso : List Nat) (hiso : ∀ x, x ∈ iso → R x)
    (h : I cluster_id sizes) :
    I (cluster_isolated_nodes cfg G cluster_id sizes ub iso).cluster_id
      (cluster_isolated_nodes cfg G cluster_id sizes ub iso).cluster_sizes := by
  unfold cluster_isolated_nodes
  have key : ∀ (l : List Nat) (st : IsoState), (∀ it, it ∈ l → it < iso.length) →
      I st.cluster_id st.cluster_sizes →
      I (l.foldl (iso_outer cfg G ub iso) st).cluster_id
        (l.foldl (iso_outer cfg G ub iso) st).cluster_sizes := by
    intro l
    induction l with
    | nil => intro st _ h; exact h
    | cons it l ih =>
      intro st hl h
      simp only [List.foldl_cons]
      apply ih
      · intro x hx; exact hl x (List.mem_cons_of_mem _ hx)
      · exact iso_outer_inv cfg G ub R I mc iso hiso st it (hl it (List.mem_cons_self _ _)) h
  exact key _ _ (fun it hit => List.mem_range.mp hit) h

/-- Every move-closed property that holds initially holds of the vectors of
`label_propagation` just before `remap_cluster_ids`. -/
theorem lp_reconciled_inv (cfg : PartitionConfig) (G : graph_access) (ub : Nat)
    (perm : List Nat) (coins : Nat → Bool)
    (R : Nat → Prop) (I : List Nat → List Nat → Prop) (mc : MoveClosed cfg G ub R I)
    (hinit : I (lp_init cfg G).cluster_id (lp_init cfg G).cluster_sizes)
    (hperm : ∀ node, node ∈ perm → R node) :
    I (lp_reconciled cfg G ub perm coins).cluster_id
      (lp_reconciled cfg G ub perm coins).cluster_sizes := by
  have inv := lp_after_inv cfg G ub perm coins R I mc hinit hperm (visits cfg perm).length
  rw [← lp_sweeps_eq] at inv
  unfold lp_reconciled
  simp only
  split
  · exact cluster_isolated_nodes_inv cfg G ub R I mc _ _ _ inv.iso_in inv.core
  · exact inv.core

/-! ## Three move-closed properties -/

theorem getD_range (n i : Nat) (h : i < n) : (List.range n).getD i 0 = i := by
  rw [List.getD_eq_getElem _ _ (by rw [List.length_range]; exact h), List.getElem_range]

theorem getD_map_range (f : Nat → Nat) (n i : Nat) (h : i < n) :
    ((List.range n).map f).getD i 0 = f i := by
  rw [List.getD_eq_getElem _ _ (by rw [List.length_map, List.length_range]; exact h),
    List.getElem_map, List.getElem_range]

theorem cluster_weight_range (G : graph_access) (c : Nat) (hc : c < G.number_of_nodes) :
    cluster_weight G (List.range G.number_of_nodes) c = G.getNodeWeight c := by
  unfold cluster_weight
  have e : (∑ i in Finset.range G.number_of_nodes,
        if (List.range G.number_of_nodes).getD i 0 = c then G.getNodeWeight i else 0)
      = ∑ i in Finset.range G.number_of_nodes, if i = c then G.getNodeWeight i else 0 := by
    apply Finset.sum_congr rfl
    intro i hi
    rw [getD_range _ _ (Finset.mem_range.mp hi)]
  rw [e, Finset.sum_ite_eq' (Finset.range G.number_of_nodes) c G.getNodeWeight,
    if_pos (Finset.mem_range.mpr hc)]

theorem core_closed (cfg : PartitionConfig) (G : graph_access) (ub : Nat)
    (hw : total_weight G < NodeWeight_mod) :
    MoveClosed cfg G ub (fun i => i < G.number_of_nodes) (CoreInv G ub) where
  movable := fun t ht => by omega
  label := fun _ _ i inv hi => inv.id_lt i hi
  move := fun cluster_id sizes node m inv hn hm hfit =>
    core_move G ub cluster_id sizes node m inv hn hm hw hfit

theorem core_init (cfg : PartitionConfig) (G : graph_access) (ub : Nat) :
    CoreInv G ub (lp_init cfg G).cluster_id (lp_init cfg G).cluster_sizes where
  len_id := by simp [lp_init]
  len_sizes := by simp [lp_init]
  id_lt := fun i hi => by
    show (List.range G.number_of_nodes).getD i 0 < _
    rw [getD_range _ _ hi]; exact hi
  exact := fun c hc => by
    show ((List.range G.number_of_nodes).map G.getNodeWeight).getD c 0
      = cluster_weight G (List.range G.number_of_nodes) c
    rw [getD_map_range _ _ _ hc, cluster_weight_range G c hc]
  cap := fun a b ha hb hab heq => by
    have heq2 : (List.range G.number_of_nodes).getD a 0
        = (List.range G.number_of_nodes).getD b 0 := heq
    rw [getD_range _ _ ha, getD_range _ _ hb] at heq2
    exact absurd heq2 hab

theorem quot_closed (cfg : PartitionConfig) (G : graph_access) (ub : Nat) :
    MoveClosed cfg G ub (fun i => i < G.number_of_nodes - cfg.quotient_nodes)
      (fun cluster_id _ => QuotInv cfg G cluster_id) where
  movable := fun _ ht => ht
  label := fun _ _ i inv hi => inv.movable i hi
  move := fun cluster_id _ node m inv hn hm _ => by
    have hnl : node < cluster_id.length := by rw [inv.len]; omega
    refine ⟨by rw [List.length_set]; exact inv.len, ?_, ?_⟩
    · intro i h1 h2
      rw [getD_set_ne _ _ _ _ _ (by omega)]
      exact inv.fixed i h1 h2
    · intro i hi
      rw [getD_set_ite _ _ _ _ hnl]
      split
      · exact hm
      · exact inv.movable i hi

theorem quot_init (cfg : PartitionConfig) (G : graph_access) :
    QuotInv cfg G (lp_init cfg G).cluster_id where
  len := by simp [lp_init]
  fixed := fun i _ h2 => getD_range _ _ h2
  movable := fun i hi => by
    show (List.range G.number_of_nodes).getD i 0 < _
    rw [getD_range _ _ (by omega)]; exact hi

theorem length_closed (cfg : PartitionConfig) (G : graph_access) (ub : Nat) :
    MoveClosed cfg G ub (fun _ => True)
      (fun cluster_id _ => cluster_id.length = G.number_of_nodes) where
  movable := fun _ _ => trivial
  label := fun _ _ _ _ _ => trivial
  move := fun cluster_id _ node m h _ _ _ => by rw [List.length_set]; exact h

/-- The vector `cluster_id` has one entry per node just before
`remap_cluster_ids`, whatever the inputs. -/
theorem lp_reconciled_length (cfg : PartitionConfig) (G : graph_access) (ub : Nat)
    (perm : List Nat) (coins : Nat → Bool) :
    (lp_reconciled cfg G ub perm coins).cluster_id.length = G.number_of_nodes :=
  lp_reconciled_inv cfg G ub perm coins (fun _ => True)
    (fun cluster_id _ => cluster_id.length = G.number_of_nodes) (length_closed cfg G ub)
    (by simp [lp_init]) (fun _ _ => trivial)

/-! ## Consequences for label_propagation -/

/-- The sum of `cluster_sizes` over the labels in use is the total weight. -/
theorem sum_referenced (G : graph_access) (ub : Nat) (cluster_id sizes : List Nat)
    (inv : CoreInv G ub cluster_id sizes) :
    ∑ c in cluster_id.toFinset, sizes.getD c 0 = total_weight G := by
  have hmem : ∀ i, i < G.number_of_nodes → cluster_id.getD i 0 ∈ cluster_id.toFinset := by
    intro i hi
    rw [List.mem_toFinset, mem_iff_getD]
    exact ⟨i, by rw [inv.len_id]; exact hi, rfl⟩
  have e1 : ∑ c in cluster_id.toFinset, sizes.getD c 0
      = ∑ c in cluster_id.toFinset, cluster_weight G cluster_id c := by
    apply Finset.sum_congr rfl
    intro c hc
    rw [List.mem_toFinset, mem_iff_getD] at hc
    obtain ⟨i, hi, rfl⟩ := hc
    rw [inv.len_id] at hi
    exact inv.exact _ (inv.id_lt i hi)
  rw [e1]
  unfold cluster_weight total_weight
  rw [Finset.sum_comm]
  apply Finset.sum_congr rfl
  intro i hi
  rw [Finset.sum_ite_eq, if_pos (hmem i (Finset.mem_range.mp hi))]

/-- The output of `label_propagation`: one dense label per node. -/
theorem label_propagation_dense (cfg : PartitionConfig) (G : graph_access) (ub : Nat)
    (perm : List Nat) (coins : Nat → Bool) :
    (label_propagation cfg G ub perm coins).1.length = G.number_of_nodes ∧
    DenseLabels (label_propagation cfg G ub perm coins).1
      (label_propagation cfg G ub perm coins).2 := by
  have hlen := lp_reconciled_length cfg G ub perm coins
  obtain ⟨hb, hc, hd⟩ := remap_loop_spec G _ hlen
  refine ⟨hc, ?_⟩
  intro v
  show v ∈ (remap_loop G (lp_reconciled cfg G ub perm coins).cluster_id).cluster_id
    ↔ v < (remap_loop G (lp_reconciled cfg G ub perm coins).cluster_id).cur_no_clusters
  rw [hb]
  exact dense_of_first_label _ G.number_of_nodes _ hc hd v

/-- Two nodes share their final label exactly when they shared their label
before `remap_cluster_ids`. -/
theorem label_propagation_same_iff (cfg : PartitionConfig) (G : graph_access) (ub : Nat)
    (perm : List Nat) (coins : Nat → Bool) (a b : Nat)
    (ha : a < G.number_of_nodes) (hb : b < G.number_of_nodes) :
    (label_propagation cfg G ub perm coins).1.getD a 0
        = (label_propagation cfg G ub perm coins).1.getD b 0
      ↔ (lp_reconciled cfg G ub perm coins).cluster_id.getD a 0
        = (lp_reconciled cfg G ub perm coins).cluster_id.getD b 0 := by
  have hlen := lp_reconciled_length cfg G ub perm coins
  obtain ⟨_, _, hd⟩ := remap_loop_spec G _ hlen
  show (remap_loop G (lp_reconciled cfg G ub perm coins).cluster_id).cluster_id.getD a 0
    = (remap_loop G (lp_reconciled cfg G ub perm coins).cluster_id).cluster_id.getD b 0 ↔ _
  rw [hd a ha, hd b hb]
  exact first_label_eq_iff _ G.number_of_nodes a b ha hb

theorem create_coarsemapping_eq (G : graph_access) (src dst : List Nat)
    (hsrc : src.length = G.number_of_nodes) (hdst : dst.length = G.number_of_nodes) :
    create_coarsemapping G src dst = src := by
  obtain ⟨hl, hg⟩ := foldl_copy src G.number_of_nodes dst
  unfold create_coarsemapping
  apply list_eq_of_getD (by rw [hl, hdst, hsrc])
  intro j hj
  rw [hl, hdst] at hj
  rw [hg j, if_pos hj, if_pos (by omega)]

theorem resize_length (v : List Nat) (n : Nat) : (resize v n).length = n := by
  unfold resize
  rw [List.length_append, List.length_take, List.length_replicate]
  omega

theorem dense_card (out : List Nat) (count : Nat) (h : DenseLabels out count) :
    out.toFinset.card = count := by
  have e : out.toFinset = Finset.range count := by
    ext v
    rw [List.mem_toFinset, Finset.mem_range]
    exact h v
  rw [e, Finset.card_range]

/-! ## The runs of ensemble_clusterings -/

theorem runs_after_succ (cfg : PartitionConfig) (G : graph_access) (orders : Nat → List Nat)
    (coins : Nat → Nat → Bool) (draws : Nat → Nat) (no0 i : Nat) :
    runs_after cfg G orders coins draws no0 (i + 1)
      = ensemble_run cfg G orders coins draws (runs_after cfg G orders coins draws no0 i) i := by
  unfold runs_after
  rw [List.range_succ, List.foldl_append]
  rfl

theorem run_clustering_length (cfg : PartitionConfig) (G : graph_access)
    (orders : Nat → List Nat) (coins : Nat → Nat → Bool) (draws : Nat → Nat) (i : Nat) :
    (run_clustering cfg G orders coins draws i).length = G.number_of_nodes :=
  (label_propagation_dense _ G _ (orders i) (coins i)).1

theorem pair_key_eq_iff (lhs rhs : List Nat) (a b : Nat) :
    pair_key lhs rhs a = pair_key lhs rhs b
      ↔ lhs.getD a 0 = lhs.getD b 0 ∧ rhs.getD a 0 = rhs.getD b 0 := by
  unfold pair_key
  exact Prod.mk.injEq _ _ _ _ ▸ Iff.rfl

/-- The invariant of the loop of `ensemble_clusterings` after `i` runs: the
next coarsening factor, the length of the ensemble vector and, once a run has
been made, the last clustering, the density of the ensemble labels with their
count, and the ensemble as the common refinement of the clusterings so far. -/
theorem runs_after_inv (cfg : PartitionConfig) (G : graph_access) (orders : Nat → List Nat)
    (coins : Nat → Nat → Bool) (draws : Nat → Nat) (no0 : Nat) :
    ∀ i,
      (runs_after cfg G orders coins draws no0 i).new_cf = run_cf cfg draws i ∧
      (runs_after cfg G orders coins draws no0 i).ensemble_cluster.length
        = G.number_of_nodes ∧
      (1 ≤ i →
        (runs_after cfg G orders coins draws no0 i).cur_cluster
          = run_clustering cfg G orders coins draws (i - 1) ∧
        DenseLabels (runs_after cfg G orders coins draws no0 i).ensemble_cluster
          (runs_after cfg G orders coins draws no0 i).no_of_coarse_vertices ∧
        ∀ a b, a < G.number_of_nodes → b < G.number_of_nodes →
          ((runs_after cfg G orders coins draws no0 i).ensemble_cluster.getD a 0
              = (runs_after cfg G orders coins draws no0 i).ensemble_cluster.getD b 0
            ↔ ∀ t, t < i → (run_clustering cfg G orders coins draws t).getD a 0
                = (run_clustering cfg G orders coins draws t).getD b 0)) := by
  intro i
  induction i with
  | zero =>
    refine ⟨rfl, by simp [runs_after], fun h => by omega⟩
  | succ i ih =>
    obtain ⟨hcf, hlen, hrest⟩ := ih
    rw [runs_after_succ]
    generalize runs_after cfg G orders coins draws no0 i = st at hcf hlen hrest
    have hr : (label_propagation_config
        { cfg with cluster_coarsening_factor := st.new_cf } G (orders i) (coins i)).1
        = run_clustering cfg G orders coins draws i := by
      rw [hcf]; rfl
    have hcl := run_clustering_length cfg G orders coins draws i
    by_cases hi : i = 0
    · subst hi
      have hens : (ensemble_run cfg G orders coins draws st 0).ensemble_cluster
          = run_clustering cfg G orders coins draws 0 := by
        rw [← hr]
        exact create_coarsemapping_eq G _ st.ensemble_cluster (by rw [hr]; exact hcl) hlen
      have hno : (ensemble_run cfg G orders coins draws st 0).no_of_coarse_vertices
          = (label_propagation_config
              { cfg with cluster_coarsening_factor := st.new_cf } G (orders 0) (coins 0)).2 :=
        rfl
      have hcur : (ensemble_run cfg G orders coins draws st 0).cur_cluster
          = run_clustering cfg G orders coins draws 0 := hr
      refine ⟨rfl, by rw [hens]; exact hcl, fun _ => ⟨hcur, ?_, ?_⟩⟩
      · rw [hens, hno, ← hr]
        exact (label_propagation_dense _ G _ (orders 0) (coins 0)).2
      · intro a b _ _
        rw [hens]
        constructor
        · intro h t ht
          have : t = 0 := by omega
          subst this; exact h
        · intro h; exact h 0 (by omega)
    · have hstep : ensemble_run cfg G orders coins draws st i
          = { cur_cluster := run_clustering cfg G orders coins draws i,
              ensemble_cluster := (ensemble_two_clusterings_shared G
                (run_clustering cfg G orders coins draws i) st.ensemble_cluster).1,
              no_of_coarse_vertices := (ensemble_two_clusterings_shared G
                (run_clustering cfg G orders coins draws i) st.ensemble_cluster).2,
              new_cf := draws i } := by
        unfold ensemble_run
        simp only [hr]
        rw [if_pos hi]
      rw [hstep]
      obtain ⟨_, hb2, hc, hd⟩ := ensemble_loop_shared_spec G
        (run_clustering cfg G orders coins draws i) st.ensemble_cluster (by rw [hlen, hcl])
      rw [hcl] at hc hd
      obtain ⟨_, _, hrel⟩ := hrest (by omega)
      refine ⟨by simp [run_cf], hc, fun _ => ⟨by simp, ?_, ?_⟩⟩
      · intro v
        show v ∈ (ensemble_loop_shared G (run_clustering cfg G orders coins draws i)
            st.ensemble_cluster).output
          ↔ v < (ensemble_loop_shared G (run_clustering cfg G orders coins draws i)
            st.ensemble_cluster).new_mapping.length
        rw [hb2, hcl]
        exact dense_of_first_label _ G.number_of_nodes _ hc hd v
      · intro a b ha hb
        show (ensemble_loop_shared G (run_clustering cfg G orders coins draws i)
            st.ensemble_cluster).output.getD a 0
          = (ensemble_loop_shared G (run_clustering cfg G orders coins draws i)
            st.ensemble_cluster).output.getD b 0 ↔ _
        rw [hd a ha, hd b hb, first_label_eq_iff _ G.number_of_nodes a b ha hb,
          pair_key_eq_iff, hrel a b ha hb]
        constructor
        · rintro ⟨h1, h2⟩ t ht
          by_cases hti : t = i
          · subst hti; exact h1
          · exact h2 t (by omega)
        · intro h
          exact ⟨h i (by omega), fun t ht => h t (by omega)⟩

/-! ## The combiner on a shared vector -/

/-- After `i` iterations of the combiner on a shared vector, the entries from
index `i` on still hold the labels of `rhs`. -/
theorem ensemble_shared_after_unread (G : graph_access) (lhs shared : List Nat)
    (hlen : shared.length = lhs.length) (i : Nat) (hi : i ≤ lhs.length) :
    ∀ j, i ≤ j → (ensemble_shared_after G lhs shared i).output.getD j 0 = shared.getD j 0 := by
  have hspec := renumber_fold_spec (fun i x => (lhs.getD i 0, x)) (pair_key lhs shared) shared
    lhs.length hlen (fun j _ => rfl) i hi
  have hhom := foldl_hom EnsembleState.toTriple
    (fun st node => ensemble_visit G lhs st.output st node)
    (renumber_visit (fun i x => (lhs.getD i 0, x)))
    (ensemble_visit_shared_toTriple G lhs) (List.range i)
    { new_mapping := [], no_of_coarse_vertices := 0, output := shared }
  have e : (ensemble_shared_after G lhs shared i).toTriple
      = (List.range i).foldl (renumber_visit (fun i x => (lhs.getD i 0, x)))
          ([], 0, shared) := hhom
  rw [← e] at hspec
  exact hspec.2.2.2.2.2

/-- The combiner gives the same labels and the same count on a shared vector
and on distinct vectors. -/
theorem ensemble_shared_eq (G : graph_access) (lhs rhs output : List Nat)
    (hrhs : rhs.length = lhs.length) (hout : output.length = lhs.length) :
    ensemble_two_clusterings_shared G lhs rhs = ensemble_two_clusterings G lhs rhs output := by
  obtain ⟨_, hb2, hc, hd⟩ := ensemble_loop_spec G lhs rhs output hout
  obtain ⟨_, sb2, sc, sd⟩ := ensemble_loop_shared_spec G lhs rhs hrhs
  unfold ensemble_two_clusterings_shared ensemble_two_clusterings
  simp only
  rw [hb2, sb2]
  congr 1
  apply list_eq_of_getD (by rw [hc, sc])
  intro j hj
  rw [sc] at hj
  rw [sd j hj, hd j hj]

theorem block_upperbound_of_ge (U f : Nat) (hf : 0 < f) : U ≤ (U + f - 1) / f * f := by
  have h := Nat.div_add_mod (U + f - 1) f
  have hr := Nat.mod_lt (U + f - 1) hf
  rw [Nat.mul_comm] at h
  omega

theorem block_upperbound_of_least (U f b : Nat) (hf : 0 < f) (h : U ≤ b * f) :
    (U + f - 1) / f ≤ b := by
  have : (U + f - 1) / f < b + 1 := by
    rw [Nat.div_lt_iff_lt_mul hf, Nat.succ_mul]
    omega
  omega

/-! ## Invariants with separate sets of nodes and labels -/

theorem visit_step (cfg : PartitionConfig) (G : graph_access) (ub : Nat) (coins : Nat → Bool)
    (Rn Rl : Nat → Prop) (I : List Nat → List Nat → Prop)
    (sc : StepClosed cfg G Rn Rl (sweep_fit G ub) I)
    (j : Nat) (st : LPState) (node : Nat) (inv : VisitInv Rn Rl I st) (hn : Rn node) :
    VisitInv Rn Rl I (visit cfg G ub coins j st node) := by
  obtain ⟨f1, f2, f3, _⟩ := tally_fields cfg G node st
  have hnb : ∀ b, b ∈ (tally cfg G node st).neighboring_blocks → Rl b :=
    tally_nb cfg G node Rl st inv.nb_in
      (fun t ht => sc.label _ _ t inv.core (sc.movable t ht))
  have hsel := select_good G ub coins (tally cfg G node st) node Rl hnb
  rw [f1, f2] at hsel
  have hm : Rl (select G ub coins (tally cfg G node st) node).max_block := by
    rcases hsel with h | h
    · rw [h]; exact sc.label _ _ node inv.core hn
    · exact h.1
  refine ⟨?_, ?_, ?_⟩
  · show I ((tally cfg G node st).cluster_id.set node _)
      (transfer (tally cfg G node st).cluster_sizes ((tally cfg G node st).cluster_id.getD node 0)
        _ (G.getNodeWeight node))
    rw [f1, f2]
    apply sc.move st.cluster_id st.cluster_sizes node _ inv.core hn hm
    rcases hsel with h | h
    · left; exact h
    · right; exact h.2
  · intro b hb
    exact absurd hb (List.not_mem_nil b)
  · intro x hx
    have hx2 : x ∈ (if j = 0 ∧ (tally cfg G node st).neighboring_blocks.length = 0
        then (tally cfg G node st).isolated_nodes ++ [node]
        else (tally cfg G node st).isolated_nodes) := hx
    rw [f3] at hx2
    split at hx2
    · rcases List.mem_append.mp hx2 with h | h
      · exact inv.iso_in x h
      · rw [List.mem_singleton] at h; rw [h]; exact hn
    · exact inv.iso_in x hx2

/-- An invariant that holds after `k0` visits holds after every later visit. -/
theorem lp_after_step (cfg : PartitionConfig) (G : graph_access) (ub : Nat)
    (perm : List Nat) (coins : Nat → Bool)
    (Rn Rl : Nat → Prop) (I : List Nat → List Nat → Prop)
    (sc : StepClosed cfg G Rn Rl (sweep_fit G ub) I)
    (hperm : ∀ node, node ∈ perm → Rn node) (k0 : Nat)
    (h0 : VisitInv Rn Rl I (lp_after cfg G ub perm coins k0)) :
    ∀ k, k0 ≤ k → VisitInv Rn Rl I (lp_after cfg G ub perm coins k) := by
  intro k
  induction k with
  | zero =>
    intro h
    have : k0 = 0 := by omega
    subst this; exact h0
  | succ k ih =>
    intro h
    by_cases hk0 : k0 = k + 1
    · subst hk0; exact h0
    · have ihk := ih (by omega)
      by_cases hk : k < (visits cfg perm).length
      · rw [lp_after_succ cfg G ub perm coins k hk]
        exact visit_step cfg G ub coins Rn Rl I sc _ _ _ ihk
          (hperm _ (visits_getD_mem cfg perm k hk))
      · rw [lp_after_of_le cfg G ub perm coins (k + 1) (by omega),
          ← lp_after_of_le cfg G ub perm coins k (by omega)]
        exact ihk

theorem lp_init_visit_inv (cfg : PartitionConfig) (G : graph_access)
    (Rn Rl : Nat → Prop) (I : List Nat → List Nat → Prop)
    (hinit : I (lp_init cfg G).cluster_id (lp_init cfg G).cluster_sizes)
    (hzero : 0 < G.number_of_nodes - cfg.quotient_nodes → Rl 0) :
    VisitInv Rn Rl I (lp_init cfg G) := by
  refine ⟨hinit, ?_, ?_⟩
  · intro b hb
    have hb2 : b ∈ List.replicate (moving_nodes cfg G) 0 := hb
    rw [List.mem_replicate] at hb2
    rw [hb2.2]
    exact hzero (by unfold moving_nodes at hb2; omega)
  · intro x hx
    exact absurd hx (List.not_mem_nil x)

theorem iso_accepts_merge_fit (cfg : PartitionConfig) (G : graph_access) (ub : Nat)
    (st : IsoState) (node target : Nat) (h : iso_accepts cfg G ub st node target = true) :
    st.cluster_id.getD target 0 = st.cluster_id.getD node 0 ∨
    merge_fit G ub st.cluster_sizes node (st.cluster_id.getD target 0) :=
  iso_accepts_fit cfg G ub st node target h

theorem iso_inner_step (cfg : PartitionConfig) (G : graph_access) (ub : Nat)
    (Rn Rl : Nat → Prop) (I : List Nat → List Nat → Prop)
    (sc : StepClosed cfg G Rn Rl (merge_fit G ub) I)
    (iso : List Nat) (node : Nat) (hn : Rn node) :
    ∀ (cands : List Nat) (st : IsoState), (∀ it2, it2 ∈ cands → Rn (iso.getD it2 0)) →
      I st.cluster_id st.cluster_sizes →
      I (iso_inner cfg G ub iso node cands st).cluster_id
        (iso_inner cfg G ub iso node cands st).cluster_sizes := by
  intro cands
  induction cands with
  | nil => intro st _ h; exact h
  | cons it2 rest ih =>
    intro st hc h
    have hrest : ∀ x, x ∈ rest → Rn (iso.getD x 0) :=
      fun x hx => hc x (List.mem_cons_of_mem _ hx)
    rw [iso_inner]
    simp only
    split
    · exact ih st hrest h
    · split
      · rename_i hacc
        exact sc.move st.cluster_id st.cluster_sizes node _ h hn
          (sc.label _ _ _ h (hc it2 (List.mem_cons_self _ _)))
          (iso_accepts_merge_fit cfg G ub st node _ hacc)
      · exact ih st hrest h

theorem iso_outer_step (cfg : PartitionConfig) (G : graph_access) (ub : Nat)
    (Rn Rl : Nat → Prop) (I : List Nat → List Nat → Prop)
    (sc : StepClosed cfg G Rn Rl (merge_fit G ub) I)
    (iso : List Nat) (hiso : ∀ x, x ∈ iso → Rn x) (st : IsoState) (it : Nat)
    (hit : it < iso.length) (h : I st.cluster_id st.cluster_sizes) :
    I (iso_outer cfg G ub iso st it).cluster_id (iso_outer cfg G ub iso st it).cluster_sizes := by
  have hget : ∀ i, i < iso.length → Rn (iso.getD i 0) := by
    intro i hi
    rw [List.getD_eq_getElem _ _ hi]
    exact hiso _ (List.getElem_mem hi)
  unfold iso_outer
  simp only
  split
  · exact h
  · apply iso_inner_step cfg G ub Rn Rl I sc iso _ (hget it hit)
    · intro it2 h2
      rw [List.mem_range'_1] at h2
      exact hget it2 (by omega)
    · exact h

theorem cluster_isolated_nodes_step (cfg : PartitionConfig) (G : graph_access) (ub : Nat)
    (Rn Rl : Nat → Prop) (I : List Nat → List Nat → Prop)
    (sc : StepClosed cfg G Rn Rl (merge_fit G ub) I)
    (cluster_id sizes iso : List Nat) (hiso : ∀ x, x ∈ iso → Rn x)
    (h : I cluster_id sizes) :
    I (cluster_isolated_nodes cfg G cluster_id sizes ub iso).cluster_id
      (cluster_isolated_nodes cfg G cluster_id sizes ub iso).cluster_sizes := by
  unfold cluster_isolated_nodes
  have key : ∀ (l : List Nat) (st : IsoState), (∀ it, it ∈ l → it < iso.length) →
      I st.cluster_id st.cluster_sizes →
      I (l.foldl (iso_outer cfg G ub iso) st).cluster_id
        (l.foldl (iso_outer cfg G ub iso) st).cluster_sizes := by
    intro l
    induction l with
    | nil => intro st _ h; exact h
    | cons it l ih =>
      intro st hl h
      simp only [List.foldl_cons]
      apply ih
      · intro x hx; exact hl x (List.mem_cons_of_mem _ hx)
      · exact iso_outer_step cfg G ub Rn Rl I sc iso hiso st it
          (hl it (List.mem_cons_self _ _)) h
  exact key _ _ (fun it hit => List.mem_range.mp hit) h

/-- An invariant of the state after the sweeps that is kept by the merges of
`cluster_isolated_nodes` holds just before `remap_cluster_ids`. -/
theorem lp_reconciled_step (cfg : PartitionConfig) (G : graph_access) (ub : Nat)
    (perm : List Nat) (coins : Nat → Bool)
    (Rn Rl : Nat → Prop) (I : List Nat → List Nat → Prop)
    (sc : StepClosed cfg G Rn Rl (merge_fit G ub) I)
    (inv : VisitInv Rn Rl I (lp_sweeps cfg G ub perm coins)) :
    I (lp_reconciled cfg G ub perm coins).cluster_id
      (lp_reconciled cfg G ub perm coins).cluster_sizes := by
  unfold lp_reconciled
  simp only
  split
  · exact cluster_isolated_nodes_step cfg G ub Rn Rl I sc _ _ _ inv.iso_in inv.core
  · exact inv.core

/-! ## Clusterings of singletons -/

theorem nodup_of_getD_ne (l : List Nat)
    (h : ∀ a b, a < l.length → b < l.length → a ≠ b → l.getD a 0 ≠ l.getD b 0) : l.Nodup := by
  rw [List.nodup_iff_getElem?_ne_getElem?]
  intro i j hij hj heq
  apply h i j (by omega) hj (by omega)
  rw [List.getD_eq_getElem?_getD, List.getD_eq_getElem?_getD, heq]

theorem pair_le_cluster_weight (G : graph_access) (cluster_id : List Nat) (a b c : Nat)
    (ha : a < G.number_of_nodes) (hb : b < G.number_of_nodes) (hab : a ≠ b)
    (h1 : cluster_id.getD a 0 = c) (h2 : cluster_id.getD b 0 = c) :
    G.getNodeWeight a + G.getNodeWeight b ≤ cluster_weight G cluster_id c := by
  rw [cluster_weight_split G cluster_id c a ha, if_pos h1]
  have hmem : b ∈ (Finset.range G.number_of_nodes).erase a :=
    Finset.mem_erase.mpr ⟨fun h => hab h.symm, Finset.mem_range.mpr hb⟩
  have hle := Finset.single_le_sum
    (f := fun i => if cluster_id.getD i 0 = c then G.getNodeWeight i else 0)
    (fun i _ => Nat.zero_le _) hmem
  simp only [h2, if_true] at hle
  omega

/-- When no two nodes fit together under the bound, `label_propagation` returns
singletons. -/
theorem lp_singletons (cfg : PartitionConfig) (G : graph_access) (ub : Nat)
    (perm : List Nat) (coins : Nat → Bool)
    (hperm : ∀ node, node ∈ perm → node < G.number_of_nodes)
    (hw : total_weight G < NodeWeight_mod)
    (hnofit : ∀ a b, a < G.number_of_nodes → b < G.number_of_nodes → a ≠ b →
      ub < G.getNodeWeight a + G.getNodeWeight b) :
    ∀ a b, a < G.number_of_nodes → b < G.number_of_nodes → a ≠ b →
      (label_propagation cfg G ub perm coins).1.getD a 0
        ≠ (label_propagation cfg G ub perm coins).1.getD b 0 := by
  intro a b ha hb hab heq
  have rinv := lp_reconciled_inv cfg G ub perm coins _ _ (core_closed cfg G ub hw)
    (core_init cfg G ub) hperm
  have hsame := (label_propagation_same_iff cfg G ub perm coins a b ha hb).mp heq
  have hcap := rinv.cap a b ha hb hab hsame
  have hpair := pair_le_cluster_weight G _ a b _ ha hb hab rfl hsame.symm
  have := hnofit a b ha hb hab
  omega

/-! ## The vote table -/

theorem getD_replicate_zero (n c : Nat) : (List.replicate n 0).getD c 0 = 0 := by
  rw [List.getD_eq_getElem?_getD, List.getElem?_replicate]
  split <;> rfl

theorem getD_set_zero (l : List Nat) (i : Nat) : (l.set i 0).getD i 0 = 0 := by
  by_cases h : i < l.length
  · exact getD_set_eq _ _ _ _ h
  · rw [List.getD_eq_getElem?_getD, List.getElem?_eq_none (by rw [List.length_set]; omega)]
    rfl

theorem accumulate_edges_length (cfg : PartitionConfig) (G : graph_access) (node : Nat) :
    ∀ (es : List Edge) (st : LPState),
      (es.foldl (accumulate_edge cfg G node) st).hash_map.length = st.hash_map.length := by
  intro es
  induction es with
  | nil => intro st; rfl
  | cons e es ih =>
    intro st
    simp only [List.foldl_cons]
    rw [ih]
    cases hs : edge_skipped cfg G node e.target with
    | true => rw [accumulate_edge_skip cfg G node st e hs]
    | false => rw [accumulate_edge_take cfg G node st e hs]; simp only [List.length_set]

theorem accumulate_edges_cluster_id (cfg : PartitionConfig) (G : graph_access) (node : Nat) :
    ∀ (es : List Edge) (st : LPState),
      (es.foldl (accumulate_edge cfg G node) st).cluster_id = st.cluster_id := by
  intro es
  induction es with
  | nil => intro st; rfl
  | cons e es ih =>
    intro st
    simp only [List.foldl_cons]
    rw [ih, (accumulate_edge_fields cfg G node st e).1]

/-- Entries of `neighboring_blocks` stay in it during the first loop. -/
theorem accumulate_edges_mono (cfg : PartitionConfig) (G : graph_access) (node : Nat) :
    ∀ (es : List Edge) (st : LPState) (b : Nat), b ∈ st.neighboring_blocks →
      b ∈ (es.foldl (accumulate_edge cfg G node) st).neighboring_blocks := by
  intro es
  induction es with
  | nil => intro st b h; exact h
  | cons e es ih =>
    intro st b h
    simp only [List.foldl_cons]
    apply ih
    cases hs : edge_skipped cfg G node e.target with
    | true => rw [accumulate_edge_skip cfg G node st e hs]; exact h
    | false =>
      rw [accumulate_edge_take cfg G node st e hs]
      simp only
      split
      · exact List.mem_append_left _ h
      · exact h

/-- One vote keeps the property that every block with a non-zero table entry
is listed in `neighboring_blocks`, and lists the block of the edge. -/
theorem accumulate_edge_listed (cfg : PartitionConfig) (G : graph_access) (node : Nat)
    (st : LPState) (e : Edge)
    (hz : ∀ c, st.hash_map.getD c 0 ≠ 0 → c ∈ st.neighboring_blocks) :
    (∀ c, (accumulate_edge cfg G node st e).hash_map.getD c 0 ≠ 0 →
      c ∈ (accumulate_edge cfg G node st e).neighboring_blocks) ∧
    (edge_skipped cfg G node e.target = false →
      st.cluster_id.getD e.target 0 ∈ (accumulate_edge cfg G node st e).neighboring_blocks) := by
  cases hs : edge_skipped cfg G node e.target with
  | true =>
    rw [accumulate_edge_skip cfg G node st e hs]
    exact ⟨hz, fun h => by simp at h⟩
  | false =>
    rw [accumulate_edge_take cfg G node st e hs]
    simp only
    have hb : st.cluster_id.getD e.target 0 ∈
        (if st.hash_map.getD (st.cluster_id.getD e.target 0) 0 = 0
          then st.neighboring_blocks ++ [st.cluster_id.getD e.target 0]
          else st.neighboring_blocks) := by
      split
      · exact List.mem_append_right _ (List.mem_singleton.mpr rfl)
      · rename_i h; exact hz _ h
    refine ⟨?_, fun _ => hb⟩
    intro c hc
    by_cases hcb : c = st.cluster_id.getD e.target 0
    · rw [hcb]; exact hb
    · rw [getD_set_ne _ _ _ _ _ (Ne.symm hcb)] at hc
      have := hz c hc
      split
      · exact List.mem_append_left _ this
      · exact this

theorem accumulate_edges_listed (cfg : PartitionConfig) (G : graph_access) (node : Nat) :
    ∀ (es : List Edge) (st : LPState),
      (∀ c, st.hash_map.getD c 0 ≠ 0 → c ∈ st.neighboring_blocks) →
      (∀ c, (es.foldl (accumulate_edge cfg G node) st).hash_map.getD c 0 ≠ 0 →
        c ∈ (es.foldl (accumulate_edge cfg G node) st).neighboring_blocks) ∧
      (∀ e, e ∈ es → edge_skipped cfg G node e.target = false →
        st.cluster_id.getD e.target 0
          ∈ (es.foldl (accumulate_edge cfg G node) st).neighboring_blocks) := by
  intro es
  induction es with
  | nil => intro st hz; exact ⟨hz, fun e he => absurd he (List.not_mem_nil e)⟩
  | cons e0 es ih =>
    intro st hz
    simp only [List.foldl_cons]
    obtain ⟨hz1, hb1⟩ := accumulate_edge_listed cfg G node st e0 hz
    obtain ⟨hz2, hb2⟩ := ih (accumulate_edge cfg G node st e0) hz1
    refine ⟨hz2, ?_⟩
    intro e he hs
    rcases List.mem_cons.mp he with h | h
    · subst h
      exact accumulate_edges_mono cfg G node es _ _ (hb1 hs)
    · have := hb2 e h hs
      rw [(accumulate_edge_fields cfg G node st e0).1] at this
      exact this

theorem EdgeWeight_mod_pos : 0 < EdgeWeight_mod := by decide

theorem EdgeWeight_mod_eq_PartitionID_mod : EdgeWeight_mod = PartitionID_mod := rfl

/-- The table after the first loop: the entry of every cluster has grown by the
vote weight of that cluster, in the word `EdgeWeight`. -/
theorem accumulate_edges_votes (cfg : PartitionConfig) (G : graph_access) (node c : Nat) :
    ∀ (es : List Edge) (st : LPState),
      (∀ e, e ∈ es → edge_skipped cfg G node e.target = false →
        st.cluster_id.getD e.target 0 < st.hash_map.length) →
      st.hash_map.getD c 0 < EdgeWeight_mod →
      (es.foldl (accumulate_edge cfg G node) st).hash_map.getD c 0
        = (st.hash_map.getD c 0
            + ((es.filter (eligible_into cfg G st.cluster_id node c)).map Edge.weight).sum)
          % EdgeWeight_mod := by
  intro es
  induction es with
  | nil =>
    intro st _ hlt
    simp only [List.foldl_nil, List.filter_nil, List.map_nil, List.sum_nil, Nat.add_zero]
    exact (Nat.mod_eq_of_lt hlt).symm
  | cons e es ih =>
    intro st hb hlt
    simp only [List.foldl_cons]
    have hrest : ∀ e1, e1 ∈ es → edge_skipped cfg G node e1.target = false →
        (accumulate_edge cfg G node st e).cluster_id.getD e1.target 0
          < (accumulate_edge cfg G node st e).hash_map.length := by
      intro e1 he1 hs1
      rw [(accumulate_edge_fields cfg G node st e).1]
      have := hb e1 (List.mem_cons_of_mem _ he1) hs1
      have hl := accumulate_edges_length cfg G node [e] st
      simp only [List.foldl_cons, List.foldl_nil] at hl
      rw [hl]; exact this
    cases hs : edge_skipped cfg G node e.target with
    | true =>
      have hst := accumulate_edge_skip cfg G node st e hs
      rw [ih _ hrest (by rw [hst]; exact hlt), hst]
      have : eligible_into cfg G st.cluster_id node c e = false := by
        simp [eligible_into, hs]
      rw [List.filter_cons_of_neg (by rw [this]; simp)]
    | false =>
      have hst := accumulate_edge_take cfg G node st e hs
      have hlt2 := hb e (List.mem_cons_self _ _) hs
      by_cases hcb : st.cluster_id.getD e.target 0 = c
      · have hnew : (accumulate_edge cfg G node st e).hash_map.getD c 0
            = (st.hash_map.getD c 0 + e.weight) % EdgeWeight_mod := by
          rw [hst]
          simp only
          rw [← hcb, getD_set_eq _ _ _ _ hlt2]
        have : eligible_into cfg G st.cluster_id node c e = true := by
          simp [-List.getD_eq_getElem?_getD, eligible_into, hs, hcb]
        rw [ih _ hrest (by rw [hnew]; exact Nat.mod_lt _ EdgeWeight_mod_pos),
          (accumulate_edge_fields cfg G node st e).1, hnew,
          List.filter_cons_of_pos this, List.map_cons, List.sum_cons, Nat.mod_add_mod,
          Nat.add_assoc]
      · have hnew : (accumulate_edge cfg G node st e).hash_map.getD c 0
            = st.hash_map.getD c 0 := by
          rw [hst]
          simp only
          rw [getD_set_ne _ _ _ _ _ hcb]
        have : eligible_into cfg G st.cluster_id node c e = false := by
          simp [-List.getD_eq_getElem?_getD, eligible_into, hs, hcb]
        rw [ih _ hrest (by rw [hnew]; exact hlt),
          (accumulate_edge_fields cfg G node st e).1, hnew,
          List.filter_cons_of_neg (by rw [this]; simp)]

/-! ## The selection pass -/

theorem select_step_hash (G : graph_access) (ub : Nat) (coins : Nat → Bool) (sizes : List Nat)
    (node my : Nat) (s : SelState) (b : Nat) :
    (select_step G ub coins sizes node my s b).hash_map = s.hash_map.set b 0 := by
  unfold select_step
  simp only
  split <;> rfl

/-- One iteration of the selection pass: the running maximum does not
decrease, it is the value read when the block is taken, and it is at least the
value read when the block passes the capacity test. -/
theorem select_step_max (G : graph_access) (ub : Nat) (coins : Nat → Bool) (sizes : List Nat)
    (node my : Nat) (s : SelState) (b : Nat) :
    s.max_value ≤ (select_step G ub coins sizes node my s b).max_value ∧
    (((select_step G ub coins sizes node my s b).max_value = s.max_value ∧
        (select_step G ub coins sizes node my s b).max_block = s.max_block) ∨
      ((select_step G ub coins sizes node my s b).max_value
          = s.hash_map.getD b 0 % PartitionID_mod ∧
        (select_step G ub coins sizes node my s b).max_block = b)) ∧
    (((sizes.getD b 0 + G.getNodeWeight node) % NodeWeight_mod < ub ∨ b = my) →
      s.hash_map.getD b 0 % PartitionID_mod
        ≤ (select_step G ub coins sizes node my s b).max_value) := by
  unfold select_step
  simp only
  split
  · rename_i h
    simp only [Bool.and_eq_true, Bool.or_eq_true, decide_eq_true_eq] at h
    refine ⟨?_, Or.inr ⟨rfl, rfl⟩, fun _ => le_refl _⟩
    show s.max_value ≤ s.hash_map.getD b 0 % PartitionID_mod
    rcases h.1 with h1 | h1
    · omega
    · omega
  · rename_i h
    refine ⟨le_refl _, Or.inl ⟨rfl, rfl⟩, ?_⟩
    intro hfit
    simp only [Bool.and_eq_true, Bool.or_eq_true, decide_eq_true_eq, not_and] at h
    by_cases hgt : s.hash_map.getD b 0 % PartitionID_mod > s.max_value
    · exact absurd hfit (h (Or.inl hgt))
    · show s.hash_map.getD b 0 % PartitionID_mod ≤ s.max_value
      omega

theorem getD_set_zero_le (l : List Nat) (i c : Nat) : (l.set i 0).getD c 0 ≤ l.getD c 0 := by
  by_cases h : i = c
  · subst h; rw [getD_set_zero]; exact Nat.zero_le _
  · rw [getD_set_ne _ _ _ _ _ h]

/-- The table during the selection pass: the entries of the blocks already
read are zero, the others are untouched. -/
theorem select_fold_hash (G : graph_access) (ub : Nat) (coins : Nat → Bool) (sizes : List Nat)
    (node my c : Nat) :
    ∀ (bs : List Nat) (s : SelState),
      (bs.foldl (select_step G ub coins sizes node my) s).hash_map.length
        = s.hash_map.length ∧
      (bs.foldl (select_step G ub coins sizes node my) s).hash_map.getD c 0
        = if c ∈ bs then 0 else s.hash_map.getD c 0 := by
  intro bs
  induction bs with
  | nil => intro s; simp
  | cons b bs ih =>
    intro s
    simp only [List.foldl_cons]
    obtain ⟨h1, h2⟩ := ih (select_step G ub coins sizes node my s b)
    rw [h1, h2, select_step_hash]
    refine ⟨List.length_set _ _ _, ?_⟩
    by_cases hcb : c = b
    · subst hcb
      rw [getD_set_zero]
      simp
    · rw [getD_set_ne _ _ _ _ _ (Ne.symm hcb)]
      simp [hcb]

/-- The running maximum of the selection pass, against the table `V` read at
the start of the pass, whose entries fit a `PartitionID`: it is at most the
entry of the chosen block, and at least the entry of every listed block that
passes the capacity test and has not been read before. -/
theorem select_fold_max (G : graph_access) (ub : Nat) (coins : Nat → Bool) (sizes : List Nat)
    (node my : Nat) (V : Nat → Nat) (hVlt : ∀ c, V c < PartitionID_mod) :
    ∀ (bs : List Nat) (s : SelState), (∀ c, s.hash_map.getD c 0 ≤ V c) →
      s.max_value ≤ V s.max_block →
      (bs.foldl (select_step G ub coins sizes node my) s).max_value
          ≤ V (bs.foldl (select_step G ub coins sizes node my) s).max_block ∧
      s.max_value ≤ (bs.foldl (select_step G ub coins sizes node my) s).max_value ∧
      ∀ b, b ∈ bs →
        ((sizes.getD b 0 + G.getNodeWeight node) % NodeWeight_mod < ub ∨ b = my) →
        s.hash_map.getD b 0 = V b →
        V b ≤ (bs.foldl (select_step G ub coins sizes node my) s).max_value := by
  intro bs
  induction bs with
  | nil =>
    intro s _ hm
    exact ⟨hm, le_refl _, fun b hb => absurd hb (List.not_mem_nil b)⟩
  | cons b0 bs ih =>
    intro s hV hm
    simp only [List.foldl_cons]
    obtain ⟨hmono, hcase, hfit0⟩ := select_step_max G ub coins sizes node my s b0
    have hV1 : ∀ c, (select_step G ub coins sizes node my s b0).hash_map.getD c 0 ≤ V c := by
      intro c
      rw [select_step_hash]
      exact le_trans (getD_set_zero_le _ _ _) (hV c)
    have hm1 : (select_step G ub coins sizes node my s b0).max_value
        ≤ V (select_step G ub coins sizes node my s b0).max_block := by
      rcases hcase with ⟨h1, h2⟩ | ⟨h1, h2⟩
      · rw [h1, h2]; exact hm
      · rw [h1, h2]; exact le_trans (Nat.mod_le _ _) (hV b0)
    obtain ⟨r1, r2, r3⟩ := ih _ hV1 hm1
    refine ⟨r1, le_trans hmono r2, ?_⟩
    intro b hb hfit hval
    by_cases hbb : b = b0
    · subst hbb
      have := hfit0 hfit
      rw [hval, Nat.mod_eq_of_lt (hVlt b)] at this
      exact le_trans this r2
    · have hmem : b ∈ bs := by
        rcases List.mem_cons.mp hb with h | h
        · exact absurd h hbb
        · exact h
      apply r3 b hmem hfit
      rw [select_step_hash, getD_set_ne _ _ _ _ _ (Ne.symm hbb)]
      exact hval

/-- A node visit leaves the vote table zero at every index. -/
theorem visit_hash (cfg : PartitionConfig) (G : graph_access) (ub : Nat) (coins : Nat → Bool)
    (j : Nat) (st : LPState) (node : Nat)
    (h : st.hash_map = List.replicate G.number_of_nodes 0) :
    (visit cfg G ub coins j st node).hash_map = List.replicate G.number_of_nodes 0 := by
  have hz : ∀ c, st.hash_map.getD c 0 ≠ 0 → c ∈ st.neighboring_blocks := by
    intro c hc
    rw [h, getD_replicate_zero] at hc
    exact absurd rfl hc
  obtain ⟨hz1, _⟩ := accumulate_edges_listed cfg G node (G.out_edges node) st hz
  have hl1 := accumulate_edges_length cfg G node (G.out_edges node) st
  show (select G ub coins (tally cfg G node st) node).hash_map = _
  apply list_eq_of_getD
  · unfold select
    rw [(select_fold_hash G ub coins _ node _ 0 _ _).1]
    show (tally cfg G node st).hash_map.length = _
    unfold tally
    rw [hl1, h]
  · intro c _
    unfold select
    rw [(select_fold_hash G ub coins _ node _ c _ _).2, getD_replicate_zero]
    split
    · rfl
    · rename_i hc
      by_contra hne
      exact hc (hz1 c hne)

/-- The vote table is zero at every index after every number of visits. -/
theorem lp_after_hash (cfg : PartitionConfig) (G : graph_access) (ub : Nat)
    (perm : List Nat) (coins : Nat → Bool) :
    ∀ k, (lp_after cfg G ub perm coins k).hash_map = List.replicate G.number_of_nodes 0 := by
  intro k
  induction k with
  | zero => rw [lp_after_zero]; rfl
  | succ k ih =>
    by_cases hk : k < (visits cfg perm).length
    · rw [lp_after_succ cfg G ub perm coins k hk]
      exact visit_hash cfg G ub coins _ _ _ ih
    · rw [lp_after_of_le cfg G ub perm coins (k + 1) (by omega),
        ← lp_after_of_le cfg G ub perm coins k (by omega)]
      exact ih

/-! ## Votes of a visit -/

theorem bound_closed (cfg : PartitionConfig) (G : graph_access) (ub : Nat) :
    MoveClosed cfg G ub (fun i => i < G.number_of_nodes)
      (fun cluster_id _ => cluster_id.length = G.number_of_nodes ∧
        ∀ i, i < G.number_of_nodes → cluster_id.getD i 0 < G.number_of_nodes) where
  movable := fun t ht => by omega
  label := fun _ _ i inv hi => inv.2 i hi
  move := fun cluster_id _ node m inv hn hm _ => by
    have hnl : node < cluster_id.length := by rw [inv.1]; exact hn
    refine ⟨by rw [List.length_set]; exact inv.1, ?_⟩
    intro i hi
    rw [getD_set_ite _ _ _ _ hnl]
    split
    · exact hm
    · exact inv.2 i hi

theorem bound_init (cfg : PartitionConfig) (G : graph_access) :
    (lp_init cfg G).cluster_id.length = G.number_of_nodes ∧
    ∀ i, i < G.number_of_nodes → (lp_init cfg G).cluster_id.getD i 0 < G.number_of_nodes := by
  refine ⟨by simp [lp_init], ?_⟩
  intro i hi
  show (List.range G.number_of_nodes).getD i 0 < _
  rw [getD_range _ _ hi]; exact hi

/-- Every state between visits has one label per node, all of them node
indices, when the visiting order holds node indices. -/
theorem lp_after_bound (cfg : PartitionConfig) (G : graph_access) (ub : Nat)
    (perm : List Nat) (coins : Nat → Bool)
    (hperm : ∀ node, node ∈ perm → node < G.number_of_nodes) (k : Nat) :
    (lp_after cfg G ub perm coins k).cluster_id.length = G.number_of_nodes ∧
    ∀ i, i < G.number_of_nodes →
      (lp_after cfg G ub perm coins k).cluster_id.getD i 0 < G.number_of_nodes :=
  (lp_after_inv cfg G ub perm coins _ _ (bound_closed cfg G ub) (bound_init cfg G) hperm k).core

/-- The table at the start of the selection pass holds the vote weight of
every cluster in the word `EdgeWeight`, and every cluster of an eligible
out-edge is listed. -/
theorem tally_votes (cfg : PartitionConfig) (G : graph_access) (node : Nat) (st : LPState)
    (hh : st.hash_map = List.replicate G.number_of_nodes 0)
    (hb : ∀ i, i < G.number_of_nodes → st.cluster_id.getD i 0 < G.number_of_nodes) :
    (∀ c, (tally cfg G node st).hash_map.getD c 0
      = vote cfg G st.cluster_id node c % EdgeWeight_mod) ∧
    (∀ c, (tally cfg G node st).hash_map.getD c 0 ≠ 0 →
      c ∈ (tally cfg G node st).neighboring_blocks) ∧
    (∀ e, e ∈ G.out_edges node → edge_skipped cfg G node e.target = false →
      st.cluster_id.getD e.target 0 ∈ (tally cfg G node st).neighboring_blocks) := by
  have hz : ∀ c, st.hash_map.getD c 0 ≠ 0 → c ∈ st.neighboring_blocks := by
    intro c hc
    rw [hh, getD_replicate_zero] at hc
    exact absurd rfl hc
  obtain ⟨hz1, hl1⟩ := accumulate_edges_listed cfg G node (G.out_edges node) st hz
  refine ⟨?_, hz1, hl1⟩
  intro c
  have hv := accumulate_edges_votes cfg G node c (G.out_edges node) st (by
    intro e _ hs
    have ht := edge_not_skipped cfg G node e.target hs
    rw [hh, List.length_replicate]
    exact hb _ (by omega)) (by
    rw [hh, getD_replicate_zero]
    exact EdgeWeight_mod_pos)
  rw [hh, getD_replicate_zero, Nat.zero_add] at hv
  exact hv

/-- The block chosen by a visit has the largest stored vote among the block of
the node and the blocks of eligible out-edges that pass the capacity test; the
stored vote is the vote weight in the word `EdgeWeight`. -/
theorem visit_selection_stored (cfg : PartitionConfig) (G : graph_access) (ub : Nat)
    (coins : Nat → Bool) (node : Nat) (st : LPState)
    (hh : st.hash_map = List.replicate G.number_of_nodes 0)
    (hb : ∀ i, i < G.number_of_nodes → st.cluster_id.getD i 0 < G.number_of_nodes) :
    vote cfg G st.cluster_id node (st.cluster_id.getD node 0) % EdgeWeight_mod
      ≤ vote cfg G st.cluster_id node (select G ub coins (tally cfg G node st) node).max_block
          % EdgeWeight_mod ∧
    ∀ e, e ∈ G.out_edges node → edge_skipped cfg G node e.target = false →
      (st.cluster_sizes.getD (st.cluster_id.getD e.target 0) 0 + G.getNodeWeight node)
        % NodeWeight_mod < ub →
      vote cfg G st.cluster_id node (st.cluster_id.getD e.target 0) % EdgeWeight_mod
        ≤ vote cfg G st.cluster_id node
            (select G ub coins (tally cfg G node st) node).max_block % EdgeWeight_mod := by
  obtain ⟨hv, hz1, hl1⟩ := tally_votes cfg G node st hh hb
  obtain ⟨f1, f2, _, _⟩ := tally_fields cfg G node st
  obtain ⟨r1, _, r3⟩ := select_fold_max G ub coins (tally cfg G node st).cluster_sizes node
    ((tally cfg G node st).cluster_id.getD node 0)
    (fun c => (tally cfg G node st).hash_map.getD c 0)
    (fun c => by
      show (tally cfg G node st).hash_map.getD c 0 < PartitionID_mod
      rw [hv, ← EdgeWeight_mod_eq_PartitionID_mod]
      exact Nat.mod_lt _ EdgeWeight_mod_pos)
    (tally cfg G node st).neighboring_blocks
    { max_value := 0, max_block := (tally cfg G node st).cluster_id.getD node 0,
      hash_map := (tally cfg G node st).hash_map, coin := (tally cfg G node st).coin }
    (fun c => le_refl _) (Nat.zero_le _)
  have r1s : (select G ub coins (tally cfg G node st) node).max_value
      ≤ (tally cfg G node st).hash_map.getD
          (select G ub coins (tally cfg G node st) node).max_block 0 := r1
  have r3s : ∀ b, b ∈ (tally cfg G node st).neighboring_blocks →
      (((tally cfg G node st).cluster_sizes.getD b 0 + G.getNodeWeight node) % NodeWeight_mod
          < ub ∨ b = (tally cfg G node st).cluster_id.getD node 0) →
      (tally cfg G node st).hash_map.getD b 0
        ≤ (select G ub coins (tally cfg G node st) node).max_value :=
    fun b hb1 hfit => r3 b hb1 hfit rfl
  rw [f1, f2] at r3s
  rw [hv] at r1s
  constructor
  · by_cases hmy : st.cluster_id.getD node 0 ∈ (tally cfg G node st).neighboring_blocks
    · have := r3s _ hmy (Or.inr rfl)
      rw [hv] at this
      exact le_trans this r1s
    · have h0 : (tally cfg G node st).hash_map.getD (st.cluster_id.getD node 0) 0 = 0 := by
        by_contra hne
        exact hmy (hz1 _ hne)
      rw [hv] at h0
      rw [h0]
      exact Nat.zero_le _
  · intro e he hs hfit
    have hmem := hl1 e he hs
    have := r3s _ hmem (Or.inl hfit)
    rw [hv] at this
    exact le_trans this r1s

/-- Filtering with a stronger test gives a smaller sum of weights. -/
theorem sum_filter_mono (p q : Edge → Bool) (h : ∀ e, p e = true → q e = true) :
    ∀ es : List Edge, ((es.filter p).map Edge.weight).sum ≤ ((es.filter q).map Edge.weight).sum := by
  intro es
  induction es with
  | nil => exact le_refl _
  | cons e es ih =>
    by_cases hp : p e = true
    · rw [List.filter_cons_of_pos hp, List.filter_cons_of_pos (h e hp), List.map_cons,
        List.map_cons, List.sum_cons, List.sum_cons]
      omega
    · rw [List.filter_cons_of_neg hp]
      by_cases hq : q e = true
      · rw [List.filter_cons_of_pos hq, List.map_cons, List.sum_cons]
        omega
      · rw [List.filter_cons_of_neg hq]
        exact ih

/-- The vote weight of a cluster is part of the weight of the eligible
out-edges of the node. -/
theorem vote_le_eligible_weight (cfg : PartitionConfig) (G : graph_access)
    (cluster_id : List Nat) (node c : Nat) :
    vote cfg G cluster_id node c ≤ eligible_weight cfg G node := by
  unfold vote eligible_weight
  apply sum_filter_mono
  intro e he
  unfold eligible_into at he
  simp only [Bool.and_eq_true] at he
  exact he.1

/-- When the eligible out-edges of the node weigh less than the word
`EdgeWeight` holds, no stored vote wraps. -/
theorem vote_mod_eq (cfg : PartitionConfig) (G : graph_access) (cluster_id : List Nat)
    (node c : Nat) (hsum : eligible_weight cfg G node < EdgeWeight_mod) :
    vote cfg G cluster_id node c % EdgeWeight_mod = vote cfg G cluster_id node c :=
  Nat.mod_eq_of_lt (lt_of_le_of_lt (vote_le_eligible_weight cfg G cluster_id node c) hsum)

/-- The block chosen by a visit has the largest vote weight among the block of
the node and the blocks of eligible out-edges that pass the capacity test, when
the eligible out-edges of the node weigh less than the word `EdgeWeight`
holds. -/
theorem visit_selection (cfg : PartitionConfig) (G : graph_access) (ub : Nat)
    (coins : Nat → Bool) (node : Nat) (st : LPState)
    (hh : st.hash_map = List.replicate G.number_of_nodes 0)
    (hb : ∀ i, i < G.number_of_nodes → st.cluster_id.getD i 0 < G.number_of_nodes)
    (hsum : eligible_weight cfg G node < EdgeWeight_mod) :
    vote cfg G st.cluster_id node (st.cluster_id.getD node 0)
      ≤ vote cfg G st.cluster_id node (select G ub coins (tally cfg G node st) node).max_block ∧
    ∀ e, e ∈ G.out_edges node → edge_skipped cfg G node e.target = false →
      st.cluster_sizes.getD (st.cluster_id.getD e.target 0) 0 + G.getNodeWeight node < ub →
      vote cfg G st.cluster_id node (st.cluster_id.getD e.target 0)
        ≤ vote cfg G st.cluster_id node
            (select G ub coins (tally cfg G node st) node).max_block := by
  obtain ⟨h1, h2⟩ := visit_selection_stored cfg G ub coins node st hh hb
  rw [vote_mod_eq cfg G _ node _ hsum, vote_mod_eq cfg G _ node _ hsum] at h1
  refine ⟨h1, ?_⟩
  intro e he hs hfit
  have := h2 e he hs (lt_of_le_of_lt (Nat.mod_le _ _) hfit)
  rw [vote_mod_eq cfg G _ node _ hsum, vote_mod_eq cfg G _ node _ hsum] at this
  exact this

/-- The eligible out-edges of a node weigh at most as much as all its
out-edges. -/
theorem eligible_weight_le_out (cfg : PartitionConfig) (G : graph_access) (node : Nat) :
    eligible_weight cfg G node ≤ ((G.out_edges node).map Edge.weight).sum := by
  unfold eligible_weight
  have h := sum_filter_mono (fun e => !edge_skipped cfg G node e.target) (fun _ => true)
    (fun _ _ => rfl) (G.out_edges node)
  rw [List.filter_true] at h
  exact h

/-! ## The strict cap of the sweeps -/

theorem strict_closed (cfg : PartitionConfig) (G : graph_access) (ub : Nat)
    (hw : total_weight G < NodeWeight_mod) :
    StepClosed cfg G (fun i => i < G.number_of_nodes) (fun i => i < G.number_of_nodes)
      (sweep_fit G ub) (CoreInv G (ub - 1)) where
  movable := fun t ht => by omega
  label := fun _ _ i inv hi => inv.id_lt i hi
  move := fun cluster_id sizes node m inv hn hm hfit => by
    apply core_move G (ub - 1) cluster_id sizes node m inv hn hm hw
    rcases hfit with h | h
    · left; exact h
    · right
      unfold sweep_fit at h
      omega

/-- After the sweeps every cluster with two distinct nodes weighs at most
`block_upperbound - 1`: the capacity test of the sweeps is strict. -/
theorem lp_sweeps_strict (cfg : PartitionConfig) (G : graph_access) (ub : Nat)
    (perm : List Nat) (coins : Nat → Bool)
    (hperm : ∀ node, node ∈ perm → node < G.number_of_nodes)
    (hw : total_weight G < NodeWeight_mod) :
    CoreInv G (ub - 1) (lp_sweeps cfg G ub perm coins).cluster_id
      (lp_sweeps cfg G ub perm coins).cluster_sizes := by
  rw [lp_sweeps_eq]
  exact (lp_after_step cfg G ub perm coins _ _ _ (strict_closed cfg G ub hw) hperm 0
    (by
      rw [lp_after_zero]
      exact lp_init_visit_inv cfg G _ _ _ (core_init cfg G (ub - 1)) (fun h => by omega))
    _ (Nat.zero_le _)).core

theorem visit_isolated (cfg : PartitionConfig) (G : graph_access) (ub : Nat)
    (coins : Nat → Bool) (j : Nat) (st : LPState) (node : Nat) :
    (visit cfg G ub coins j st node).isolated_nodes
      = if j = 0 ∧ (tally cfg G node st).neighboring_blocks.length = 0
        then st.isolated_nodes ++ [node] else st.isolated_nodes := by
  have f3 := (tally_fields cfg G node st).2.2.1
  show (if j = 0 ∧ (tally cfg G node st).neighboring_blocks.length = 0
      then (tally cfg G node st).isolated_nodes ++ [node]
      else (tally cfg G node st).isolated_nodes) = _
  rw [f3]

/-- When every node of the visiting order has an eligible out-edge, no node is
recorded as isolated. -/
theorem lp_after_no_isolated (cfg : PartitionConfig) (G : graph_access) (ub : Nat)
    (perm : List Nat) (coins : Nat → Bool)
    (hedge : ∀ node, node ∈ perm →
      ∃ e, e ∈ G.out_edges node ∧ edge_skipped cfg G node e.target = false) :
    ∀ k, (lp_after cfg G ub perm coins k).isolated_nodes = [] := by
  intro k
  induction k with
  | zero => rw [lp_after_zero]; rfl
  | succ k ih =>
    by_cases hk : k < (visits cfg perm).length
    · rw [lp_after_succ cfg G ub perm coins k hk, visit_isolated, ih]
      obtain ⟨e, he, hs⟩ := hedge _ (visits_getD_mem cfg perm k hk)
      have hz : ∀ c, (lp_after cfg G ub perm coins k).hash_map.getD c 0 ≠ 0 →
          c ∈ (lp_after cfg G ub perm coins k).neighboring_blocks := by
        intro c hc
        rw [lp_after_hash, getD_replicate_zero] at hc
        exact absurd rfl hc
      have hmem := (accumulate_edges_listed cfg G _ (G.out_edges _) _ hz).2 e he hs
      have hpos : (tally cfg G ((visits cfg perm).getD k (0, 0)).2
          (lp_after cfg G ub perm coins k)).neighboring_blocks.length ≠ 0 := by
        intro h0
        have hnil := List.length_eq_zero.mp h0
        unfold tally at hnil
        rw [hnil] at hmem
        exact absurd hmem (List.not_mem_nil _)
      rw [if_neg (fun h => hpos h.2)]
    · rw [lp_after_of_le cfg G ub perm coins (k + 1) (by omega),
        ← lp_after_of_le cfg G ub perm coins k (by omega)]
      exact ih

theorem lp_reconciled_of_no_isolated (cfg : PartitionConfig) (G : graph_access) (ub : Nat)
    (perm : List Nat) (coins : Nat → Bool)
    (h : (lp_sweeps cfg G ub perm coins).isolated_nodes = []) :
    lp_reconciled cfg G ub perm coins = lp_sweeps cfg G ub perm coins := by
  unfold lp_reconciled
  simp only [h, List.length_nil]
  rw [if_neg (by omega)]

theorem triple_le_cluster_weight (G : graph_access) (cluster_id : List Nat) (a b c l : Nat)
    (ha : a < G.number_of_nodes) (hb : b < G.number_of_nodes) (hc : c < G.number_of_nodes)
    (hab : a ≠ b) (hac : a ≠ c) (hbc : b ≠ c)
    (h1 : cluster_id.getD a 0 = l) (h2 : cluster_id.getD b 0 = l)
    (h3 : cluster_id.getD c 0 = l) :
    G.getNodeWeight a + G.getNodeWeight b + G.getNodeWeight c ≤ cluster_weight G cluster_id l := by
  rw [cluster_weight_split G cluster_id l a ha, if_pos h1]
  have hsub : ({b, c} : Finset Nat) ⊆ (Finset.range G.number_of_nodes).erase a := by
    intro x hx
    rw [Finset.mem_insert, Finset.mem_singleton] at hx
    rcases hx with h | h
    · rw [h]; exact Finset.mem_erase.mpr ⟨fun h => hab h.symm, Finset.mem_range.mpr hb⟩
    · rw [h]; exact Finset.mem_erase.mpr ⟨fun h => hac h.symm, Finset.mem_range.mpr hc⟩
  have hle := Finset.sum_le_sum_of_subset_of_nonneg hsub
    (f := fun i => if cluster_id.getD i 0 = l then G.getNodeWeight i else 0)
    (fun i _ _ => Nat.zero_le _)
  rw [Finset.sum_pair hbc] at hle
  simp only [h2, h3, if_true] at hle
  omega

/-- The cluster weights of a dense labelling add up to the total weight. -/
theorem sum_cluster_weight_dense (G : graph_access) (out : List Nat) (count : Nat)
    (hlen : out.length = G.number_of_nodes) (hd : DenseLabels out count) :
    ∑ c in Finset.range count, cluster_weight G out c = total_weight G := by
  unfold cluster_weight total_weight
  rw [Finset.sum_comm]
  apply Finset.sum_congr rfl
  intro i hi
  have hmem : out.getD i 0 ∈ Finset.range count := by
    rw [Finset.mem_range]
    apply (hd _).mp
    rw [mem_iff_getD]
    exact ⟨i, by rw [hlen]; exact Finset.mem_range.mp hi, rfl⟩
  rw [Finset.sum_ite_eq, if_pos hmem]

/-! ## The path scenario -/

theorem path6_eligible_edge :
    ∀ node, node < 6 →
      ∃ e, e ∈ path6.out_edges node ∧ edge_skipped path_config path6 node e.target = false := by
  decide

/-- Five labels below two contain three equal ones. -/
theorem three_of_five (x0 x1 x2 x3 x4 : Nat)
    (h0 : x0 < 2) (h1 : x1 < 2) (h2 : x2 < 2) (h3 : x3 < 2) (h4 : x4 < 2) :
    (x0 = x1 ∧ x1 = x2) ∨ (x0 = x1 ∧ x1 = x3) ∨ (x0 = x1 ∧ x1 = x4) ∨ (x0 = x2 ∧ x2 = x3) ∨
    (x0 = x2 ∧ x2 = x4) ∨ (x0 = x3 ∧ x3 = x4) ∨ (x1 = x2 ∧ x2 = x3) ∨ (x1 = x2 ∧ x2 = x4) ∨
    (x1 = x3 ∧ x3 = x4) ∨ (x2 = x3 ∧ x3 = x4) := by
  interval_cases x0 <;> interval_cases x1 <;> interval_cases x2 <;> interval_cases x3 <;>
    interval_cases x4 <;> simp

/-- On the path with six unit nodes and the bound 3, no three distinct nodes
share their label before `remap_cluster_ids`. -/
theorem path6_no_triple (perm : List Nat) (coins : Nat → Bool)
    (hperm : ∀ node, node ∈ perm → node < 6) :
    ∀ a b c, a < 6 → b < 6 → c < 6 → a ≠ b → a ≠ c → b ≠ c →
      ¬ ((lp_reconciled path_config path6 3 perm coins).cluster_id.getD a 0
          = (lp_reconciled path_config path6 3 perm coins).cluster_id.getD b 0 ∧
        (lp_reconciled path_config path6 3 perm coins).cluster_id.getD b 0
          = (lp_reconciled path_config path6 3 perm coins).cluster_id.getD c 0) := by
  intro a b c ha hb hc hab hac hbc ⟨h1, h2⟩
  have hw : total_weight path6 < NodeWeight_mod := by decide
  have hiso : (lp_sweeps path_config path6 3 perm coins).isolated_nodes = [] := by
    rw [lp_sweeps_eq]
    exact lp_after_no_isolated path_config path6 3 perm coins
      (fun node hn => path6_eligible_edge node (hperm node hn)) _
  rw [lp_reconciled_of_no_isolated path_config path6 3 perm coins hiso] at h1 h2
  have inv := lp_sweeps_strict path_config path6 3 perm coins hperm hw
  have hcap := inv.cap a b ha hb hab h1
  have htri := triple_le_cluster_weight path6 _ a b c _ ha hb hc hab hac hbc rfl h1.symm
    (h2.symm.trans h1.symm)
  have e : path6.getNodeWeight a + path6.getNodeWeight b + path6.getNodeWeight c = 3 := rfl
  omega

/-! ## The merges of cluster_isolated_nodes -/

/-- The inner loop makes the merge with the partner found by the search, or
none. -/
theorem iso_inner_eq (cfg : PartitionConfig) (G : graph_access) (ub : Nat)
    (iso : List Nat) (node : Nat) :
    ∀ (cands : List Nat) (st : IsoState),
      iso_inner cfg G ub iso node cands st
        = match find_partner cfg G ub iso node cands st with
          | none => st
          | some j => iso_merge G iso node st j := by
  intro cands
  induction cands with
  | nil => intro st; rfl
  | cons it2 rest ih =>
    intro st
    rw [iso_inner, find_partner]
    simp only
    by_cases hc : st.combined.getD it2 false = true
    · rw [if_pos hc, if_pos hc]; exact ih st
    · rw [if_neg hc, if_neg hc]
      by_cases ha : iso_accepts cfg G ub st node (iso.getD it2 0) = true
      · rw [if_pos ha, if_pos ha]; rfl
      · rw [if_neg ha, if_neg ha]; exact ih st

/-- The partner found among the positions `s, ..., s + m - 1` is the first of
them that is not combined and passes the test. -/
theorem find_partner_some (cfg : PartitionConfig) (G : graph_access) (ub : Nat)
    (iso : List Nat) (node : Nat) (st : IsoState) (j : Nat) :
    ∀ (m s : Nat), find_partner cfg G ub iso node (List.range' s m) st = some j →
      s ≤ j ∧ j < s + m ∧ st.combined.getD j false = false ∧
      iso_accepts cfg G ub st node (iso.getD j 0) = true ∧
      ∀ j1, s ≤ j1 → j1 < j →
        st.combined.getD j1 false = true ∨
        iso_accepts cfg G ub st node (iso.getD j1 0) = false := by
  intro m
  induction m with
  | zero => intro s h; simp [find_partner] at h
  | succ m ih =>
    intro s h
    rw [List.range'_succ, find_partner] at h
    by_cases hc : st.combined.getD s false = true
    · rw [if_pos hc] at h
      obtain ⟨h1, h2, h3, h4, h5⟩ := ih (s + 1) h
      refine ⟨by omega, by omega, h3, h4, ?_⟩
      intro j1 hj1 hj1j
      by_cases hs : j1 = s
      · subst hs; left; exact hc
      · exact h5 j1 (by omega) hj1j
    · rw [if_neg hc] at h
      by_cases ha : iso_accepts cfg G ub st node (iso.getD s 0) = true
      · rw [if_pos ha] at h
        have hj : s = j := Option.some.inj h
        subst hj
        refine ⟨le_refl _, by omega, by simpa using hc, ha, ?_⟩
        intro j1 h1 h2
        omega
      · rw [if_neg ha] at h
        obtain ⟨h1, h2, h3, h4, h5⟩ := ih (s + 1) h
        refine ⟨by omega, by omega, h3, h4, ?_⟩
        intro j1 hj1 hj1j
        by_cases hs : j1 = s
        · subst hs; right; simpa using ha
        · exact h5 j1 (by omega) hj1j

theorem iso_before_succ (cfg : PartitionConfig) (G : graph_access) (cid sizes : List Nat)
    (ub : Nat) (iso : List Nat) (it : Nat) :
    iso_before cfg G cid sizes ub iso (it + 1)
      = iso_outer cfg G ub iso (iso_before cfg G cid sizes ub iso it) it := by
  unfold iso_before
  rw [List.range_succ, List.foldl_append]
  rfl

/-- The state after an iteration that makes a merge. -/
theorem iso_before_succ_some (cfg : PartitionConfig) (G : graph_access) (cid sizes : List Nat)
    (ub : Nat) (iso : List Nat) (it j : Nat)
    (h : merge_partner cfg G cid sizes ub iso it = some j) :
    iso_before cfg G cid sizes ub iso (it + 1)
      = iso_merge G iso (iso.getD it 0)
          { iso_before cfg G cid sizes ub iso it with
            combined := (iso_before cfg G cid sizes ub iso it).combined.set it true } j := by
  rw [iso_before_succ]
  unfold merge_partner at h
  unfold iso_outer
  simp only
  by_cases hc : (iso_before cfg G cid sizes ub iso it).combined.getD it false = true
  · rw [if_pos hc] at h; exact absurd h (by simp)
  · rw [if_neg hc] at h
    rw [if_neg hc, iso_inner_eq, h]

/-- The state after an iteration that makes no merge: only the flag of the
position may change. -/
theorem iso_before_succ_none (cfg : PartitionConfig) (G : graph_access) (cid sizes : List Nat)
    (ub : Nat) (iso : List Nat) (it : Nat)
    (h : merge_partner cfg G cid sizes ub iso it = none) :
    (iso_before cfg G cid sizes ub iso (it + 1)).cluster_id
      = (iso_before cfg G cid sizes ub iso it).cluster_id ∧
    (iso_before cfg G cid sizes ub iso (it + 1)).cluster_sizes
      = (iso_before cfg G cid sizes ub iso it).cluster_sizes ∧
    (iso_before cfg G cid sizes ub iso (it + 1)).combined
      = if (iso_before cfg G cid sizes ub iso it).combined.getD it false
        then (iso_before cfg G cid sizes ub iso it).combined
        else (iso_before cfg G cid sizes ub iso it).combined.set it true := by
  rw [iso_before_succ]
  unfold merge_partner at h
  unfold iso_outer
  simp only
  by_cases hc : (iso_before cfg G cid sizes ub iso it).combined.getD it false = true
  · rw [if_pos hc, if_pos hc]; exact ⟨rfl, rfl, rfl⟩
  · rw [if_neg hc] at h
    rw [if_neg hc, if_neg hc, iso_inner_eq, h]
    exact ⟨rfl, rfl, rfl⟩

theorem iso_accepts_combined (cfg : PartitionConfig) (G : graph_access) (ub : Nat)
    (st : IsoState) (c : List Bool) (node target : Nat) :
    iso_accepts cfg G ub { st with combined := c } node target
      = iso_accepts cfg G ub st node target := rfl

/-- The partner of a merge is the first later position that is not combined
and passes the test in the state at the start of the iteration. -/
theorem merge_partner_some (cfg : PartitionConfig) (G : graph_access) (cid sizes : List Nat)
    (ub : Nat) (iso : List Nat) (it j : Nat)
    (h : merge_partner cfg G cid sizes ub iso it = some j) :
    (iso_before cfg G cid sizes ub iso it).combined.getD it false = false ∧
    it < j ∧ j < iso.length ∧
    (iso_before cfg G cid sizes ub iso it).combined.getD j false = false ∧
    iso_accepts cfg G ub (iso_before cfg G cid sizes ub iso it) (iso.getD it 0) (iso.getD j 0)
      = true ∧
    ∀ j1, it < j1 → j1 < j →
      (iso_before cfg G cid sizes ub iso it).combined.getD j1 false = true ∨
      iso_accepts cfg G ub (iso_before cfg G cid sizes ub iso it) (iso.getD it 0)
        (iso.getD j1 0) = false := by
  unfold merge_partner at h
  by_cases hc : (iso_before cfg G cid sizes ub iso it).combined.getD it false = true
  · rw [if_pos hc] at h; exact absurd h (by simp)
  · rw [if_neg hc] at h
    obtain ⟨h1, h2, h3, h4, h5⟩ := find_partner_some cfg G ub iso _ _ j _ _ h
    simp only at h3
    rw [getD_set_ne _ _ _ _ _ (by omega)] at h3
    rw [iso_accepts_combined] at h4
    refine ⟨by simpa using hc, by omega, by omega, h3, h4, ?_⟩
    intro j1 hj1 hj1j
    have := h5 j1 (by omega) hj1j
    simp only at this
    rw [getD_set_ne _ _ _ _ _ (by omega), iso_accepts_combined] at this
    exact this

/-- The flags `combined` at the start of iteration `it`: a position is combined
exactly when its own iteration is over or an earlier iteration merged into
it. -/
theorem iso_before_combined (cfg : PartitionConfig) (G : graph_access) (cid sizes : List Nat)
    (ub : Nat) (iso : List Nat) :
    ∀ it, it ≤ iso.length →
      (iso_before cfg G cid sizes ub iso it).combined.length = iso.length ∧
      ∀ p, p < iso.length →
        ((iso_before cfg G cid sizes ub iso it).combined.getD p false = true
          ↔ (p < it ∨ ∃ i, i < it ∧ merge_partner cfg G cid sizes ub iso i = some p)) := by
  intro it
  induction it with
  | zero =>
    intro _
    refine ⟨by simp [iso_before], ?_⟩
    intro p hp
    have : (iso_before cfg G cid sizes ub iso 0).combined.getD p false = false := by
      show (List.replicate iso.length false).getD p false = false
      rw [List.getD_eq_getElem?_getD, List.getElem?_replicate]
      split <;> rfl
    rw [this]
    constructor
    · intro h; exact absurd h (by simp)
    · rintro (h | ⟨i, hi, _⟩) <;> omega
  | succ it ih =>
    intro hit
    obtain ⟨hlen, hiff⟩ := ih (by omega)
    have hitl : it < (iso_before cfg G cid sizes ub iso it).combined.length := by omega
    cases hmp : merge_partner cfg G cid sizes ub iso it with
    | none =>
      obtain ⟨_, _, hcomb⟩ := iso_before_succ_none cfg G cid sizes ub iso it hmp
      rw [hcomb]
      by_cases hc : (iso_before cfg G cid sizes ub iso it).combined.getD it false = true
      · rw [if_pos hc]
        refine ⟨hlen, ?_⟩
        intro p hp
        rw [hiff p hp]
        constructor
        · rintro (h | ⟨i, hi, h⟩)
          · left; omega
          · right; exact ⟨i, by omega, h⟩
        · rintro (h | ⟨i, hi, h⟩)
          · by_cases hpi : p = it
            · subst hpi; exact (hiff p hp).mp hc
            · left; omega
          · by_cases hii : i = it
            · subst hii; rw [hmp] at h; exact absurd h (by simp)
            · right; exact ⟨i, by omega, h⟩
      · rw [if_neg hc]
        refine ⟨by rw [List.length_set]; exact hlen, ?_⟩
        intro p hp
        by_cases hpi : p = it
        · subst hpi
          rw [getD_set_eq _ _ _ _ hitl]
          exact ⟨fun _ => Or.inl (by omega), fun _ => rfl⟩
        · rw [getD_set_ne _ _ _ _ _ (Ne.symm hpi), hiff p hp]
          constructor
          · rintro (h | ⟨i, hi, h⟩)
            · left; omega
            · right; exact ⟨i, by omega, h⟩
          · rintro (h | ⟨i, hi, h⟩)
            · left; omega
            · by_cases hii : i = it
              · subst hii; rw [hmp] at h; exact absurd h (by simp)
              · right; exact ⟨i, by omega, h⟩
    | some j =>
      obtain ⟨_, hij, hjl, _, _, _⟩ := merge_partner_some cfg G cid sizes ub iso it j hmp
      rw [iso_before_succ_some cfg G cid sizes ub iso it j hmp]
      show (((iso_before cfg G cid sizes ub iso it).combined.set it true).set j true).length
          = iso.length ∧
        ∀ p, p < iso.length →
          ((((iso_before cfg G cid sizes ub iso it).combined.set it true).set j true).getD p false
              = true
            ↔ (p < it + 1 ∨ ∃ i, i < it + 1 ∧ merge_partner cfg G cid sizes ub iso i = some p))
      refine ⟨by rw [List.length_set, List.length_set]; exact hlen, ?_⟩
      intro p hp
      by_cases hpj : p = j
      · subst hpj
        rw [getD_set_eq _ _ _ _ (by rw [List.length_set]; omega)]
        exact ⟨fun _ => Or.inr ⟨it, by omega, hmp⟩, fun _ => rfl⟩
      · rw [getD_set_ne _ _ _ _ _ (Ne.symm hpj)]
        by_cases hpi : p = it
        · subst hpi
          rw [getD_set_eq _ _ _ _ hitl]
          exact ⟨fun _ => Or.inl (by omega), fun _ => rfl⟩
        · rw [getD_set_ne _ _ _ _ _ (Ne.symm hpi), hiff p hp]
          constructor
          · rintro (h | ⟨i, hi, h⟩)
            · left; omega
            · right; exact ⟨i, by omega, h⟩
          · rintro (h | ⟨i, hi, h⟩)
            · left; omega
            · by_cases hii : i = it
              · subst hii
                rw [hmp] at h
                exact absurd (Option.some.inj h).symm hpj
              · right; exact ⟨i, by omega, h⟩

/-- Every position takes part in at most one merge. -/
theorem merge_partner_once (cfg : PartitionConfig) (G : graph_access) (cid sizes : List Nat)
    (ub : Nat) (iso : List Nat) (i j : Nat)
    (h : merge_partner cfg G cid sizes ub iso i = some j) :
    i < j ∧ j < iso.length ∧
    merge_partner cfg G cid sizes ub iso j = none ∧
    (∀ i1, merge_partner cfg G cid sizes ub iso i1 = some j → i1 = i) ∧
    (∀ i1, merge_partner cfg G cid sizes ub iso i1 ≠ some i) := by
  obtain ⟨hci, hij, hjl, hcj, _, _⟩ := merge_partner_some cfg G cid sizes ub iso i j h
  have later : ∀ a b p, merge_partner cfg G cid sizes ub iso a = some p → a < b →
      b < iso.length → p < iso.length →
      (iso_before cfg G cid sizes ub iso b).combined.getD p false = true := by
    intro a b p ha hab hb hp
    exact ((iso_before_combined cfg G cid sizes ub iso b (by omega)).2 p hp).mpr
      (Or.inr ⟨a, hab, ha⟩)
  refine ⟨hij, hjl, ?_, ?_, ?_⟩
  · unfold merge_partner
    rw [if_pos (later i j j h hij hjl hjl)]
  · intro i1 h1
    obtain ⟨_, h1j, _, hc1, _, _⟩ := merge_partner_some cfg G cid sizes ub iso i1 j h1
    by_contra hne
    rcases Nat.lt_or_gt_of_ne hne with hlt | hgt
    · have := later i1 i j h1 hlt (by omega) hjl
      rw [hcj] at this; exact absurd this (by simp)
    · have := later i i1 j h hgt (by omega) hjl
      rw [hc1] at this; exact absurd this (by simp)
  · intro i1 h1
    obtain ⟨_, h1i, _, _, _, _⟩ := merge_partner_some cfg G cid sizes ub iso i1 i h1
    have := ((iso_before_combined cfg G cid sizes ub iso i (by omega)).2 i (by omega)).mpr
      (Or.inr ⟨i1, h1i, h1⟩)
    rw [hci] at this; exact absurd this (by simp)

theorem iso_before_cid_length (cfg : PartitionConfig) (G : graph_access) (cid sizes : List Nat)
    (ub : Nat) (iso : List Nat) :
    ∀ it, (iso_before cfg G cid sizes ub iso it).cluster_id.length = cid.length := by
  intro it
  induction it with
  | zero => rfl
  | succ it ih =>
    cases hmp : merge_partner cfg G cid sizes ub iso it with
    | none => rw [(iso_before_succ_none cfg G cid sizes ub iso it hmp).1]; exact ih
    | some j =>
      rw [iso_before_succ_some cfg G cid sizes ub iso it j hmp]
      show (List.set _ _ _).length = _
      rw [List.length_set]; exact ih

/-- An iteration changes the label of no node other than the node at its
position, and of no node at all when it makes no merge. -/
theorem iso_before_cid_step (cfg : PartitionConfig) (G : graph_access) (cid sizes : List Nat)
    (ub : Nat) (iso : List Nat) (it x : Nat)
    (h : x ≠ iso.getD it 0 ∨ merge_partner cfg G cid sizes ub iso it = none) :
    (iso_before cfg G cid sizes ub iso (it + 1)).cluster_id.getD x 0
      = (iso_before cfg G cid sizes ub iso it).cluster_id.getD x 0 := by
  cases hmp : merge_partner cfg G cid sizes ub iso it with
  | none => rw [(iso_before_succ_none cfg G cid sizes ub iso it hmp).1]
  | some j =>
    rcases h with h | h
    · rw [iso_before_succ_some cfg G cid sizes ub iso it j hmp]
      show (List.set _ _ _).getD x 0 = _
      rw [getD_set_ne _ _ _ _ _ (Ne.symm h)]
    · rw [hmp] at h; exact absurd h (by simp)

theorem iso_before_cid_range (cfg : PartitionConfig) (G : graph_access) (cid sizes : List Nat)
    (ub : Nat) (iso : List Nat) (x it1 : Nat) :
    ∀ d, (∀ t, it1 ≤ t → t < it1 + d →
        x ≠ iso.getD t 0 ∨ merge_partner cfg G cid sizes ub iso t = none) →
      (iso_before cfg G cid sizes ub iso (it1 + d)).cluster_id.getD x 0
        = (iso_before cfg G cid sizes ub iso it1).cluster_id.getD x 0 := by
  intro d
  induction d with
  | zero => intro _; rfl
  | succ d ih =>
    intro h
    rw [← Nat.add_assoc, iso_before_cid_step cfg G cid sizes ub iso (it1 + d) x
      (h (it1 + d) (by omega) (by omega))]
    exact ih (fun t h1 h2 => h t h1 (by omega))

/-- A merge assigns the node at its position the label of the partner. -/
theorem iso_before_merge_label (cfg : PartitionConfig) (G : graph_access)
    (cid sizes : List Nat) (ub : Nat) (iso : List Nat) (i j : Nat)
    (h : merge_partner cfg G cid sizes ub iso i = some j)
    (hin : iso.getD i 0 < cid.length) :
    (iso_before cfg G cid sizes ub iso (i + 1)).cluster_id.getD (iso.getD i 0) 0
      = (iso_before cfg G cid sizes ub iso i).cluster_id.getD (iso.getD j 0) 0 := by
  rw [iso_before_succ_some cfg G cid sizes ub iso i j h]
  show (List.set _ _ _).getD _ 0 = _
  rw [getD_set_eq _ _ _ _ (by rw [iso_before_cid_length]; exact hin)]

theorem nodup_getD_ne (iso : List Nat) (hnd : iso.Nodup) (a b : Nat)
    (ha : a < iso.length) (hb : b < iso.length) (hab : a ≠ b) :
    iso.getD a 0 ≠ iso.getD b 0 := by
  rw [List.getD_eq_getElem _ _ ha, List.getD_eq_getElem _ _ hb]
  intro h
  exact hab ((List.Nodup.getElem_inj_iff hnd).mp h)

theorem getD_mem_of_lt (iso : List Nat) (t : Nat) (ht : t < iso.length) :
    iso.getD t 0 ∈ iso := by
  rw [List.getD_eq_getElem _ _ ht]
  exact List.getElem_mem ht

/-- The label of a node that is at no position of the list is unchanged. -/
theorem iso_final_outside (cfg : PartitionConfig) (G : graph_access) (cid sizes : List Nat)
    (ub : Nat) (iso : List Nat) (x : Nat) (hx : x ∉ iso) :
    (iso_before cfg G cid sizes ub iso iso.length).cluster_id.getD x 0 = cid.getD x 0 := by
  have := iso_before_cid_range cfg G cid sizes ub iso x 0 iso.length (by
    intro t _ ht
    left
    intro h
    exact hx (h ▸ getD_mem_of_lt iso t (by omega)))
  rw [Nat.zero_add] at this
  exact this

/-- For a list of distinct nodes: the final label of the partner of a merge is
its initial label, and it is the final label of the merged node. -/
theorem iso_final_merged (cfg : PartitionConfig) (G : graph_access) (cid sizes : List Nat)
    (ub : Nat) (iso : List Nat) (hin : ∀ x, x ∈ iso → x < cid.length) (hnd : iso.Nodup)
    (i j : Nat) (h : merge_partner cfg G cid sizes ub iso i = some j) :
    (iso_before cfg G cid sizes ub iso iso.length).cluster_id.getD (iso.getD i 0) 0
      = (iso_before cfg G cid sizes ub iso iso.length).cluster_id.getD (iso.getD j 0) 0 ∧
    (iso_before cfg G cid sizes ub iso iso.length).cluster_id.getD (iso.getD j 0) 0
      = cid.getD (iso.getD j 0) 0 := by
  obtain ⟨hij, hjl, hjn, _, _⟩ := merge_partner_once cfg G cid sizes ub iso i j h
  have hpartner : ∀ d, d ≤ iso.length →
      (iso_before cfg G cid sizes ub iso d).cluster_id.getD (iso.getD j 0) 0
        = cid.getD (iso.getD j 0) 0 := by
    intro d hd
    have := iso_before_cid_range cfg G cid sizes ub iso (iso.getD j 0) 0 d (by
      intro t _ ht
      by_cases htj : t = j
      · right; rw [htj]; exact hjn
      · left; exact nodup_getD_ne iso hnd j t hjl (by omega) (Ne.symm htj))
    rw [Nat.zero_add] at this
    exact this
  have hmoved : (iso_before cfg G cid sizes ub iso iso.length).cluster_id.getD (iso.getD i 0) 0
      = (iso_before cfg G cid sizes ub iso (i + 1)).cluster_id.getD (iso.getD i 0) 0 := by
    have := iso_before_cid_range cfg G cid sizes ub iso (iso.getD i 0) (i + 1)
      (iso.length - (i + 1)) (by
        intro t ht1 ht2
        left
        exact nodup_getD_ne iso hnd i t (by omega) (by omega) (by omega))
    rw [show i + 1 + (iso.length - (i + 1)) = iso.length by omega] at this
    exact this
  refine ⟨?_, hpartner iso.length (le_refl _)⟩
  rw [hmoved, iso_before_merge_label cfg G cid sizes ub iso i j h
    (hin _ (getD_mem_of_lt iso i (by omega))), hpartner i (by omega),
    hpartner iso.length (le_refl _)]

/-- For a list of distinct nodes: a node at a position that makes no merge
keeps its label. -/
theorem iso_final_unmerged (cfg : PartitionConfig) (G : graph_access) (cid sizes : List Nat)
    (ub : Nat) (iso : List Nat) (hnd : iso.Nodup)
    (i : Nat) (hi : i < iso.length) (h : merge_partner cfg G cid sizes ub iso i = none) :
    (iso_before cfg G cid sizes ub iso iso.length).cluster_id.getD (iso.getD i 0) 0
      = cid.getD (iso.getD i 0) 0 := by
  have := iso_before_cid_range cfg G cid sizes ub iso (iso.getD i 0) 0 iso.length (by
    intro t _ ht
    by_cases hti : t = i
    · right; rw [hti]; exact h
    · left; exact nodup_getD_ne iso hnd i t hi (by omega) (Ne.symm hti))
  rw [Nat.zero_add] at this
  exact this

/-! ## A single cluster is kept -/

theorem single_closed (cfg : PartitionConfig) (G : graph_access) (L : Nat)
    (fit : List Nat → Nat → Nat → Prop) :
    StepClosed cfg G (fun i => i < G.number_of_nodes) (fun b => b = L) fit
      (fun cluster_id _ => cluster_id.length = G.number_of_nodes ∧
        ∀ i, i < G.number_of_nodes → cluster_id.getD i 0 = L) where
  movable := fun t ht => by omega
  label := fun _ _ i inv hi => inv.2 i hi
  move := fun cluster_id _ node m inv hn hm _ => by
    have hnl : node < cluster_id.length := by rw [inv.1]; exact hn
    refine ⟨by rw [List.length_set]; exact inv.1, ?_⟩
    intro i hi
    rw [getD_set_ite _ _ _ _ hnl]
    split
    · exact hm
    · exact inv.2 i hi

/-- Between visits `neighboring_blocks` is empty, except before the first
visit. -/
theorem lp_after_nb (cfg : PartitionConfig) (G : graph_access) (ub : Nat)
    (perm : List Nat) (coins : Nat → Bool) :
    ∀ k, (lp_after cfg G ub perm coins k).neighboring_blocks = [] ∨
      lp_after cfg G ub perm coins k = lp_init cfg G := by
  intro k
  induction k with
  | zero => right; exact lp_after_zero cfg G ub perm coins
  | succ k ih =>
    by_cases hk : k < (visits cfg perm).length
    · left
      rw [lp_after_succ cfg G ub perm coins k hk]
      rfl
    · rw [lp_after_of_le cfg G ub perm coins (k + 1) (by omega),
        ← lp_after_of_le cfg G ub perm coins k (by omega)]
      exact ih

/-- Once all nodes carry one label after some number of visits, they carry it
after every later visit and just before `remap_cluster_ids`. -/
theorem single_cluster_kept (cfg : PartitionConfig) (G : graph_access) (ub : Nat)
    (perm : List Nat) (coins : Nat → Bool)
    (hperm : ∀ node, node ∈ perm → node < G.number_of_nodes)
    (hN : 0 < G.number_of_nodes) (k L : Nat)
    (hsingle : ∀ i, i < G.number_of_nodes →
      (lp_after cfg G ub perm coins k).cluster_id.getD i 0 = L) :
    (∀ k1, k ≤ k1 → ∀ i, i < G.number_of_nodes →
      (lp_after cfg G ub perm coins k1).cluster_id.getD i 0 = L) ∧
    ∀ i, i < G.number_of_nodes →
      (lp_reconciled cfg G ub perm coins).cluster_id.getD i 0 = L := by
  have hb := lp_after_inv cfg G ub perm coins _ _ (bound_closed cfg G ub) (bound_init cfg G)
    hperm k
  have h0 : VisitInv (fun i => i < G.number_of_nodes) (fun b => b = L)
      (fun cluster_id _ => cluster_id.length = G.number_of_nodes ∧
        ∀ i, i < G.number_of_nodes → cluster_id.getD i 0 = L)
      (lp_after cfg G ub perm coins k) := by
    refine ⟨⟨hb.core.1, hsingle⟩, ?_, hb.iso_in⟩
    intro b hbm
    rcases lp_after_nb cfg G ub perm coins k with h | h
    · rw [h] at hbm; exact absurd hbm (List.not_mem_nil b)
    · rw [h] at hbm
      have hb2 : b ∈ List.replicate (moving_nodes cfg G) 0 := hbm
      rw [List.mem_replicate] at hb2
      have h00 := hsingle 0 hN
      rw [h] at h00
      have h01 : (List.range G.number_of_nodes).getD 0 0 = L := h00
      rw [getD_range _ _ hN] at h01
      rw [hb2.2, h01]
  have hall := lp_after_step cfg G ub perm coins _ _ _
    (single_closed cfg G L (sweep_fit G ub)) hperm k h0
  refine ⟨fun k1 hk1 => (hall k1 hk1).core.2, ?_⟩
  have hsw : VisitInv (fun i => i < G.number_of_nodes) (fun b => b = L)
      (fun cluster_id _ => cluster_id.length = G.number_of_nodes ∧
        ∀ i, i < G.number_of_nodes → cluster_id.getD i 0 = L)
      (lp_sweeps cfg G ub perm coins) := by
    rw [lp_sweeps_eq]
    by_cases hk : k ≤ (visits cfg perm).length
    · exact hall _ hk
    · rw [← lp_after_of_le cfg G ub perm coins k (by omega)]
      exact h0
  exact (lp_reconciled_step cfg G ub perm coins _ _ _
    (single_closed cfg G L (merge_fit G ub)) hsw).2

/-- When all nodes carry one label just before `remap_cluster_ids`,
`label_propagation` returns one block. -/
theorem one_block_of_single (cfg : PartitionConfig) (G : graph_access) (ub : Nat)
    (perm : List Nat) (coins : Nat → Bool) (hN : 0 < G.number_of_nodes) (L : Nat)
    (h : ∀ i, i < G.number_of_nodes →
      (lp_reconciled cfg G ub perm coins).cluster_id.getD i 0 = L) :
    (label_propagation cfg G ub perm coins).2 = 1 ∧
    ∀ a b, a < G.number_of_nodes → b < G.number_of_nodes →
      (label_propagation cfg G ub perm coins).1.getD a 0
        = (label_propagation cfg G ub perm coins).1.getD b 0 := by
  have hsame : ∀ a b, a < G.number_of_nodes → b < G.number_of_nodes →
      (label_propagation cfg G ub perm coins).1.getD a 0
        = (label_propagation cfg G ub perm coins).1.getD b 0 := by
    intro a b ha hb
    rw [label_propagation_same_iff cfg G ub perm coins a b ha hb, h a ha, h b hb]
  refine ⟨?_, hsame⟩
  obtain ⟨hlen, hd⟩ := label_propagation_dense cfg G ub perm coins
  have hmem0 : (label_propagation cfg G ub perm coins).1.getD 0 0
      ∈ (label_propagation cfg G ub perm coins).1 := by
    rw [mem_iff_getD]; exact ⟨0, by rw [hlen]; exact hN, rfl⟩
  have hpos := (hd _).mp hmem0
  by_contra hne
  have h2 : 1 < (label_propagation cfg G ub perm coins).2 := by omega
  have hm0 := (hd 0).mpr (by omega)
  have hm1 := (hd 1).mpr h2
  rw [mem_iff_getD] at hm0 hm1
  obtain ⟨i, hi, hi0⟩ := hm0
  obtain ⟨j, hj, hj1⟩ := hm1
  rw [hlen] at hi hj
  have := hsame i j hi hj
  omega

/-! ## The clique on two nodes -/

theorem vote_ge_edge (cfg : PartitionConfig) (G : graph_access) (cid : List Nat)
    (node c : Nat) (e : Edge) (he : e ∈ G.out_edges node)
    (hel : eligible_into cfg G cid node c e = true) :
    e.weight ≤ vote cfg G cid node c := by
  unfold vote
  apply List.le_sum_of_mem
  rw [List.mem_map]
  exact ⟨e, List.mem_filter.mpr ⟨he, hel⟩, rfl⟩

theorem vote_pos_edge (cfg : PartitionConfig) (G : graph_access) (cid : List Nat)
    (node c : Nat) (h : 0 < vote cfg G cid node c) :
    ∃ e, e ∈ G.out_edges node ∧ eligible_into cfg G cid node c e = true := by
  by_contra hne
  have hnil : (G.out_edges node).filter (eligible_into cfg G cid node c) = [] := by
    rw [List.filter_eq_nil_iff]
    intro e he hel
    exact hne ⟨e, he, hel⟩
  unfold vote at h
  rw [hnil] at h
  simp at h

theorem visits_head (cfg : PartitionConfig) (v : Nat) (rest : List Nat)
    (hiter : 1 ≤ cfg.label_iterations) :
    0 < (visits cfg (v :: rest)).length ∧ visited_node cfg (v :: rest) 0 = v := by
  obtain ⟨n, hn⟩ : ∃ n, cfg.label_iterations = n + 1 := ⟨cfg.label_iterations - 1, by omega⟩
  unfold visited_node visits
  rw [hn, List.range_succ_eq_map, List.flatMap_cons, List.map_cons, List.cons_append]
  exact ⟨by simp, rfl⟩

theorem lp_after_succ_cluster_id (cfg : PartitionConfig) (G : graph_access) (ub : Nat)
    (perm : List Nat) (coins : Nat → Bool) (k : Nat) (hk : k < (visits cfg perm).length) :
    (lp_after cfg G ub perm coins (k + 1)).cluster_id
      = (lp_after cfg G ub perm coins k).cluster_id.set (visited_node cfg perm k)
          (chosen_block cfg G ub perm coins k) := by
  rw [lp_after_succ cfg G ub perm coins k hk]
  show (tally cfg G (visited_node cfg perm k) (lp_after cfg G ub perm coins k)).cluster_id.set
    (visited_node cfg perm k) (chosen_block cfg G ub perm coins k) = _
  rw [(tally_fields cfg G (visited_node cfg perm k) (lp_after cfg G ub perm coins k)).1]

/-- On the clique on two nodes whose total weight is below the bound, the
first visit moves the visited node `v` into the cluster of the other node
`u`, when the out-edges of `v` weigh less than the word `EdgeWeight` holds. -/
theorem two_clique_first_visit (cfg : PartitionConfig) (G : graph_access) (ub : Nat)
    (coins : Nat → Bool) (v u : Nat)
    (hN : G.number_of_nodes = 2) (_hv : v < 2) (hu : u < 2)
    (hne : G.out_edges v ≠ [])
    (hedges : ∀ e, e ∈ G.out_edges v → e.target = u ∧ 0 < e.weight)
    (hq : cfg.quotient_nodes = 0) (hpart : cfg.graph_allready_partitioned = false)
    (hcomb : cfg.combine = false)
    (htotal : G.getNodeWeight u + G.getNodeWeight v < ub)
    (hsum : ((G.out_edges v).map Edge.weight).sum < EdgeWeight_mod) :
    (select G ub coins (tally cfg G v (lp_init cfg G)) v).max_block = u := by
  have hh : (lp_init cfg G).hash_map = List.replicate G.number_of_nodes 0 := rfl
  have hb := (bound_init cfg G).2
  obtain ⟨_, hsel⟩ := visit_selection cfg G ub coins v (lp_init cfg G) hh hb
    (lt_of_le_of_lt (eligible_weight_le_out cfg G v) hsum)
  obtain ⟨e, he⟩ := List.exists_mem_of_ne_nil _ hne
  obtain ⟨het, hew⟩ := hedges e he
  have hskip : ∀ e1, e1 ∈ G.out_edges v → edge_skipped cfg G v e1.target = false := by
    intro e1 he1
    unfold edge_skipped
    rw [(hedges e1 he1).1, hq, hpart, hcomb, hN]
    simp
    omega
  have hcu : (lp_init cfg G).cluster_id.getD u 0 = u := getD_range _ _ (by omega)
  have hsu : (lp_init cfg G).cluster_sizes.getD u 0 = G.getNodeWeight u :=
    getD_map_range _ _ _ (by omega)
  have hle := hsel e he (hskip e he) (by rw [het, hcu, hsu]; exact htotal)
  rw [het, hcu] at hle
  have hvu : e.weight ≤ vote cfg G (lp_init cfg G).cluster_id v u := by
    apply vote_ge_edge cfg G _ v u e he
    unfold eligible_into
    rw [hskip e he, het, hcu]
    simp
  obtain ⟨e2, he2, hel2⟩ := vote_pos_edge cfg G _ v _ (by omega :
    0 < vote cfg G (lp_init cfg G).cluster_id v
      (select G ub coins (tally cfg G v (lp_init cfg G)) v).max_block)
  unfold eligible_into at hel2
  rw [Bool.and_eq_true, decide_eq_true_eq, (hedges e2 he2).1, hcu] at hel2
  exact hel2.2.symm

/-! ## Blocks listed once -/

theorem nodup_getD_not_mem_take (l : List Nat) (h : l.Nodup) (p : Nat) (hp : p < l.length) :
    l.getD p 0 ∉ l.take p := by
  intro hm
  rw [← List.take_append_drop p l, List.nodup_append] at h
  refine h.2.2 hm ?_
  rw [List.drop_eq_getElem_cons hp, List.getD_eq_getElem _ _ hp]
  exact List.mem_cons_self _ _

/-- With positive weights on the eligible edges, the first loop of a visit
lists no block twice, as long as every listed block has a non-zero table
entry and no entry can wrap: every entry plus the weight of the eligible edges
still to come is less than the word `EdgeWeight` holds. -/
theorem accumulate_edges_nodup (cfg : PartitionConfig) (G : graph_access) (node : Nat) :
    ∀ (es : List Edge) (st : LPState),
      (∀ e, e ∈ es → edge_skipped cfg G node e.target = false → 0 < e.weight) →
      (∀ e, e ∈ es → edge_skipped cfg G node e.target = false →
        st.cluster_id.getD e.target 0 < st.hash_map.length) →
      (∀ c, st.hash_map.getD c 0
        + ((es.filter (fun e => !edge_skipped cfg G node e.target)).map Edge.weight).sum
          < EdgeWeight_mod) →
      st.neighboring_blocks.Nodup →
      (∀ b, b ∈ st.neighboring_blocks → st.hash_map.getD b 0 ≠ 0) →
      (es.foldl (accumulate_edge cfg G node) st).neighboring_blocks.Nodup := by
  intro es
  induction es with
  | nil => intro st _ _ _ hn _; exact hn
  | cons e es ih =>
    intro st hw hb hlt hn hz
    simp only [List.foldl_cons]
    have hw1 : ∀ e1, e1 ∈ es → edge_skipped cfg G node e1.target = false → 0 < e1.weight :=
      fun e1 he1 => hw e1 (List.mem_cons_of_mem _ he1)
    cases hs : edge_skipped cfg G node e.target with
    | true =>
      rw [accumulate_edge_skip cfg G node st e hs]
      refine ih st hw1 (fun e1 he1 => hb e1 (List.mem_cons_of_mem _ he1)) ?_ hn hz
      intro c
      have := hlt c
      rw [List.filter_cons_of_neg (by rw [hs]; simp)] at this
      exact this
    | false =>
      have hlt2 := hb e (List.mem_cons_self _ _) hs
      have hpos := hw e (List.mem_cons_self _ _) hs
      have hsum : ∀ c, st.hash_map.getD c 0 + (e.weight
          + ((es.filter (fun e => !edge_skipped cfg G node e.target)).map Edge.weight).sum)
          < EdgeWeight_mod := by
        intro c
        have := hlt c
        rw [List.filter_cons_of_pos (by rw [hs]; rfl), List.map_cons, List.sum_cons] at this
        exact this
      have hstore : (st.hash_map.getD (st.cluster_id.getD e.target 0) 0 + e.weight)
          % EdgeWeight_mod
          = st.hash_map.getD (st.cluster_id.getD e.target 0) 0 + e.weight :=
        Nat.mod_eq_of_lt (by have := hsum (st.cluster_id.getD e.target 0); omega)
      apply ih _ hw1
      · intro e1 he1 hs1
        rw [(accumulate_edge_fields cfg G node st e).1]
        have hl := accumulate_edges_length cfg G node [e] st
        simp only [List.foldl_cons, List.foldl_nil] at hl
        rw [hl]
        exact hb e1 (List.mem_cons_of_mem _ he1) hs1
      · intro c
        rw [accumulate_edge_take cfg G node st e hs]
        simp only
        by_cases hcb : st.cluster_id.getD e.target 0 = c
        · rw [hstore, hcb, getD_set_eq _ _ _ _ (by rw [← hcb]; exact hlt2)]
          have := hsum c
          omega
        · rw [getD_set_ne _ _ _ _ _ hcb]
          have := hsum c
          omega
      · rw [accumulate_edge_take cfg G node st e hs]
        simp only
        split
        · rename_i h0
          rw [List.nodup_append]
          refine ⟨hn, List.nodup_singleton _, ?_⟩
          intro b hb1 hb2
          rw [List.mem_singleton] at hb2
          subst hb2
          exact hz _ hb1 h0
        · exact hn
      · rw [accumulate_edge_take cfg G node st e hs]
        simp only
        intro b hb1
        by_cases hcb : st.cluster_id.getD e.target 0 = b
        · rw [hstore, hcb, getD_set_eq _ _ _ _ (by rw [← hcb]; exact hlt2)]
          omega
        · rw [getD_set_ne _ _ _ _ _ hcb]
          apply hz
          split at hb1
          · rcases List.mem_append.mp hb1 with h | h
            · exact h
            · rw [List.mem_singleton] at h
              exact absurd h.symm hcb
          · exact hb1

/-- A visit that starts with an empty list and a zero table lists every block
once, when the eligible out-edges of the node have positive weights that add
up to less than the word `EdgeWeight` holds. -/
theorem tally_nodup (cfg : PartitionConfig) (G : graph_access) (node : Nat) (st : LPState)
    (hh : st.hash_map = List.replicate G.number_of_nodes 0)
    (hb : ∀ i, i < G.number_of_nodes → st.cluster_id.getD i 0 < G.number_of_nodes)
    (hnb : st.neighboring_blocks = [])
    (hw : ∀ e, e ∈ G.out_edges node → edge_skipped cfg G node e.target = false →
      0 < e.weight)
    (hsum : eligible_weight cfg G node < EdgeWeight_mod) :
    (tally cfg G node st).neighboring_blocks.Nodup := by
  unfold tally
  apply accumulate_edges_nodup cfg G node (G.out_edges node) st hw
  · intro e _ hs
    have ht := edge_not_skipped cfg G node e.target hs
    rw [hh, List.length_replicate]
    exact hb _ (by omega)
  · intro c
    rw [hh, getD_replicate_zero, Nat.zero_add]
    exact hsum
  · rw [hnb]; exact List.nodup_nil
  · intro b hb1
    rw [hnb] at hb1
    exact absurd hb1 (List.not_mem_nil b)

/-! ## The chosen block and the neighbours of the node -/

/-- Every entry of `neighboring_blocks` after the first loop of a visit was
there before, or is the cluster of the target of an eligible out-edge. -/
theorem tally_nb_source (cfg : PartitionConfig) (G : graph_access) (node : Nat) (st : LPState) :
    ∀ b, b ∈ (tally cfg G node st).neighboring_blocks →
      b ∈ st.neighboring_blocks ∨
      ∃ e, e ∈ G.out_edges node ∧ edge_skipped cfg G node e.target = false ∧
        st.cluster_id.getD e.target 0 = b := by
  unfold tally
  generalize G.out_edges node = es
  induction es generalizing st with
  | nil => intro b hb; exact Or.inl hb
  | cons e es ih =>
    intro b hb
    simp only [List.foldl_cons] at hb
    rcases ih (accumulate_edge cfg G node st e) b hb with h | ⟨e1, he1, hs1, hc1⟩
    · cases hs : edge_skipped cfg G node e.target with
      | true =>
        rw [accumulate_edge_skip cfg G node st e hs] at h
        exact Or.inl h
      | false =>
        rw [accumulate_edge_take cfg G node st e hs] at h
        simp only at h
        split at h
        · rcases List.mem_append.mp h with h1 | h1
          · exact Or.inl h1
          · rw [List.mem_singleton] at h1
            exact Or.inr ⟨e, List.mem_cons_self _ _, hs, h1.symm⟩
        · exact Or.inl h
    · rw [(accumulate_edge_fields cfg G node st e).1] at hc1
      exact Or.inr ⟨e1, List.mem_cons_of_mem _ he1, hs1, hc1⟩

/-- The block chosen by a visit that starts with an empty list
`neighboring_blocks` is the block of the node or the cluster of the target of
an eligible out-edge, and in the second case it passed the capacity test. -/
theorem visit_neighbour (cfg : PartitionConfig) (G : graph_access) (ub : Nat)
    (coins : Nat → Bool) (node : Nat) (st : LPState) (hnb : st.neighboring_blocks = []) :
    (select G ub coins (tally cfg G node st) node).max_block = st.cluster_id.getD node 0 ∨
    ((∃ e, e ∈ G.out_edges node ∧ edge_skipped cfg G node e.target = false ∧
        st.cluster_id.getD e.target 0 = (select G ub coins (tally cfg G node st) node).max_block) ∧
      sweep_fit G ub st.cluster_sizes node
        (select G ub coins (tally cfg G node st) node).max_block) := by
  obtain ⟨f1, f2, _, _⟩ := tally_fields cfg G node st
  have hsel := select_good G ub coins (tally cfg G node st) node
    (fun b => b ∈ (tally cfg G node st).neighboring_blocks) (fun _ h => h)
  rw [f1, f2] at hsel
  rcases hsel with h | ⟨h1, h2⟩
  · exact Or.inl h
  · right
    refine ⟨?_, h2⟩
    rcases tally_nb_source cfg G node st _ h1 with h | h
    · rw [hnb] at h
      exact absurd h (List.not_mem_nil _)
    · exact h

/-! ## Contiguous clusters on the path -/

theorem path6_adjacent :
    ∀ node, node < 6 → ∀ e, e ∈ path6.out_edges node →
      (e.target + 1 = node ∨ node + 1 = e.target) ∧ e.weight = 1 := by
  decide

theorem path6_eligible_weight :
    ∀ node, node < 6 → eligible_weight path_config path6 node < EdgeWeight_mod := by
  decide

theorem path6_init :
    ∀ t, t < 6 → (lp_init path_config path6).cluster_id.getD t 0 = t ∧
      (lp_init path_config path6).cluster_sizes.getD t 0 = 1 := by
  decide

/-- On the path, a visit moves the node only into the cluster of one of its
neighbours, and only when the capacity test passes; this holds for the first
visit too, where every neighbour has a positive vote and fits. -/
theorem path6_visit_edge (coins : Nat → Bool) (n : Nat) (hn : n < 6) (st : LPState)
    (hh : st.hash_map = List.replicate path6.number_of_nodes 0)
    (hb : ∀ i, i < path6.number_of_nodes → st.cluster_id.getD i 0 < path6.number_of_nodes)
    (hnb : st.neighboring_blocks = [] ∨ st = lp_init path_config path6) :
    (select path6 3 coins (tally path_config path6 n st) n).max_block
      = st.cluster_id.getD n 0 ∨
    ((∃ e, e ∈ path6.out_edges n ∧ edge_skipped path_config path6 n e.target = false ∧
        st.cluster_id.getD e.target 0
          = (select path6 3 coins (tally path_config path6 n st) n).max_block) ∧
      sweep_fit path6 3 st.cluster_sizes n
        (select path6 3 coins (tally path_config path6 n st) n).max_block) := by
  rcases hnb with hnil | hinit
  · exact visit_neighbour path_config path6 3 coins n st hnil
  · obtain ⟨f1, f2, _, _⟩ := tally_fields path_config path6 n st
    have hsel := select_good path6 3 coins (tally path_config path6 n st) n
      (fun _ => True) (fun _ _ => trivial)
    rw [f1, f2] at hsel
    rcases hsel with h | ⟨_, h2⟩
    · exact Or.inl h
    · right
      refine ⟨?_, h2⟩
      obtain ⟨e0, he0, hs0⟩ := path6_eligible_edge n hn
      have ht0 : e0.target < 6 := edge_not_skipped path_config path6 n e0.target hs0
      have hsel2 := (visit_selection path_config path6 3 coins n st hh hb
        (path6_eligible_weight n hn)).2 e0 he0 hs0 (by
        rw [hinit, (path6_init e0.target ht0).1, (path6_init e0.target ht0).2]
        show 1 + 1 < 3
        omega)
      have hel : eligible_into path_config path6 st.cluster_id n
          (st.cluster_id.getD e0.target 0) e0 = true := by
        simp [-List.getD_eq_getElem?_getD, eligible_into, hs0]
      have hge := vote_ge_edge path_config path6 st.cluster_id n _ e0 he0 hel
      have hw0 := (path6_adjacent n hn e0 he0).2
      obtain ⟨e, he, hel1⟩ := vote_pos_edge path_config path6 st.cluster_id n
        (select path6 3 coins (tally path_config path6 n st) n).max_block (by omega)
      unfold eligible_into at hel1
      simp only [Bool.and_eq_true, Bool.not_eq_true', decide_eq_true_eq] at hel1
      exact ⟨e, he, hel1.1, hel1.2⟩

/-- On the path with six unit nodes and the bound 3, two distinct nodes that
share their label after any number of visits are joined by an edge. -/
theorem path6_adj_after (perm : List Nat) (coins : Nat → Bool)
    (hperm : ∀ node, node ∈ perm → node < 6) :
    ∀ k a b, a < 6 → b < 6 → a ≠ b →
      (lp_after path_config path6 3 perm coins k).cluster_id.getD a 0
        = (lp_after path_config path6 3 perm coins k).cluster_id.getD b 0 →
      a + 1 = b ∨ b + 1 = a := by
  have hw : total_weight path6 < NodeWeight_mod := by decide
  have hstrict : ∀ k, CoreInv path6 (3 - 1) (lp_after path_config path6 3 perm coins k).cluster_id
      (lp_after path_config path6 3 perm coins k).cluster_sizes := fun k =>
    (lp_after_step path_config path6 3 perm coins _ _ _ (strict_closed path_config path6 3 hw)
      hperm 0
      (by
        rw [lp_after_zero]
        exact lp_init_visit_inv path_config path6 _ _ _ (core_init path_config path6 (3 - 1))
          (fun _ => by decide))
      k (Nat.zero_le _)).core
  intro k
  induction k with
  | zero =>
    intro a b ha hb hab h
    rw [lp_after_zero, (path6_init a ha).1, (path6_init b hb).1] at h
    exact absurd h hab
  | succ k ih =>
    intro a b ha hb hab h
    by_cases hk : k < (visits path_config perm).length
    · have hn : visited_node path_config perm k < 6 :=
        hperm _ (visits_getD_mem path_config perm k hk)
      have inv := hstrict k
      have hnl : visited_node path_config perm k
          < (lp_after path_config path6 3 perm coins k).cluster_id.length := by
        rw [inv.len_id]; exact hn
      have key : chosen_block path_config path6 3 perm coins k
            = (lp_after path_config path6 3 perm coins k).cluster_id.getD
                (visited_node path_config perm k) 0 ∨
          ∃ t, (t + 1 = visited_node path_config perm k ∨
              visited_node path_config perm k + 1 = t) ∧
            ∀ x, x < 6 →
              (lp_after path_config path6 3 perm coins k).cluster_id.getD x 0
                = chosen_block path_config path6 3 perm coins k → x = t := by
        rcases path6_visit_edge coins _ hn (lp_after path_config path6 3 perm coins k)
          (lp_after_hash path_config path6 3 perm coins k)
          (lp_after_bound path_config path6 3 perm coins hperm k).2
          (lp_after_nb path_config path6 3 perm coins k) with h1 | ⟨⟨e, he, hs, hc⟩, hfit⟩
        · exact Or.inl h1
        · right
          have ht : e.target < 6 := edge_not_skipped path_config path6 _ e.target hs
          refine ⟨e.target, (path6_adjacent _ hn e he).1, ?_⟩
          intro x hx hxm
          by_contra hxt
          have hm6 : chosen_block path_config path6 3 perm coins k < 6 := by
            have := inv.id_lt e.target ht
            rw [hc] at this
            exact this
          have hex := inv.exact _ hm6
          have hpair := pair_le_cluster_weight path6
            (lp_after path_config path6 3 perm coins k).cluster_id x e.target _ hx ht hxt hxm hc
          have htot := cluster_weight_le_total path6
            (lp_after path_config path6 3 perm coins k).cluster_id
            (chosen_block path_config path6 3 perm coins k)
          have hfit2 : ((lp_after path_config path6 3 perm coins k).cluster_sizes.getD
              (chosen_block path_config path6 3 perm coins k) 0 + 1) % NodeWeight_mod < 3 := hfit
          have hmod : NodeWeight_mod = 4294967296 := by decide
          have hw1 : path6.getNodeWeight x + path6.getNodeWeight e.target = 2 := rfl
          have h6 : total_weight path6 = 6 := by decide
          rw [hex, hmod] at hfit2
          rw [h6] at htot
          omega
      rw [lp_after_succ_cluster_id path_config path6 3 perm coins k hk,
        getD_set_ite _ _ _ _ hnl, getD_set_ite _ _ _ _ hnl] at h
      by_cases han : a = visited_node path_config perm k
      · by_cases hbn : b = visited_node path_config perm k
        · omega
        · rw [if_pos han, if_neg hbn] at h
          rcases key with hm | ⟨t, hadj, huniq⟩
          · have := ih (visited_node path_config perm k) b hn hb (by omega) (by rw [← hm, h])
            omega
          · have := huniq b hb h.symm
            omega
      · by_cases hbn : b = visited_node path_config perm k
        · rw [if_neg han, if_pos hbn] at h
          rcases key with hm | ⟨t, hadj, huniq⟩
          · have := ih a (visited_node path_config perm k) ha hn (by omega) (by rw [h, hm])
            omega
          · have := huniq a ha h
            omega
        · rw [if_neg han, if_neg hbn] at h
          exact ih a b ha hb hab h
    · rw [lp_after_of_le path_config path6 3 perm coins (k + 1) (by omega),
        ← lp_after_of_le path_config path6 3 perm coins k (by omega)] at h
      exact ih a b ha hb hab h

/-- On the path with six unit nodes and the bound 3, two distinct nodes with
the same final label are joined by an edge. -/
theorem path6_contiguous (perm : List Nat) (coins : Nat → Bool)
    (hperm : ∀ node, node ∈ perm → node < 6) :
    ∀ a b, a < 6 → b < 6 → a ≠ b →
      (label_propagation path_config path6 3 perm coins).1.getD a 0
        = (label_propagation path_config path6 3 perm coins).1.getD b 0 →
      a + 1 = b ∨ b + 1 = a := by
  intro a b ha hb hab h
  have hiso : (lp_sweeps path_config path6 3 perm coins).isolated_nodes = [] := by
    rw [lp_sweeps_eq]
    exact lp_after_no_isolated path_config path6 3 perm coins
      (fun node hn => path6_eligible_edge node (hperm node hn)) _
  rw [label_propagation_same_iff path_config path6 3 perm coins a b ha hb,
    lp_reconciled_of_no_isolated path_config path6 3 perm coins hiso, lp_sweeps_eq] at h
  exact path6_adj_after perm coins hperm _ a b ha hb hab h

/-! ## The partner test of cluster_isolated_nodes -/

/-- The test of the inner loop is the test of the specification. -/
theorem iso_accepts_iff (cfg : PartitionConfig) (G : graph_access) (ub : Nat)
    (st : IsoState) (node target : Nat) :
    iso_accepts cfg G ub st node target = true
      ↔ partner_test cfg G ub st.cluster_id st.cluster_sizes node target := by
  unfold iso_accepts partner_test
  simp only [Bool.and_eq_true, Bool.or_eq_true, decide_eq_true_eq, Bool.not_eq_true']
  cases cfg.graph_allready_partitioned <;> cases cfg.combine <;> simp [and_assoc]

/-- When the search finds no partner among the positions `s, ..., s + m - 1`,
each of them is combined or fails the test. -/
theorem find_partner_none (cfg : PartitionConfig) (G : graph_access) (ub : Nat)
    (iso : List Nat) (node : Nat) (st : IsoState) :
    ∀ (m s : Nat), find_partner cfg G ub iso node (List.range' s m) st = none →
      ∀ j1, s ≤ j1 → j1 < s + m →
        st.combined.getD j1 false = true ∨
        iso_accepts cfg G ub st node (iso.getD j1 0) = false := by
  intro m
  induction m with
  | zero => intro s _ j1 h1 h2; omega
  | succ m ih =>
    intro s h j1 h1 h2
    rw [List.range'_succ, find_partner] at h
    by_cases hc : st.combined.getD s false = true
    · rw [if_pos hc] at h
      by_cases hs : j1 = s
      · subst hs; left; exact hc
      · exact ih (s + 1) h j1 (by omega) (by omega)
    · rw [if_neg hc] at h
      by_cases ha : iso_accepts cfg G ub st node (iso.getD s 0) = true
      · rw [if_pos ha] at h
        exact absurd h (by simp)
      · rw [if_neg ha] at h
        by_cases hs : j1 = s
        · subst hs; right; simpa using ha
        · exact ih (s + 1) h j1 (by omega) (by omega)

/-- Iteration `it` makes a merge with the partner `j` exactly when the position
`it` is not combined and `j` is the first later position that is not combined
and passes the test of the specification. -/
theorem merge_partner_iff (cfg : PartitionConfig) (G : graph_access) (cid sizes : List Nat)
    (ub : Nat) (iso : List Nat) (it j : Nat) :
    merge_partner cfg G cid sizes ub iso it = some j ↔
      ((iso_before cfg G cid sizes ub iso it).combined.getD it false = false ∧
        it < j ∧ j < iso.length ∧
        (iso_before cfg G cid sizes ub iso it).combined.getD j false = false ∧
        partner_test cfg G ub (iso_before cfg G cid sizes ub iso it).cluster_id
          (iso_before cfg G cid sizes ub iso it).cluster_sizes (iso.getD it 0) (iso.getD j 0) ∧
        ∀ j1, it < j1 → j1 < j →
          (iso_before cfg G cid sizes ub iso it).combined.getD j1 false = true ∨
          ¬ partner_test cfg G ub (iso_before cfg G cid sizes ub iso it).cluster_id
            (iso_before cfg G cid sizes ub iso it).cluster_sizes (iso.getD it 0)
            (iso.getD j1 0)) := by
  have hto : ∀ j1, iso_accepts cfg G ub (iso_before cfg G cid sizes ub iso it) (iso.getD it 0)
        (iso.getD j1 0) = false →
      ¬ partner_test cfg G ub (iso_before cfg G cid sizes ub iso it).cluster_id
        (iso_before cfg G cid sizes ub iso it).cluster_sizes (iso.getD it 0) (iso.getD j1 0) := by
    intro j1 h1 h2
    rw [(iso_accepts_iff cfg G ub _ _ _).mpr h2] at h1
    exact absurd h1 (by simp)
  constructor
  · intro h
    obtain ⟨h1, h2, h3, h4, h5, h6⟩ := merge_partner_some cfg G cid sizes ub iso it j h
    refine ⟨h1, h2, h3, h4, (iso_accepts_iff cfg G ub _ _ _).mp h5, ?_⟩
    intro j1 hj1 hj1j
    rcases h6 j1 hj1 hj1j with h | h
    · exact Or.inl h
    · exact Or.inr (hto j1 h)
  · intro ⟨h1, h2, h3, h4, h5, h6⟩
    have hc : ¬ (iso_before cfg G cid sizes ub iso it).combined.getD it false = true := by
      rw [h1]; simp
    have hset : ∀ p, p ≠ it →
        ((iso_before cfg G cid sizes ub iso it).combined.set it true).getD p false
          = (iso_before cfg G cid sizes ub iso it).combined.getD p false :=
      fun p hp => getD_set_ne _ _ _ _ _ (Ne.symm hp)
    unfold merge_partner
    rw [if_neg hc]
    cases hf : find_partner cfg G ub iso (iso.getD it 0)
        (List.range' (it + 1) (iso.length - (it + 1)))
        { iso_before cfg G cid sizes ub iso it with
          combined := (iso_before cfg G cid sizes ub iso it).combined.set it true } with
    | none =>
      rcases find_partner_none cfg G ub iso _ _ _ _ hf j (by omega) (by omega) with h | h
      · have h' : ((iso_before cfg G cid sizes ub iso it).combined.set it true).getD j false
            = true := h
        rw [hset j (by omega), h4] at h'
        exact absurd h' (by simp)
      · rw [iso_accepts_combined] at h
        exact absurd h5 (hto j h)
    | some j2 =>
      obtain ⟨g1, g2, g3, g4, g5⟩ := find_partner_some cfg G ub iso _ _ j2 _ _ hf
      have g3' : ((iso_before cfg G cid sizes ub iso it).combined.set it true).getD j2 false
          = false := g3
      rw [hset j2 (by omega)] at g3'
      rw [iso_accepts_combined] at g4
      by_cases hlt : j2 < j
      · rcases h6 j2 (by omega) hlt with h | h
        · rw [g3'] at h; exact absurd h (by simp)
        · exact absurd ((iso_accepts_iff cfg G ub _ _ _).mp g4) h
      · by_cases hgt : j < j2
        · rcases g5 j (by omega) hgt with h | h
          · have h' : ((iso_before cfg G cid sizes ub iso it).combined.set it true).getD j false
                = true := h
            rw [hset j (by omega), h4] at h'
            exact absurd h' (by simp)
          · rw [iso_accepts_combined] at h
            exact absurd h5 (hto j h)
        · have : j2 = j := by omega
          rw [this]

/-- Iteration `it` makes no merge exactly when the position `it` is combined
or every later position is combined or fails the test of the specification. -/
theorem merge_partner_none_iff (cfg : PartitionConfig) (G : graph_access)
    (cid sizes : List Nat) (ub : Nat) (iso : List Nat) (it : Nat) :
    merge_partner cfg G cid sizes ub iso it = none ↔
      ((iso_before cfg G cid sizes ub iso it).combined.getD it false = true ∨
        ∀ j, it < j → j < iso.length →
          (iso_before cfg G cid sizes ub iso it).combined.getD j false = true ∨
          ¬ partner_test cfg G ub (iso_before cfg G cid sizes ub iso it).cluster_id
            (iso_before cfg G cid sizes ub iso it).cluster_sizes (iso.getD it 0)
            (iso.getD j 0)) := by
  constructor
  · intro h
    by_cases hc : (iso_before cfg G cid sizes ub iso it).combined.getD it false = true
    · exact Or.inl hc
    · right
      intro j hj hjl
      by_contra hcon
      rw [not_or, not_not] at hcon
      have hex : ∃ j0, it < j0 ∧ j0 < iso.length ∧
          (iso_before cfg G cid sizes ub iso it).combined.getD j0 false = false ∧
          partner_test cfg G ub (iso_before cfg G cid sizes ub iso it).cluster_id
            (iso_before cfg G cid sizes ub iso it).cluster_sizes (iso.getD it 0)
            (iso.getD j0 0) := ⟨j, hj, hjl, by simpa using hcon.1, hcon.2⟩
      classical
      have hmin := Nat.find_spec hex
      have hle := fun m hm => Nat.find_min hex (m := m) hm
      have hsome := (merge_partner_iff cfg G cid sizes ub iso it (Nat.find hex)).mpr
        ⟨by simpa using hc, hmin.1, hmin.2.1, hmin.2.2.1, hmin.2.2.2, fun j1 h1 h2 => by
          by_contra hcon2
          rw [not_or, not_not] at hcon2
          exact hle j1 h2 ⟨h1, by omega, by simpa using hcon2.1, hcon2.2⟩⟩
      rw [h] at hsome
      exact absurd hsome (by simp)
  · intro h
    cases hm : merge_partner cfg G cid sizes ub iso it with
    | none => rfl
    | some j =>
      obtain ⟨h1, h2, h3, h4, h5, _⟩ := (merge_partner_iff cfg G cid sizes ub iso it j).mp hm
      rcases h with h | h
      · rw [h1] at h; exact absurd h (by simp)
      · rcases h j h2 h3 with h' | h'
        · rw [h4] at h'; exact absurd h' (by simp)
        · exact absurd h5 h'

/-- The vectors after an iteration that makes a merge: the node at the
position is moved into the cluster of the node at the partner position. -/
theorem iso_before_merge_fields (cfg : PartitionConfig) (G : graph_access)
    (cid sizes : List Nat) (ub : Nat) (iso : List Nat) (it j : Nat)
    (h : merge_partner cfg G cid sizes ub iso it = some j) :
    (iso_before cfg G cid sizes ub iso (it + 1)).cluster_id
      = (iso_before cfg G cid sizes ub iso it).cluster_id.set (iso.getD it 0)
          ((iso_before cfg G cid sizes ub iso it).cluster_id.getD (iso.getD j 0) 0) ∧
    (iso_before cfg G cid sizes ub iso (it + 1)).cluster_sizes
      = transfer (iso_before cfg G cid sizes ub iso it).cluster_sizes
          ((iso_before cfg G cid sizes ub iso it).cluster_id.getD (iso.getD it 0) 0)
          ((iso_before cfg G cid sizes ub iso it).cluster_id.getD (iso.getD j 0) 0)
          (G.getNodeWeight (iso.getD it 0)) := by
  rw [iso_before_succ_some cfg G cid sizes ub iso it j h]
  exact ⟨rfl, rfl⟩

/-! ## The contract of remap_cluster_ids -/

/-- Claim C4.  For a `cluster_id` array with one entry per node, after
`remap_cluster_ids` the returned count is the number of distinct labels of the
input, and the labels stored in `cluster_id` are exactly `0, ..., M - 1` for
that number `M`; the array keeps its length. -/
theorem remap_cluster_ids_dense (G : graph_access) (cluster_id : List Nat)
    (apply_to_graph : Bool) (hlen : cluster_id.length = G.number_of_nodes) :
    (remap_cluster_ids G cluster_id apply_to_graph).2.2 = cluster_id.toFinset.card ∧
    DenseLabels (remap_cluster_ids G cluster_id apply_to_graph).2.1 cluster_id.toFinset.card ∧
    (remap_cluster_ids G cluster_id apply_to_graph).2.1.length = cluster_id.length := by
  obtain ⟨hb, hc, hd⟩ := remap_loop_spec G cluster_id hlen
  have hcard : (first_seen (label_key cluster_id) G.number_of_nodes).length
      = cluster_id.toFinset.card := by
    rw [first_seen_length_eq_card, ← hlen, image_label_key]
  refine ⟨?_, ?_, ?_⟩
  · show (remap_loop G cluster_id).cur_no_clusters = _
    rw [hb, hcard]
  · intro v
    show v ∈ (remap_loop G cluster_id).cluster_id ↔ _
    rw [← hcard]
    exact dense_of_first_label (label_key cluster_id) G.number_of_nodes _ hc hd v
  · show (remap_loop G cluster_id).cluster_id.length = _
    rw [hc, hlen]

/-- Witness of `remap_cluster_ids_dense` on the labels 7, 3, 7. -/
theorem remap_cluster_ids_dense_witness :
    ([7, 3, 7] : List Nat).length = example_graph3.number_of_nodes ∧
    (remap_cluster_ids example_graph3 [7, 3, 7] false).2.2
      = ([7, 3, 7] : List Nat).toFinset.card ∧
    DenseLabels (remap_cluster_ids example_graph3 [7, 3, 7] false).2.1
      ([7, 3, 7] : List Nat).toFinset.card ∧
    (remap_cluster_ids example_graph3 [7, 3, 7] false).2.1.length
      = ([7, 3, 7] : List Nat).length :=
  ⟨by decide, remap_cluster_ids_dense example_graph3 [7, 3, 7] false (by decide)⟩

/-- Claim C9.  `remap_cluster_ids` is the first-encounter renumbering: two
nodes receive the same new label exactly when they had the same old label, and
the new labels are handed out in order of first occurrence (node 0 gets 0,
every node gets the label of an earlier node or one more than the largest
label given so far). -/
theorem remap_cluster_ids_first_encounter (G : graph_access) (cluster_id : List Nat)
    (apply_to_graph : Bool) (hlen : cluster_id.length = G.number_of_nodes) :
    (∀ a b, a < G.number_of_nodes → b < G.number_of_nodes →
      ((remap_cluster_ids G cluster_id apply_to_graph).2.1.getD a 0
          = (remap_cluster_ids G cluster_id apply_to_graph).2.1.getD b 0
        ↔ cluster_id.getD a 0 = cluster_id.getD b 0)) ∧
    FirstEncounterOrder (remap_cluster_ids G cluster_id apply_to_graph).2.1 := by
  obtain ⟨_, hc, hd⟩ := remap_loop_spec G cluster_id hlen
  refine ⟨?_, ?_⟩
  · intro a b ha hb
    show (remap_loop G cluster_id).cluster_id.getD a 0
      = (remap_loop G cluster_id).cluster_id.getD b 0 ↔ _
    rw [hd a ha, hd b hb]
    exact first_label_eq_iff (label_key cluster_id) G.number_of_nodes a b ha hb
  · exact first_label_order (label_key cluster_id) G.number_of_nodes _ hc hd

/-- Witness of `remap_cluster_ids_first_encounter` on the labels 7, 3, 7. -/
theorem remap_cluster_ids_first_encounter_witness :
    ([7, 3, 7] : List Nat).length = example_graph3.number_of_nodes ∧
    FirstEncounterOrder (remap_cluster_ids example_graph3 [7, 3, 7] false).2.1 :=
  ⟨by decide, (remap_cluster_ids_first_encounter example_graph3 [7, 3, 7] false (by decide)).2⟩

/-! ## The contract of ensemble_two_clusterings -/

/-- Claim C3.  For label arrays `lhs`, `rhs` (and an output vector) of equal
length, two nodes share their output label exactly when they share both their
`lhs` label and their `rhs` label: the combiner never merges across the
clusters of either input. -/
theorem ensemble_two_clusterings_iff (G : graph_access) (lhs rhs output : List Nat)
    (_hrhs : rhs.length = lhs.length) (hout : output.length = lhs.length) :
    ∀ a b, a < lhs.length → b < lhs.length →
      ((ensemble_two_clusterings G lhs rhs output).1.getD a 0
          = (ensemble_two_clusterings G lhs rhs output).1.getD b 0
        ↔ lhs.getD a 0 = lhs.getD b 0 ∧ rhs.getD a 0 = rhs.getD b 0) := by
  obtain ⟨_, _, _, hd⟩ := ensemble_loop_spec G lhs rhs output hout
  intro a b ha hb
  show (ensemble_loop G lhs rhs output).output.getD a 0
    = (ensemble_loop G lhs rhs output).output.getD b 0 ↔ _
  rw [hd a ha, hd b hb, first_label_eq_iff (pair_key lhs rhs) lhs.length a b ha hb]
  unfold pair_key
  exact Prod.mk.injEq _ _ _ _ ▸ Iff.rfl

/-- Witness of `ensemble_two_clusterings_iff` on two clusterings of three
nodes. -/
theorem ensemble_two_clusterings_iff_witness :
    ([0, 1, 0] : List Nat).length = ([5, 5, 5] : List Nat).length ∧
    ([0, 0, 0] : List Nat).length = ([5, 5, 5] : List Nat).length ∧
    ∀ a b, a < ([5, 5, 5] : List Nat).length → b < ([5, 5, 5] : List Nat).length →
      ((ensemble_two_clusterings example_graph3 [5, 5, 5] [0, 1, 0] [0, 0, 0]).1.getD a 0
          = (ensemble_two_clusterings example_graph3 [5, 5, 5] [0, 1, 0] [0, 0, 0]).1.getD b 0
        ↔ ([5, 5, 5] : List Nat).getD a 0 = ([5, 5, 5] : List Nat).getD b 0 ∧
          ([0, 1, 0] : List Nat).getD a 0 = ([0, 1, 0] : List Nat).getD b 0) :=
  ⟨by decide, by decide,
    ensemble_two_clusterings_iff example_graph3 [5, 5, 5] [0, 1, 0] [0, 0, 0]
      (by decide) (by decide)⟩

/-- Claim C10.  For `lhs`, `rhs` (and an output vector) of equal length, the
count returned by `ensemble_two_clusterings` is the number of distinct pairs
`(lhs[node], rhs[node])`; the counter incremented in the loop already equals
`new_mapping.size()` when the loop ends; and the output labels are exactly
`0, ..., count - 1`, handed out in order of first occurrence of each pair. -/
theorem ensemble_two_clusterings_count (G : graph_access) (lhs rhs output : List Nat)
    (_hrhs : rhs.length = lhs.length) (hout : output.length = lhs.length) :
    (ensemble_two_clusterings G lhs rhs output).2
      = ((Finset.range lhs.length).image (pair_key lhs rhs)).card ∧
    (ensemble_loop G lhs rhs output).no_of_coarse_vertices
      = (ensemble_loop G lhs rhs output).new_mapping.length ∧
    DenseLabels (ensemble_two_clusterings G lhs rhs output).1
      (ensemble_two_clusterings G lhs rhs output).2 ∧
    FirstEncounterOrder (ensemble_two_clusterings G lhs rhs output).1 := by
  obtain ⟨hb, hb2, hc, hd⟩ := ensemble_loop_spec G lhs rhs output hout
  refine ⟨?_, by rw [hb, hb2], ?_, ?_⟩
  · show (ensemble_loop G lhs rhs output).new_mapping.length = _
    rw [hb2, first_seen_length_eq_card]
  · intro v
    show v ∈ (ensemble_loop G lhs rhs output).output
      ↔ v < (ensemble_loop G lhs rhs output).new_mapping.length
    rw [hb2]
    exact dense_of_first_label (pair_key lhs rhs) lhs.length _ hc hd v
  · exact first_label_order (pair_key lhs rhs) lhs.length _ hc hd

/-- Witness of `ensemble_two_clusterings_count` on two clusterings of three
nodes. -/
theorem ensemble_two_clusterings_count_witness :
    ([0, 1, 0] : List Nat).length = ([5, 5, 5] : List Nat).length ∧
    ([0, 0, 0] : List Nat).length = ([5, 5, 5] : List Nat).length ∧
    (ensemble_two_clusterings example_graph3 [5, 5, 5] [0, 1, 0] [0, 0, 0]).2
      = ((Finset.range ([5, 5, 5] : List Nat).length).image
          (pair_key [5, 5, 5] [0, 1, 0])).card :=
  ⟨by decide, by decide,
    (ensemble_two_clusterings_count example_graph3 [5, 5, 5] [0, 1, 0] [0, 0, 0]
      (by decide) (by decide)).1⟩

/-! ## The contract of label_propagation -/

/-- Counterexample to claim C5 as stated.  On two nodes of weights `2 ^ 32 - 1`
and 2 joined by an edge, with the bound 10 and the order 0, 1: the first visit
moves node 0 into cluster 1, whose weight is then `2 ^ 32 + 1` while
`cluster_sizes[1]` is 1; in the second visit the weight 2 of node 1 is
subtracted from that entry 1, which underflows. -/
theorem heavy_nodes_sizes_wrap :
    one_sweep_config.quotient_nodes ≤ heavy_nodes.number_of_nodes ∧
    (∀ node, node ∈ [0, 1] → node < heavy_nodes.number_of_nodes) ∧
    (lp_after one_sweep_config heavy_nodes 10 [0, 1] coins_false 1).cluster_id = [1, 1] ∧
    (lp_after one_sweep_config heavy_nodes 10 [0, 1] coins_false 1).cluster_sizes = [0, 1] ∧
    cluster_weight heavy_nodes
      (lp_after one_sweep_config heavy_nodes 10 [0, 1] coins_false 1).cluster_id 1
      = 4294967297 ∧
    1 < (visits one_sweep_config [0, 1]).length ∧
    visited_node one_sweep_config [0, 1] 1 = 1 ∧
    (lp_after one_sweep_config heavy_nodes 10 [0, 1] coins_false 1).cluster_sizes.getD
        ((lp_after one_sweep_config heavy_nodes 10 [0, 1] coins_false 1).cluster_id.getD
          (visited_node one_sweep_config [0, 1] 1) 0) 0
      < heavy_nodes.getNodeWeight (visited_node one_sweep_config [0, 1] 1) := by
  decide

/-- Claim C5, amended.  Weight conservation in `label_propagation`, for a
visiting order of node indices and a graph whose total node weight fits the word
`NodeWeight`: after the initialisation and after every single node visit (the
states `lp_after k`, the last of which is the state after the sweeps), and
after the reconciliation of isolated nodes, `cluster_sizes[c]` is the total
weight of the nodes labelled `c`; the subtraction of every visit does not
underflow; and the sum of `cluster_sizes` over the labels in use is the total
node weight. -/
theorem label_propagation_weight_conservation (cfg : PartitionConfig) (G : graph_access)
    (ub : Nat) (perm : List Nat) (coins : Nat → Bool)
    (_hq : cfg.quotient_nodes ≤ G.number_of_nodes)
    (hperm : ∀ node, node ∈ perm → node < G.number_of_nodes)
    (hw : total_weight G < NodeWeight_mod) :
    lp_sweeps cfg G ub perm coins = lp_after cfg G ub perm coins (visits cfg perm).length ∧
    (∀ k c, c < G.number_of_nodes →
      (lp_after cfg G ub perm coins k).cluster_sizes.getD c 0
        = cluster_weight G (lp_after cfg G ub perm coins k).cluster_id c) ∧
    (∀ k, k < (visits cfg perm).length →
      G.getNodeWeight (visited_node cfg perm k)
        ≤ (lp_after cfg G ub perm coins k).cluster_sizes.getD
            ((lp_after cfg G ub perm coins k).cluster_id.getD (visited_node cfg perm k) 0) 0) ∧
    (∀ c, c < G.number_of_nodes →
      (lp_reconciled cfg G ub perm coins).cluster_sizes.getD c 0
        = cluster_weight G (lp_reconciled cfg G ub perm coins).cluster_id c) ∧
    (∀ k, ∑ c in (lp_after cfg G ub perm coins k).cluster_id.toFinset,
        (lp_after cfg G ub perm coins k).cluster_sizes.getD c 0 = total_weight G) ∧
    ∑ c in (lp_reconciled cfg G ub perm coins).cluster_id.toFinset,
        (lp_reconciled cfg G ub perm coins).cluster_sizes.getD c 0 = total_weight G := by
  have mc := core_closed cfg G ub hw
  have inv := lp_after_inv cfg G ub perm coins _ _ mc (core_init cfg G ub) hperm
  have rinv := lp_reconciled_inv cfg G ub perm coins _ _ mc (core_init cfg G ub) hperm
  refine ⟨lp_sweeps_eq cfg G ub perm coins, fun k c hc => (inv k).core.exact c hc, ?_,
    rinv.exact, fun k => sum_referenced G ub _ _ (inv k).core, sum_referenced G ub _ _ rinv⟩
  intro k hk
  have hn : visited_node cfg perm k < G.number_of_nodes :=
    hperm _ (visits_getD_mem cfg perm k hk)
  rw [(inv k).core.exact _ ((inv k).core.id_lt _ hn)]
  exact le_cluster_weight_self G _ _ hn

/-- Witness of `label_propagation_weight_conservation` on the path with three
nodes. -/
theorem label_propagation_weight_conservation_witness :
    example_config.quotient_nodes ≤ example_path3.number_of_nodes ∧
    (∀ node, node ∈ [1, 0, 2] → node < example_path3.number_of_nodes) ∧
    total_weight example_path3 < NodeWeight_mod ∧
    ∑ c in (lp_reconciled example_config example_path3 3 [1, 0, 2]
          (fun _ => true)).cluster_id.toFinset,
        (lp_reconciled example_config example_path3 3 [1, 0, 2]
          (fun _ => true)).cluster_sizes.getD c 0 = total_weight example_path3 :=
  ⟨by decide, by decide, by decide,
    (label_propagation_weight_conservation example_config example_path3 3 [1, 0, 2]
      (fun _ => true) (by decide) (by decide) (by decide)).2.2.2.2.2⟩

/-- Counterexample to claim C6 as stated.  On two nodes of weights `2 ^ 32 - 1`
and 2 joined by an edge, with the bound 10 and the order 0, 1: the first visit
moves node 0 from its cluster 0 into cluster 1, although the size 2 of that
cluster plus the weight of the node is `2 ^ 32 + 1`, not below the bound; the
program adds the two `NodeWeight` words and the sum wraps to 1. -/
theorem heavy_nodes_move_over_cap :
    one_sweep_config.quotient_nodes ≤ heavy_nodes.number_of_nodes ∧
    (∀ node, node ∈ [0, 1] → node < heavy_nodes.number_of_nodes) ∧
    0 < (visits one_sweep_config [0, 1]).length ∧
    visited_node one_sweep_config [0, 1] 0 = 0 ∧
    (lp_after one_sweep_config heavy_nodes 10 [0, 1] coins_false 0).cluster_id.getD 0 0 = 0 ∧
    chosen_block one_sweep_config heavy_nodes 10 [0, 1] coins_false 0 = 1 ∧
    (lp_after one_sweep_config heavy_nodes 10 [0, 1] coins_false 0).cluster_sizes.getD 1 0
      + heavy_nodes.getNodeWeight 0 = 4294967297 ∧
    ¬ ((lp_after one_sweep_config heavy_nodes 10 [0, 1] coins_false 0).cluster_sizes.getD
        (chosen_block one_sweep_config heavy_nodes 10 [0, 1] coins_false 0) 0
      + heavy_nodes.getNodeWeight (visited_node one_sweep_config [0, 1] 0) < 10) := by
  decide

/-- Claim C6, amended.  Capacity invariant of the sweeps, for a visiting order
of node indices and a graph whose total node weight fits the word `NodeWeight`: in
every visit `k` the node is assigned to `max_block`, and either `max_block` is
its prior cluster, or the size of the destination cluster before the move
(which is the weight of that cluster, the node not being in it) plus the weight
of the node is strictly less than `block_upperbound`. -/
theorem sweep_capacity_invariant (cfg : PartitionConfig) (G : graph_access)
    (ub : Nat) (perm : List Nat) (coins : Nat → Bool)
    (_hq : cfg.quotient_nodes ≤ G.number_of_nodes)
    (hperm : ∀ node, node ∈ perm → node < G.number_of_nodes)
    (hw : total_weight G < NodeWeight_mod) :
    ∀ k, k < (visits cfg perm).length →
      (lp_after cfg G ub perm coins (k + 1)).cluster_id
        = (lp_after cfg G ub perm coins k).cluster_id.set (visited_node cfg perm k)
            (chosen_block cfg G ub perm coins k) ∧
      (chosen_block cfg G ub perm coins k
          = (lp_after cfg G ub perm coins k).cluster_id.getD (visited_node cfg perm k) 0 ∨
        ((lp_after cfg G ub perm coins k).cluster_sizes.getD
              (chosen_block cfg G ub perm coins k) 0
            + G.getNodeWeight (visited_node cfg perm k) < ub ∧
          (lp_after cfg G ub perm coins k).cluster_sizes.getD
              (chosen_block cfg G ub perm coins k) 0
            = cluster_weight G (lp_after cfg G ub perm coins k).cluster_id
                (chosen_block cfg G ub perm coins k))) := by
  intro k hk
  have mc := core_closed cfg G ub hw
  have inv := lp_after_inv cfg G ub perm coins _ _ mc (core_init cfg G ub) hperm k
  have hn : visited_node cfg perm k < G.number_of_nodes :=
    hperm _ (visits_getD_mem cfg perm k hk)
  obtain ⟨f1, f2, _, _⟩ := tally_fields cfg G (visited_node cfg perm k)
    (lp_after cfg G ub perm coins k)
  constructor
  · rw [lp_after_succ cfg G ub perm coins k hk]
    show (tally cfg G (visited_node cfg perm k) (lp_after cfg G ub perm coins k)).cluster_id.set
      (visited_node cfg perm k) (chosen_block cfg G ub perm coins k) = _
    rw [f1]
  · have hnb := tally_nb cfg G (visited_node cfg perm k) (fun b => b < G.number_of_nodes)
      (lp_after cfg G ub perm coins k) inv.nb_in
      (fun t ht => inv.core.id_lt t (by omega))
    have hsel := select_good G ub coins
      (tally cfg G (visited_node cfg perm k) (lp_after cfg G ub perm coins k))
      (visited_node cfg perm k) (fun b => b < G.number_of_nodes) hnb
    rw [f1, f2] at hsel
    by_cases hmy : chosen_block cfg G ub perm coins k
        = (lp_after cfg G ub perm coins k).cluster_id.getD (visited_node cfg perm k) 0
    · left; exact hmy
    · right
      rcases hsel with h | ⟨h1, h2⟩
      · exact absurd h hmy
      · have h1c : chosen_block cfg G ub perm coins k < G.number_of_nodes := h1
        have h2c : ((lp_after cfg G ub perm coins k).cluster_sizes.getD
            (chosen_block cfg G ub perm coins k) 0
            + G.getNodeWeight (visited_node cfg perm k)) % NodeWeight_mod < ub := h2
        have hex := inv.core.exact _ h1c
        have hadd := cluster_weight_add_le_total G (lp_after cfg G ub perm coins k).cluster_id
          (visited_node cfg perm k) (chosen_block cfg G ub perm coins k) hn (Ne.symm hmy)
        rw [hex, Nat.mod_eq_of_lt (by omega)] at h2c
        rw [hex]
        exact ⟨h2c, rfl⟩

/-- Witness of `sweep_capacity_invariant` on the path with three nodes. -/
theorem sweep_capacity_invariant_witness :
    example_config.quotient_nodes ≤ example_path3.number_of_nodes ∧
    (∀ node, node ∈ [1, 0, 2] → node < example_path3.number_of_nodes) ∧
    total_weight example_path3 < NodeWeight_mod ∧
    0 < (visits example_config [1, 0, 2]).length ∧
    (lp_after example_config example_path3 3 [1, 0, 2] (fun _ => true) (0 + 1)).cluster_id
      = (lp_after example_config example_path3 3 [1, 0, 2] (fun _ => true) 0).cluster_id.set
          (visited_node example_config [1, 0, 2] 0)
          (chosen_block example_config example_path3 3 [1, 0, 2] (fun _ => true) 0) :=
  ⟨by decide, by decide, by decide, by decide,
    (sweep_capacity_invariant example_config example_path3 3 [1, 0, 2] (fun _ => true)
      (by decide) (by decide) (by decide) 0 (by decide)).1⟩

/-- Counterexample to claim C2 as stated.  On two nodes of weights `2 ^ 32 - 1`
and 2 joined by an edge, with the bound 10, one sweep in the order 0, 1: the
capacity test adds the two `NodeWeight` words, the sum wraps to 1, and the
clustering returned puts both nodes into one cluster, whose weight `2 ^ 32 + 1`
is above the bound. -/
theorem heavy_nodes_exceed_cap :
    one_sweep_config.quotient_nodes ≤ heavy_nodes.number_of_nodes ∧
    (∀ node, node ∈ [0, 1] → node < heavy_nodes.number_of_nodes) ∧
    label_propagation one_sweep_config heavy_nodes 10 [0, 1] coins_false = ([0, 0], 1) ∧
    (label_propagation one_sweep_config heavy_nodes 10 [0, 1] coins_false).1.getD 0 0
      = (label_propagation one_sweep_config heavy_nodes 10 [0, 1] coins_false).1.getD 1 0 ∧
    cluster_weight heavy_nodes
      (label_propagation one_sweep_config heavy_nodes 10 [0, 1] coins_false).1
      ((label_propagation one_sweep_config heavy_nodes 10 [0, 1] coins_false).1.getD 0 0)
      = 4294967297 ∧
    ¬ (cluster_weight heavy_nodes
      (label_propagation one_sweep_config heavy_nodes 10 [0, 1] coins_false).1
      ((label_propagation one_sweep_config heavy_nodes 10 [0, 1] coins_false).1.getD 0 0)
      ≤ 10) := by
  decide

/-- Claim C2, amended.  For a visiting order of node indices, every bound,
every number of sweeps and every tie-break stream, on a graph whose total node
weight fits
the word `NodeWeight`, the clustering returned by `label_propagation` respects
the size cap: a cluster that contains two distinct nodes has total node weight
at most `block_upperbound`. -/
theorem label_propagation_size_cap (cfg : PartitionConfig) (G : graph_access)
    (ub : Nat) (perm : List Nat) (coins : Nat → Bool)
    (_hq : cfg.quotient_nodes ≤ G.number_of_nodes)
    (hperm : ∀ node, node ∈ perm → node < G.number_of_nodes)
    (hw : total_weight G < NodeWeight_mod) :
    ∀ a b, a < G.number_of_nodes → b < G.number_of_nodes → a ≠ b →
      (label_propagation cfg G ub perm coins).1.getD a 0
        = (label_propagation cfg G ub perm coins).1.getD b 0 →
      cluster_weight G (label_propagation cfg G ub perm coins).1
        ((label_propagation cfg G ub perm coins).1.getD a 0) ≤ ub := by
  intro a b ha hb hab heq
  have rinv := lp_reconciled_inv cfg G ub perm coins _ _ (core_closed cfg G ub hw)
    (core_init cfg G ub) hperm
  have hcap := rinv.cap a b ha hb hab
    ((label_propagation_same_iff cfg G ub perm coins a b ha hb).mp heq)
  have e : cluster_weight G (label_propagation cfg G ub perm coins).1
      ((label_propagation cfg G ub perm coins).1.getD a 0)
      = cluster_weight G (lp_reconciled cfg G ub perm coins).cluster_id
          ((lp_reconciled cfg G ub perm coins).cluster_id.getD a 0) := by
    unfold cluster_weight
    apply Finset.sum_congr rfl
    intro i hi
    have hiff := label_propagation_same_iff cfg G ub perm coins i a (Finset.mem_range.mp hi) ha
    by_cases h1 : (label_propagation cfg G ub perm coins).1.getD i 0
        = (label_propagation cfg G ub perm coins).1.getD a 0
    · rw [if_pos h1, if_pos (hiff.mp h1)]
    · rw [if_neg h1, if_neg (fun h2 => h1 (hiff.mpr h2))]
  rw [e]
  exact hcap

/-- Witness of `label_propagation_size_cap` on the path with three nodes. -/
theorem label_propagation_size_cap_witness :
    example_config.quotient_nodes ≤ example_path3.number_of_nodes ∧
    (∀ node, node ∈ [1, 0, 2] → node < example_path3.number_of_nodes) ∧
    total_weight example_path3 < NodeWeight_mod ∧
    ∀ a b, a < example_path3.number_of_nodes → b < example_path3.number_of_nodes → a ≠ b →
      (label_propagation example_config example_path3 3 [1, 0, 2] (fun _ => true)).1.getD a 0
        = (label_propagation example_config example_path3 3 [1, 0, 2]
            (fun _ => true)).1.getD b 0 →
      cluster_weight example_path3
        (label_propagation example_config example_path3 3 [1, 0, 2] (fun _ => true)).1
        ((label_propagation example_config example_path3 3 [1, 0, 2]
            (fun _ => true)).1.getD a 0) ≤ 3 :=
  ⟨by decide, by decide, by decide,
    label_propagation_size_cap example_config example_path3 3 [1, 0, 2] (fun _ => true)
      (by decide) (by decide) (by decide)⟩

/-- Claim C7.  Quotient nodes are never moved or joined: when the visiting
order holds only movable node indices (below `N - quotient_nodes`), then for
every tie-break stream and sweep count every quotient node is alone in its
cluster at the end of `label_propagation`: before remapping its label is its
own index and no other node carries that label, and in the final labelling no
other node shares its label. -/
theorem quotient_nodes_alone (cfg : PartitionConfig) (G : graph_access)
    (ub : Nat) (perm : List Nat) (coins : Nat → Bool)
    (_hq : cfg.quotient_nodes ≤ G.number_of_nodes)
    (hperm : ∀ node, node ∈ perm → node < G.number_of_nodes - cfg.quotient_nodes) :
    ∀ i, G.number_of_nodes - cfg.quotient_nodes ≤ i → i < G.number_of_nodes →
      (lp_reconciled cfg G ub perm coins).cluster_id.getD i 0 = i ∧
      (∀ j, j < G.number_of_nodes → j ≠ i →
        (lp_reconciled cfg G ub perm coins).cluster_id.getD j 0 ≠ i) ∧
      (∀ j, j < G.number_of_nodes → j ≠ i →
        (label_propagation cfg G ub perm coins).1.getD j 0
          ≠ (label_propagation cfg G ub perm coins).1.getD i 0) := by
  intro i h1 h2
  have rinv : QuotInv cfg G (lp_reconciled cfg G ub perm coins).cluster_id :=
    lp_reconciled_inv cfg G ub perm coins _ (fun cluster_id _ => QuotInv cfg G cluster_id)
      (quot_closed cfg G ub) (quot_init cfg G) hperm
  have hother : ∀ j, j < G.number_of_nodes → j ≠ i →
      (lp_reconciled cfg G ub perm coins).cluster_id.getD j 0 ≠ i := by
    intro j hj hji
    by_cases hjq : j < G.number_of_nodes - cfg.quotient_nodes
    · have := rinv.movable j hjq
      omega
    · rw [rinv.fixed j (by omega) hj]
      exact hji
  refine ⟨rinv.fixed i h1 h2, hother, ?_⟩
  intro j hj hji heq
  have := (label_propagation_same_iff cfg G ub perm coins j i hj h2).mp heq
  rw [rinv.fixed i h1 h2] at this
  exact hother j hj hji this

/-- Witness of `quotient_nodes_alone` on the path with three nodes, the last
of which is a quotient node. -/
theorem quotient_nodes_alone_witness :
    example_config_quotient.quotient_nodes ≤ example_path3.number_of_nodes ∧
    (∀ node, node ∈ [1, 0] →
      node < example_path3.number_of_nodes - example_config_quotient.quotient_nodes) ∧
    example_path3.number_of_nodes - example_config_quotient.quotient_nodes ≤ 2 ∧
    2 < example_path3.number_of_nodes ∧
    (lp_reconciled example_config_quotient example_path3 3 [1, 0]
      (fun _ => true)).cluster_id.getD 2 0 = 2 :=
  ⟨by decide, by decide, by decide, by decide,
    (quotient_nodes_alone example_config_quotient example_path3 3 [1, 0] (fun _ => true)
      (by decide) (by decide) 2 (by decide) (by decide)).1⟩

/-! ## The contract of the orchestrator -/

/-- Claim C8.  Ensemble clustering is the intersection of all runs: for
`number_of_clusterings = R >= 1`, the clustering left in `cur_cluster` by run
`i` is `run_clustering i`, the result of its `label_propagation` call, and two
nodes share their final `coarse_mapping` entry exactly when they share their
label in the clustering of every run. -/
theorem ensemble_clusterings_intersection (cfg : PartitionConfig) (G : graph_access)
    (coarse_mapping : List Nat) (no0 : Nat) (orders : Nat → List Nat)
    (coins : Nat → Nat → Bool) (draws : Nat → Nat)
    (_hq : cfg.quotient_nodes ≤ G.number_of_nodes)
    (_hperm : ∀ i node, node ∈ orders i → node < G.number_of_nodes - cfg.quotient_nodes)
    (hruns : 1 ≤ cfg.number_of_clusterings)
    (hcm : coarse_mapping.length = G.number_of_nodes) :
    (∀ i, i < cfg.number_of_clusterings →
      (runs_after cfg G orders coins draws no0 (i + 1)).cur_cluster
        = run_clustering cfg G orders coins draws i) ∧
    ∀ a b, a < G.number_of_nodes → b < G.number_of_nodes →
      ((ensemble_clusterings cfg G coarse_mapping no0 orders coins draws).1.getD a 0
          = (ensemble_clusterings cfg G coarse_mapping no0 orders coins draws).1.getD b 0
        ↔ ∀ i, i < cfg.number_of_clusterings →
            (run_clustering cfg G orders coins draws i).getD a 0
              = (run_clustering cfg G orders coins draws i).getD b 0) := by
  constructor
  · intro i _
    exact ((runs_after_inv cfg G orders coins draws no0 (i + 1)).2.2 (by omega)).1
  · intro a b ha hb
    obtain ⟨_, hlen, hrest⟩ := runs_after_inv cfg G orders coins draws no0
      cfg.number_of_clusterings
    have e : (ensemble_clusterings cfg G coarse_mapping no0 orders coins draws).1
        = (runs_after cfg G orders coins draws no0 cfg.number_of_clusterings).ensemble_cluster :=
      create_coarsemapping_eq G _ coarse_mapping hlen hcm
    rw [e]
    exact (hrest hruns).2.2 a b ha hb

/-- Witness of `ensemble_clusterings_intersection` on the path with three
nodes and two runs. -/
theorem ensemble_clusterings_intersection_witness :
    example_config.quotient_nodes ≤ example_path3.number_of_nodes ∧
    (∀ i node, node ∈ example_orders i →
      node < example_path3.number_of_nodes - example_config.quotient_nodes) ∧
    1 ≤ example_config.number_of_clusterings ∧
    ([0, 0, 0] : List Nat).length = example_path3.number_of_nodes ∧
    ∀ a b, a < example_path3.number_of_nodes → b < example_path3.number_of_nodes →
      ((ensemble_clusterings example_config example_path3 [0, 0, 0] 0 example_orders
            example_coins example_draws).1.getD a 0
          = (ensemble_clusterings example_config example_path3 [0, 0, 0] 0 example_orders
            example_coins example_draws).1.getD b 0
        ↔ ∀ i, i < example_config.number_of_clusterings →
            (run_clustering example_config example_path3 example_orders
                example_coins example_draws i).getD a 0
              = (run_clustering example_config example_path3 example_orders
                example_coins example_draws i).getD b 0) :=
  ⟨by decide, fun _ => by
      show ∀ node, node ∈ ([1, 0, 2] : List Nat) → node < 3 - 0
      decide, by decide, by decide,
    (ensemble_clusterings_intersection example_config example_path3 [0, 0, 0] 0
      example_orders example_coins example_draws
      (by decide) (fun _ => by
      show ∀ node, node ∈ ([1, 0, 2] : List Nat) → node < 3 - 0
      decide) (by decide) (by decide)).2⟩

/-- Claim C1.  For every graph with `N` nodes, every configuration (with at
least one clustering in ensemble mode), every visiting order of the movable
nodes and every tie-break stream, after `match` the vector `coarse_mapping` has
length `N`, the values stored in it are exactly `0, ..., no_of_coarse_vertices - 1`,
and the reported count is the number of distinct coarse IDs; this holds on the
single-run path and on the ensemble path, between which the configuration
selects. -/
theorem match_dense_ids (cfg : PartitionConfig) (G : graph_access) (cm : List Nat)
    (orders : Nat → List Nat) (coins : Nat → Nat → Bool) (draws : Nat → Nat)
    (_hq : cfg.quotient_nodes ≤ G.number_of_nodes)
    (_hperm : ∀ i node, node ∈ orders i → node < G.number_of_nodes - cfg.quotient_nodes)
    (hruns : cfg.ensemble_clusterings = true → 1 ≤ cfg.number_of_clusterings) :
    (match_ cfg G cm orders coins draws).1.length = G.number_of_nodes ∧
    DenseLabels (match_ cfg G cm orders coins draws).1 (match_ cfg G cm orders coins draws).2 ∧
    (match_ cfg G cm orders coins draws).1.toFinset.card = (match_ cfg G cm orders coins draws).2 := by
  have key : (match_ cfg G cm orders coins draws).1.length = G.number_of_nodes ∧
      DenseLabels (match_ cfg G cm orders coins draws).1 (match_ cfg G cm orders coins draws).2 := by
    unfold match_
    simp only
    cases hens : cfg.ensemble_clusterings with
    | true =>
      rw [if_pos rfl]
      obtain ⟨_, hlen, hrest⟩ := runs_after_inv cfg G orders coins draws 0
        cfg.number_of_clusterings
      have e : (ensemble_clusterings cfg G (resize cm G.number_of_nodes) 0 orders coins
          draws).1
          = (runs_after cfg G orders coins draws 0 cfg.number_of_clusterings).ensemble_cluster :=
        create_coarsemapping_eq G _ _ hlen (resize_length cm _)
      rw [e]
      exact ⟨hlen, (hrest (hruns hens)).2.1⟩
    | false =>
      rw [if_neg (by simp)]
      obtain ⟨hl, hd⟩ := label_propagation_dense cfg G (block_upperbound_of cfg) (orders 0)
        (coins 0)
      have e : (match_internal cfg G (resize cm G.number_of_nodes) (orders 0)
          (coins 0)).1
          = (label_propagation cfg G (block_upperbound_of cfg) (orders 0) (coins 0)).1 :=
        create_coarsemapping_eq G _ _ hl (resize_length cm _)
      rw [e]
      exact ⟨hl, hd⟩
  exact ⟨key.1, key.2, dense_card _ _ key.2⟩

/-- Witness of `match_dense_ids` on the path with three nodes, in ensemble
mode with two runs. -/
theorem match_dense_ids_witness :
    example_config.quotient_nodes ≤ example_path3.number_of_nodes ∧
    (∀ i node, node ∈ example_orders i →
      node < example_path3.number_of_nodes - example_config.quotient_nodes) ∧
    (example_config.ensemble_clusterings = true → 1 ≤ example_config.number_of_clusterings) ∧
    (match_ example_config example_path3 [] example_orders example_coins
      example_draws).1.length = example_path3.number_of_nodes ∧
    DenseLabels
      (match_ example_config example_path3 [] example_orders example_coins
        example_draws).1
      (match_ example_config example_path3 [] example_orders example_coins
        example_draws).2 ∧
    (match_ example_config example_path3 [] example_orders example_coins
      example_draws).1.toFinset.card
      = (match_ example_config example_path3 [] example_orders example_coins
        example_draws).2 :=
  ⟨by decide, fun _ => by
      show ∀ node, node ∈ ([1, 0, 2] : List Nat) → node < 3 - 0
      decide, by decide,
    match_dense_ids example_config example_path3 [] example_orders example_coins
      example_draws (by decide) (fun _ => by
      show ∀ node, node ∈ ([1, 0, 2] : List Nat) → node < 3 - 0
      decide) (by decide)⟩

/-- Claim C20.  In-place combination is safe: for `lhs` and `rhs` of equal
length, `ensemble_two_clusterings` called with `rhs` and `output` being the same
vector gives exactly the label array and the count it gives with a separate
output buffer; during the loop, the entries of the shared vector that have not
been visited yet still hold the labels of `rhs`, so that every `rhs[node]` is
read before it is overwritten. -/
theorem ensemble_two_clusterings_in_place (G : graph_access) (lhs rhs output : List Nat)
    (hrhs : rhs.length = lhs.length) (hout : output.length = lhs.length) :
    ensemble_two_clusterings_shared G lhs rhs = ensemble_two_clusterings G lhs rhs output ∧
    ensemble_loop_shared G lhs rhs = ensemble_shared_after G lhs rhs lhs.length ∧
    ∀ i, i ≤ lhs.length → ∀ j, i ≤ j →
      (ensemble_shared_after G lhs rhs i).output.getD j 0 = rhs.getD j 0 :=
  ⟨ensemble_shared_eq G lhs rhs output hrhs hout, rfl,
    fun i hi => ensemble_shared_after_unread G lhs rhs hrhs i hi⟩

/-- Witness of `ensemble_two_clusterings_in_place` on two clusterings of three
nodes. -/
theorem ensemble_two_clusterings_in_place_witness :
    ([0, 1, 0] : List Nat).length = ([5, 5, 5] : List Nat).length ∧
    ([9, 9, 9] : List Nat).length = ([5, 5, 5] : List Nat).length ∧
    ensemble_two_clusterings_shared example_graph3 [5, 5, 5] [0, 1, 0]
      = ensemble_two_clusterings example_graph3 [5, 5, 5] [0, 1, 0] [9, 9, 9] :=
  ⟨by decide, by decide,
    (ensemble_two_clusterings_in_place example_graph3 [5, 5, 5] [0, 1, 0] [9, 9, 9]
      (by decide) (by decide)).1⟩

/-- Claim C14.  For positive `upper_bound_partition` and
`cluster_coarsening_factor`, the division read as exact, the bound computed by
`match_internal` and by the four-argument `label_propagation` is the ceiling of
the quotient: the least `b` with `b * f >= U`; it is `U` when the factor is 1;
and both functions run the engine with this same bound. -/
theorem block_upperbound_ceiling (cfg : PartitionConfig)
    (_hU : 0 < cfg.upper_bound_partition) (hf : 0 < cfg.cluster_coarsening_factor) :
    cfg.upper_bound_partition ≤ block_upperbound_of cfg * cfg.cluster_coarsening_factor ∧
    (∀ b, cfg.upper_bound_partition ≤ b * cfg.cluster_coarsening_factor →
      block_upperbound_of cfg ≤ b) ∧
    (cfg.cluster_coarsening_factor = 1 → block_upperbound_of cfg = cfg.upper_bound_partition) ∧
    (∀ (G : graph_access) (cm perm : List Nat) (coins : Nat → Bool),
      match_internal cfg G cm perm coins
        = (create_coarsemapping G
            (label_propagation cfg G (block_upperbound_of cfg) perm coins).1 cm,
           (label_propagation cfg G (block_upperbound_of cfg) perm coins).2)) ∧
    (∀ (G : graph_access) (perm : List Nat) (coins : Nat → Bool),
      label_propagation_config cfg G perm coins
        = label_propagation cfg G (block_upperbound_of cfg) perm coins) := by
  refine ⟨block_upperbound_of_ge _ _ hf, fun b hb => block_upperbound_of_least _ _ b hf hb,
    ?_, fun _ _ _ _ => rfl, fun _ _ _ => rfl⟩
  intro h1
  unfold block_upperbound_of
  rw [h1]
  simp

/-- Witness of `block_upperbound_ceiling` on the bound 3 and the factor 1. -/
theorem block_upperbound_ceiling_witness :
    0 < example_config.upper_bound_partition ∧
    0 < example_config.cluster_coarsening_factor ∧
    example_config.upper_bound_partition
      ≤ block_upperbound_of example_config * example_config.cluster_coarsening_factor :=
  ⟨by decide, by decide, (block_upperbound_ceiling example_config (by decide) (by decide)).1⟩

/-! ## Scenarios -/

/-- Claim C15, the code at the failing input.  On the graph with three nodes
and no edges, with the visiting order 0, 1, 2, the first visited node 0 has no
out-edge at all, and yet the list of isolated nodes after the sweeps holds only
the nodes 1 and 2: at the first visit `neighboring_blocks` still holds the
entries it was constructed with. -/
theorem first_visited_node_not_recorded :
    example_graph3.out_edges 0 = [] ∧
    visited_node example_config [0, 1, 2] 0 = 0 ∧
    (tally example_config example_graph3 0
      (lp_after example_config example_graph3 3 [0, 1, 2] coins_false 0)).neighboring_blocks
      = [0, 0, 0] ∧
    (lp_sweeps example_config example_graph3 3 [0, 1, 2] coins_false).isolated_nodes
      = [1, 2] := by
  decide

/-- Claim C16, the code at the failing input.  On the graph with three nodes
and no edges, with the visiting order 2, 1, 0 and a tie-break stream that always
answers `true`, the first visited node 2 has no out-edge, is in cluster 2, and
is assigned to cluster 0. -/
theorem first_visited_node_joins_block_zero :
    example_graph3.out_edges 2 = [] ∧
    visited_node example_config [2, 1, 0] 0 = 2 ∧
    (lp_after example_config example_graph3 3 [2, 1, 0] coins_true 0).cluster_id.getD 2 0 = 2 ∧
    chosen_block example_config example_graph3 3 [2, 1, 0] coins_true 0 = 0 ∧
    (lp_after example_config example_graph3 3 [2, 1, 0] coins_true 1).cluster_id = [0, 1, 0] := by
  decide

set_option maxRecDepth 100000 in
/-- Claim C11, counterexample.  On the path with six unit nodes, with
`block_upperbound = 3`, five sweeps, the visiting order 0, ..., 5 and a
tie-break stream that always answers `true`, `label_propagation` returns three
clusters of two nodes each, not two clusters of three. -/
theorem path_scenario_three_clusters :
    label_propagation path_config path6 3 [0, 1, 2, 3, 4, 5] coins_true
      = ([0, 0, 1, 1, 2, 2], 3) := by
  decide

/-- Claim C12, counterexample.  On the triangle with unit weights, whose total
node weight 3 is below `block_upperbound = 4`, with one sweep, the visiting
order 0, 1, 2 and the tie-break stream `coins_fifth`, `label_propagation` ends
with two clusters. -/
theorem triangle_two_clusters :
    total_weight triangle ≤ 4 ∧
    1 ≤ one_sweep_config.label_iterations ∧
    label_propagation one_sweep_config triangle 4 [0, 1, 2] coins_fifth
      = ([0, 1, 0], 2) := by
  decide

/-- Claim C13, counterexample.  On the graph with four nodes and no edges, the
ensemble of two runs with the visiting order 0, 1, 2, 3, the bound 100, the
factor 1 and then 10, gives three clusters: in both runs the reconciliation
merges node 1 into the cluster of node 2. -/
theorem edgeless_ensemble_three_clusters :
    ensemble_clusterings example_config_ensemble example_graph4 [0, 0, 0, 0] 0
      example_orders4 example_coins_false example_draws = ([0, 1, 1, 2], 3) := by
  decide

/-- Claim C13, amended.  The ensemble gives one singleton cluster per node (for
a graph with four nodes: `no_of_coarse_vertices = 4` and pairwise distinct
entries) whenever in some run `i` no two nodes fit together, the weight of
every pair of nodes exceeding the bound of that run; the visiting orders hold
node indices and the total node weight fits the word `NodeWeight`. -/
theorem ensemble_singletons (cfg : PartitionConfig) (G : graph_access)
    (coarse_mapping : List Nat) (no0 : Nat) (orders : Nat → List Nat)
    (coins : Nat → Nat → Bool) (draws : Nat → Nat)
    (_hq : cfg.quotient_nodes ≤ G.number_of_nodes)
    (hperm : ∀ i node, node ∈ orders i → node < G.number_of_nodes)
    (hw : total_weight G < NodeWeight_mod)
    (hcm : coarse_mapping.length = G.number_of_nodes)
    (i : Nat) (hi : i < cfg.number_of_clusterings)
    (hnofit : ∀ a b, a < G.number_of_nodes → b < G.number_of_nodes → a ≠ b →
      block_upperbound_of { cfg with cluster_coarsening_factor := run_cf cfg draws i }
        < G.getNodeWeight a + G.getNodeWeight b) :
    (ensemble_clusterings cfg G coarse_mapping no0 orders coins draws).2 = G.number_of_nodes ∧
    ∀ a b, a < G.number_of_nodes → b < G.number_of_nodes → a ≠ b →
      (ensemble_clusterings cfg G coarse_mapping no0 orders coins draws).1.getD a 0
        ≠ (ensemble_clusterings cfg G coarse_mapping no0 orders coins draws).1.getD b 0 := by
  obtain ⟨_, hlen, hrest⟩ := runs_after_inv cfg G orders coins draws no0
    cfg.number_of_clusterings
  obtain ⟨_, hdense, hrel⟩ := hrest (by omega)
  have e : (ensemble_clusterings cfg G coarse_mapping no0 orders coins draws).1
      = (runs_after cfg G orders coins draws no0 cfg.number_of_clusterings).ensemble_cluster :=
    create_coarsemapping_eq G _ coarse_mapping hlen hcm
  have hne : ∀ a b, a < G.number_of_nodes → b < G.number_of_nodes → a ≠ b →
      (runs_after cfg G orders coins draws no0 cfg.number_of_clusterings).ensemble_cluster.getD
          a 0
        ≠ (runs_after cfg G orders coins draws no0
            cfg.number_of_clusterings).ensemble_cluster.getD b 0 := by
    intro a b ha hb hab heq
    have h1 := (hrel a b ha hb).mp heq i hi
    exact lp_singletons _ G _ (orders i) (coins i) (hperm i) hw hnofit a b ha hb hab h1
  refine ⟨?_, ?_⟩
  · show (runs_after cfg G orders coins draws no0
      cfg.number_of_clusterings).no_of_coarse_vertices = _
    have hnodup := nodup_of_getD_ne _ (by
      intro a b ha hb hab
      rw [hlen] at ha hb
      exact hne a b ha hb hab)
    rw [← dense_card _ _ hdense, List.toFinset_card_of_nodup hnodup, hlen]
  · rw [e]
    exact hne

/-- Witness of `ensemble_singletons` on the graph with four nodes and no
edges, with two runs and the bound 1. -/
theorem ensemble_singletons_witness :
    example_config_tight.quotient_nodes ≤ example_graph4.number_of_nodes ∧
    (∀ i node, node ∈ example_orders4 i → node < example_graph4.number_of_nodes) ∧
    total_weight example_graph4 < NodeWeight_mod ∧
    ([0, 0, 0, 0] : List Nat).length = example_graph4.number_of_nodes ∧
    0 < example_config_tight.number_of_clusterings ∧
    (ensemble_clusterings example_config_tight example_graph4 [0, 0, 0, 0] 0 example_orders4
      example_coins_false example_draws).2 = example_graph4.number_of_nodes :=
  ⟨by decide, fun _ => by
      show ∀ node, node ∈ ([0, 1, 2, 3] : List Nat) → node < 4
      decide,
    by decide, by decide, by decide,
    (ensemble_singletons example_config_tight example_graph4 [0, 0, 0, 0] 0 example_orders4
      example_coins_false example_draws (by decide)
      (fun _ => by
        show ∀ node, node ∈ ([0, 1, 2, 3] : List Nat) → node < 4
        decide)
      (by decide) (by decide) 0 (by decide)
      (fun _ _ _ _ _ => by
        show (1 : Nat) < 1 + 1
        decide)).1⟩

/-! ## Votes and scratch vectors -/

/-- Counterexample to claim C19 as stated.  On the graph `heavy_edges`, whose
edge weights are all positive, with the visiting order 2, 0, 1: after the
first visit the table is zero and the list is empty, but in the second visit
(node 0) the three edges into cluster 1 weigh `2 ^ 32` together, the stored sum
wraps, and the value read for cluster 1 in the selection pass is 0. -/
theorem wrapped_vote_read :
    (∀ node, node < 3 → ∀ e, e ∈ heavy_edges.out_edges node → 0 < e.weight) ∧
    (lp_after one_sweep_config heavy_edges 10 [2, 0, 1] coins_false 1).hash_map = [0, 0, 0] ∧
    (lp_after one_sweep_config heavy_edges 10 [2, 0, 1] coins_false 1).neighboring_blocks = [] ∧
    visited_node one_sweep_config [2, 0, 1] 1 = 0 ∧
    (tally one_sweep_config heavy_edges 0
      (lp_after one_sweep_config heavy_edges 10 [2, 0, 1] coins_false 1)).neighboring_blocks
      = [1, 0] ∧
    (select_after heavy_edges 10 coins_false
      (tally one_sweep_config heavy_edges 0
        (lp_after one_sweep_config heavy_edges 10 [2, 0, 1] coins_false 1)) 0 0).hash_map.getD 1 0
      = 0 ∧
    vote one_sweep_config heavy_edges
      (lp_after one_sweep_config heavy_edges 10 [2, 0, 1] coins_false 1).cluster_id 0 1
      = 4294967296 := by
  decide

/-- Claim C19, amended.  Scratch reset invariant, for a visiting order of node
indices: the vote table `hash_map` is zero at every index after every number
of visits, and `neighboring_blocks` is empty after every visit; hence at the
start of the selection pass of each visit the table holds, for every cluster
`c`, the sum of the weights of the eligible out-edges of the node whose target
is in `c`, reduced modulo `EdgeWeight_mod`; every cluster of an eligible
out-edge is listed, and the value read for a listed block at its first
occurrence is that reduced sum.  When the eligible out-edges of the node weigh
less than `EdgeWeight_mod` together, the table holds the sums themselves; and
for the node that follows a visit, when moreover these weights are positive, no
block is listed twice and every value read in the selection pass is the sum of
the weights of the eligible out-edges into the block. -/
theorem scratch_reset_invariant (cfg : PartitionConfig) (G : graph_access)
    (ub : Nat) (perm : List Nat) (coins : Nat → Bool)
    (_hq : cfg.quotient_nodes ≤ G.number_of_nodes)
    (hperm : ∀ node, node ∈ perm → node < G.number_of_nodes) :
    (∀ k, (lp_after cfg G ub perm coins k).hash_map = List.replicate G.number_of_nodes 0) ∧
    (∀ k, k < (visits cfg perm).length →
      (lp_after cfg G ub perm coins (k + 1)).neighboring_blocks = []) ∧
    (∀ k, k < (visits cfg perm).length → ∀ c,
      (tally cfg G (visited_node cfg perm k) (lp_after cfg G ub perm coins k)).hash_map.getD c 0
        = vote cfg G (lp_after cfg G ub perm coins k).cluster_id (visited_node cfg perm k) c
          % EdgeWeight_mod) ∧
    (∀ k, k < (visits cfg perm).length → ∀ e, e ∈ G.out_edges (visited_node cfg perm k) →
      edge_skipped cfg G (visited_node cfg perm k) e.target = false →
      (lp_after cfg G ub perm coins k).cluster_id.getD e.target 0
        ∈ (tally cfg G (visited_node cfg perm k)
            (lp_after cfg G ub perm coins k)).neighboring_blocks) ∧
    (∀ k, k < (visits cfg perm).length → ∀ p,
      p < (tally cfg G (visited_node cfg perm k)
          (lp_after cfg G ub perm coins k)).neighboring_blocks.length →
      (tally cfg G (visited_node cfg perm k)
          (lp_after cfg G ub perm coins k)).neighboring_blocks.getD p 0
        ∉ (tally cfg G (visited_node cfg perm k)
            (lp_after cfg G ub perm coins k)).neighboring_blocks.take p →
      (select_after G ub coins
          (tally cfg G (visited_node cfg perm k) (lp_after cfg G ub perm coins k))
          (visited_node cfg perm k) p).hash_map.getD
          ((tally cfg G (visited_node cfg perm k)
            (lp_after cfg G ub perm coins k)).neighboring_blocks.getD p 0) 0
        = vote cfg G (lp_after cfg G ub perm coins k).cluster_id (visited_node cfg perm k)
            ((tally cfg G (visited_node cfg perm k)
              (lp_after cfg G ub perm coins k)).neighboring_blocks.getD p 0)
          % EdgeWeight_mod) ∧
    (∀ k, k < (visits cfg perm).length →
      eligible_weight cfg G (visited_node cfg perm k) < EdgeWeight_mod → ∀ c,
      (tally cfg G (visited_node cfg perm k) (lp_after cfg G ub perm coins k)).hash_map.getD c 0
        = vote cfg G (lp_after cfg G ub perm coins k).cluster_id (visited_node cfg perm k) c) ∧
    (∀ k, k + 1 < (visits cfg perm).length →
      (∀ e, e ∈ G.out_edges (visited_node cfg perm (k + 1)) →
        edge_skipped cfg G (visited_node cfg perm (k + 1)) e.target = false → 0 < e.weight) →
      eligible_weight cfg G (visited_node cfg perm (k + 1)) < EdgeWeight_mod →
      (tally cfg G (visited_node cfg perm (k + 1))
          (lp_after cfg G ub perm coins (k + 1))).neighboring_blocks.Nodup ∧
      ∀ p, p < (tally cfg G (visited_node cfg perm (k + 1))
          (lp_after cfg G ub perm coins (k + 1))).neighboring_blocks.length →
        (select_after G ub coins
            (tally cfg G (visited_node cfg perm (k + 1)) (lp_after cfg G ub perm coins (k + 1)))
            (visited_node cfg perm (k + 1)) p).hash_map.getD
            ((tally cfg G (visited_node cfg perm (k + 1))
              (lp_after cfg G ub perm coins (k + 1))).neighboring_blocks.getD p 0) 0
          = vote cfg G (lp_after cfg G ub perm coins (k + 1)).cluster_id
              (visited_node cfg perm (k + 1))
              ((tally cfg G (visited_node cfg perm (k + 1))
                (lp_after cfg G ub perm coins (k + 1))).neighboring_blocks.getD p 0)) := by
  have hvotes := fun k => tally_votes cfg G (visited_node cfg perm k)
    (lp_after cfg G ub perm coins k) (lp_after_hash cfg G ub perm coins k)
    (lp_after_bound cfg G ub perm coins hperm k).2
  have hempty : ∀ k, k < (visits cfg perm).length →
      (lp_after cfg G ub perm coins (k + 1)).neighboring_blocks = [] := by
    intro k hk
    rw [lp_after_succ cfg G ub perm coins k hk]
    rfl
  refine ⟨lp_after_hash cfg G ub perm coins, hempty, fun k _ => (hvotes k).1,
    fun k _ => (hvotes k).2.2, ?_, ?_, ?_⟩
  · intro k _ p _ hp
    unfold select_after
    rw [(select_fold_hash G ub coins _ _ _ _ _ _).2, if_neg hp]
    exact (hvotes k).1 _
  · intro k _ hsum c
    rw [(hvotes k).1 c, vote_mod_eq cfg G _ _ c hsum]
  · intro k hk hw hsum
    have hnd := tally_nodup cfg G (visited_node cfg perm (k + 1))
      (lp_after cfg G ub perm coins (k + 1)) (lp_after_hash cfg G ub perm coins (k + 1))
      (lp_after_bound cfg G ub perm coins hperm (k + 1)).2 (hempty k (by omega)) hw hsum
    refine ⟨hnd, ?_⟩
    intro p hp
    unfold select_after
    rw [(select_fold_hash G ub coins _ _ _ _ _ _).2,
      if_neg (nodup_getD_not_mem_take _ hnd p hp), (hvotes (k + 1)).1 _,
      vote_mod_eq cfg G _ _ _ hsum]

/-- Witness of `scratch_reset_invariant` on the path with three nodes: the
value read at the first position of the selection pass of the second visit is
the vote weight of the block listed there. -/
theorem scratch_reset_invariant_witness :
    example_config.quotient_nodes ≤ example_path3.number_of_nodes ∧
    (∀ node, node ∈ [1, 0, 2] → node < example_path3.number_of_nodes) ∧
    (∀ k, (lp_after example_config example_path3 3 [1, 0, 2] coins_true k).hash_map
      = List.replicate example_path3.number_of_nodes 0) ∧
    (tally example_config example_path3 (visited_node example_config [1, 0, 2] (0 + 1))
      (lp_after example_config example_path3 3 [1, 0, 2] coins_true
        (0 + 1))).neighboring_blocks.Nodup :=
  ⟨by decide, by decide,
    (scratch_reset_invariant example_config example_path3 3 [1, 0, 2] coins_true
      (by decide) (by decide)).1,
    ((scratch_reset_invariant example_config example_path3 3 [1, 0, 2] coins_true
      (by decide) (by decide)).2.2.2.2.2.2 0 (by decide) (by decide) (by decide)).1⟩

/-- Counterexample to claim C17 as stated.  On the graph `heavy_edges`, whose
edge weights are all positive, with the bound 10 and the visiting order
0, 1, 2: in the first visit the three edges from node 0 into cluster 1 weigh
`2 ^ 32` together and the stored sum wraps to 0, so the node is assigned to
cluster 2, whose vote weight is 1, although cluster 1 holds an eligible
neighbour, has room for the node and has the vote weight `2 ^ 32`. -/
theorem wrapped_vote_not_maximal :
    (∀ node, node < 3 → ∀ e, e ∈ heavy_edges.out_edges node → 0 < e.weight) ∧
    visited_node one_sweep_config [0, 1, 2] 0 = 0 ∧
    chosen_block one_sweep_config heavy_edges 10 [0, 1, 2] coins_false 0 = 2 ∧
    vote one_sweep_config heavy_edges
      (lp_after one_sweep_config heavy_edges 10 [0, 1, 2] coins_false 0).cluster_id 0 2 = 1 ∧
    vote one_sweep_config heavy_edges
      (lp_after one_sweep_config heavy_edges 10 [0, 1, 2] coins_false 0).cluster_id 0 1
      = 4294967296 ∧
    (∃ e, e ∈ heavy_edges.out_edges 0 ∧
      edge_skipped one_sweep_config heavy_edges 0 e.target = false ∧
      (lp_after one_sweep_config heavy_edges 10 [0, 1, 2] coins_false 0).cluster_id.getD
        e.target 0 = 1) ∧
    (lp_after one_sweep_config heavy_edges 10 [0, 1, 2] coins_false 0).cluster_sizes.getD 1 0
      + heavy_edges.getNodeWeight 0 < 10 := by
  decide

/-- Claim C17, amended.  Maximum-vote selection, for a visiting order of node
indices and every tie-break stream.  In every visit the stored vote of the
chosen cluster (its vote weight reduced modulo `EdgeWeight_mod`) is at least
the stored vote of the current cluster of the node and of every cluster of an
eligible out-edge whose size plus the weight of the node is strictly below
`block_upperbound`.  In every visit of a node whose eligible out-edges weigh
less than `EdgeWeight_mod` together, the same holds for the vote weights
themselves, whatever the votes of the clusters that lack capacity. -/
theorem maximum_vote_selection (cfg : PartitionConfig) (G : graph_access)
    (ub : Nat) (perm : List Nat) (coins : Nat → Bool)
    (_hq : cfg.quotient_nodes ≤ G.number_of_nodes)
    (hperm : ∀ node, node ∈ perm → node < G.number_of_nodes) :
    ∀ k, k < (visits cfg perm).length →
      (vote cfg G (lp_after cfg G ub perm coins k).cluster_id (visited_node cfg perm k)
          ((lp_after cfg G ub perm coins k).cluster_id.getD (visited_node cfg perm k) 0)
          % EdgeWeight_mod
        ≤ vote cfg G (lp_after cfg G ub perm coins k).cluster_id (visited_node cfg perm k)
            (chosen_block cfg G ub perm coins k) % EdgeWeight_mod ∧
      ∀ e, e ∈ G.out_edges (visited_node cfg perm k) →
        edge_skipped cfg G (visited_node cfg perm k) e.target = false →
        (lp_after cfg G ub perm coins k).cluster_sizes.getD
            ((lp_after cfg G ub perm coins k).cluster_id.getD e.target 0) 0
          + G.getNodeWeight (visited_node cfg perm k) < ub →
        vote cfg G (lp_after cfg G ub perm coins k).cluster_id (visited_node cfg perm k)
            ((lp_after cfg G ub perm coins k).cluster_id.getD e.target 0) % EdgeWeight_mod
          ≤ vote cfg G (lp_after cfg G ub perm coins k).cluster_id (visited_node cfg perm k)
              (chosen_block cfg G ub perm coins k) % EdgeWeight_mod) ∧
      (eligible_weight cfg G (visited_node cfg perm k) < EdgeWeight_mod →
        vote cfg G (lp_after cfg G ub perm coins k).cluster_id (visited_node cfg perm k)
            ((lp_after cfg G ub perm coins k).cluster_id.getD (visited_node cfg perm k) 0)
          ≤ vote cfg G (lp_after cfg G ub perm coins k).cluster_id (visited_node cfg perm k)
              (chosen_block cfg G ub perm coins k) ∧
        ∀ e, e ∈ G.out_edges (visited_node cfg perm k) →
          edge_skipped cfg G (visited_node cfg perm k) e.target = false →
          (lp_after cfg G ub perm coins k).cluster_sizes.getD
              ((lp_after cfg G ub perm coins k).cluster_id.getD e.target 0) 0
            + G.getNodeWeight (visited_node cfg perm k) < ub →
          vote cfg G (lp_after cfg G ub perm coins k).cluster_id (visited_node cfg perm k)
              ((lp_after cfg G ub perm coins k).cluster_id.getD e.target 0)
            ≤ vote cfg G (lp_after cfg G ub perm coins k).cluster_id (visited_node cfg perm k)
                (chosen_block cfg G ub perm coins k)) := by
  intro k _
  have hh := lp_after_hash cfg G ub perm coins k
  have hb := (lp_after_bound cfg G ub perm coins hperm k).2
  obtain ⟨h1, h2⟩ := visit_selection_stored cfg G ub coins (visited_node cfg perm k)
    (lp_after cfg G ub perm coins k) hh hb
  refine ⟨⟨h1, fun e he hs hfit => h2 e he hs (lt_of_le_of_lt (Nat.mod_le _ _) hfit)⟩, ?_⟩
  intro hsum
  exact visit_selection cfg G ub coins (visited_node cfg perm k)
    (lp_after cfg G ub perm coins k) hh hb hsum

/-- Witness of `maximum_vote_selection` on the path with three nodes. -/
theorem maximum_vote_selection_witness :
    example_config.quotient_nodes ≤ example_path3.number_of_nodes ∧
    (∀ node, node ∈ [1, 0, 2] → node < example_path3.number_of_nodes) ∧
    0 < (visits example_config [1, 0, 2]).length ∧
    eligible_weight example_config example_path3 (visited_node example_config [1, 0, 2] 0)
      < EdgeWeight_mod ∧
    vote example_config example_path3
        (lp_after example_config example_path3 3 [1, 0, 2] coins_true 0).cluster_id
        (visited_node example_config [1, 0, 2] 0)
        ((lp_after example_config example_path3 3 [1, 0, 2] coins_true 0).cluster_id.getD
          (visited_node example_config [1, 0, 2] 0) 0)
      ≤ vote example_config example_path3
          (lp_after example_config example_path3 3 [1, 0, 2] coins_true 0).cluster_id
          (visited_node example_config [1, 0, 2] 0)
          (chosen_block example_config example_path3 3 [1, 0, 2] coins_true 0) :=
  ⟨by decide, by decide, by decide, by decide,
    ((maximum_vote_selection example_config example_path3 3 [1, 0, 2] coins_true
      (by decide) (by decide) 0 (by decide)).2 (by decide)).1⟩

/-- Claim C11, amended.  On the path with six unit nodes, with
`block_upperbound = 3`, five sweeps and no quotient nodes, for every visiting
order of node indices and every tie-break stream, `label_propagation` returns
clusters of at most two nodes (no three distinct nodes share a label), each
contiguous along the path (two distinct nodes that share a label are joined by
an edge), hence at least three clusters, and the cluster weights add up to the
total weight 6. -/
theorem path_scenario_clusters_of_two (perm : List Nat) (coins : Nat → Bool)
    (hperm : ∀ node, node ∈ perm → node < 6) :
    (∀ a b c, a < 6 → b < 6 → c < 6 → a ≠ b → a ≠ c → b ≠ c →
      ¬ ((label_propagation path_config path6 3 perm coins).1.getD a 0
          = (label_propagation path_config path6 3 perm coins).1.getD b 0 ∧
        (label_propagation path_config path6 3 perm coins).1.getD b 0
          = (label_propagation path_config path6 3 perm coins).1.getD c 0)) ∧
    (∀ a b, a < 6 → b < 6 → a ≠ b →
      (label_propagation path_config path6 3 perm coins).1.getD a 0
        = (label_propagation path_config path6 3 perm coins).1.getD b 0 →
      a + 1 = b ∨ b + 1 = a) ∧
    3 ≤ (label_propagation path_config path6 3 perm coins).2 ∧
    ∑ c in Finset.range (label_propagation path_config path6 3 perm coins).2,
      cluster_weight path6 (label_propagation path_config path6 3 perm coins).1 c = 6 := by
  have hno : ∀ a b c, a < 6 → b < 6 → c < 6 → a ≠ b → a ≠ c → b ≠ c →
      ¬ ((label_propagation path_config path6 3 perm coins).1.getD a 0
          = (label_propagation path_config path6 3 perm coins).1.getD b 0 ∧
        (label_propagation path_config path6 3 perm coins).1.getD b 0
          = (label_propagation path_config path6 3 perm coins).1.getD c 0) := by
    intro a b c ha hb hc hab hac hbc ⟨h1, h2⟩
    exact path6_no_triple perm coins hperm a b c ha hb hc hab hac hbc
      ⟨(label_propagation_same_iff path_config path6 3 perm coins a b ha hb).mp h1,
        (label_propagation_same_iff path_config path6 3 perm coins b c hb hc).mp h2⟩
  obtain ⟨hlen, hd⟩ := label_propagation_dense path_config path6 3 perm coins
  refine ⟨hno, path6_contiguous perm coins hperm, ?_, ?_⟩
  · by_contra hlt
    have hlt2 : (label_propagation path_config path6 3 perm coins).2 < 3 := by omega
    have hval : ∀ i, i < 6 → (label_propagation path_config path6 3 perm coins).1.getD i 0 < 2 := by
      intro i hi
      have hmem : (label_propagation path_config path6 3 perm coins).1.getD i 0
          ∈ (label_propagation path_config path6 3 perm coins).1 := by
        rw [mem_iff_getD]
        exact ⟨i, by rw [hlen]; exact hi, rfl⟩
      have := (hd _).mp hmem
      omega
    rcases three_of_five _ _ _ _ _ (hval 0 (by omega)) (hval 1 (by omega)) (hval 2 (by omega))
      (hval 3 (by omega)) (hval 4 (by omega)) with h | h | h | h | h | h | h | h | h | h
    · exact hno 0 1 2 (by omega) (by omega) (by omega) (by omega) (by omega) (by omega) h
    · exact hno 0 1 3 (by omega) (by omega) (by omega) (by omega) (by omega) (by omega) h
    · exact hno 0 1 4 (by omega) (by omega) (by omega) (by omega) (by omega) (by omega) h
    · exact hno 0 2 3 (by omega) (by omega) (by omega) (by omega) (by omega) (by omega) h
    · exact hno 0 2 4 (by omega) (by omega) (by omega) (by omega) (by omega) (by omega) h
    · exact hno 0 3 4 (by omega) (by omega) (by omega) (by omega) (by omega) (by omega) h
    · exact hno 1 2 3 (by omega) (by omega) (by omega) (by omega) (by omega) (by omega) h
    · exact hno 1 2 4 (by omega) (by omega) (by omega) (by omega) (by omega) (by omega) h
    · exact hno 1 3 4 (by omega) (by omega) (by omega) (by omega) (by omega) (by omega) h
    · exact hno 2 3 4 (by omega) (by omega) (by omega) (by omega) (by omega) (by omega) h
  · have := sum_cluster_weight_dense path6 _ _ hlen hd
    rw [this]
    decide

/-- Witness of `path_scenario_clusters_of_two` with the visiting order
0, ..., 5. -/
theorem path_scenario_clusters_of_two_witness :
    (∀ node, node ∈ [0, 1, 2, 3, 4, 5] → node < 6) ∧
    3 ≤ (label_propagation path_config path6 3 [0, 1, 2, 3, 4, 5] coins_true).2 :=
  ⟨by decide, (path_scenario_clusters_of_two [0, 1, 2, 3, 4, 5] coins_true (by decide)).2.2.1⟩

/-! ## The contract of cluster_isolated_nodes -/

/-- Counterexample to claim C18 as stated.  On two nodes of weights `2 ^ 32 - 1`
and 2, each in its own cluster, with the bound 10 and the list 0, 1: the size
of the cluster of node 1 plus the weight of node 0 is `2 ^ 32 + 1`, above the
bound, and the two nodes are in different clusters; yet node 0 is moved into
the cluster of node 1, because the program adds the two `NodeWeight` words and
the sum wraps to 1. -/
theorem wrapped_capacity_merge :
    ¬ (([4294967295, 2] : List Nat).getD (([0, 1] : List Nat).getD 1 0) 0
        + heavy_nodes.getNodeWeight 0 ≤ 10) ∧
    ([0, 1] : List Nat).getD 1 0 ≠ ([0, 1] : List Nat).getD 0 0 ∧
    one_sweep_config.graph_allready_partitioned = false ∧
    one_sweep_config.combine = false ∧
    (cluster_isolated_nodes one_sweep_config heavy_nodes [0, 1] [4294967295, 2] 10
      [0, 1]).cluster_id = [1, 1] := by
  decide

/-- Claim C18, amended.  `cluster_isolated_nodes` merges isolated nodes
pairwise, earlier into later, for every list of node indices and every state.
The states `iso_before it` are the states of the outer loop: the first is the
state given, each next one is made by the body of the loop, and the last is the
result.  The test of the inner loop is `partner_test`: the capacity test with
the sum taken in the word `NodeWeight` (or same cluster) and the two partition
equality tests; when the sum does not reach `NodeWeight_mod`, it is the test
with the sum itself.  Iteration `it` makes a merge with the position `j` exactly
when `it` is not combined and `j` is the first later position that is not
combined and passes the test; a position is combined at the start of iteration
`it` exactly when it is before `it` or was the partner of an earlier merge.
A merge moves the node at `it` into the cluster of the node at `j` and moves
its weight between the two sizes; an iteration without merge changes no label
and no size.  (i) The label of every node that is not in the list is
unchanged.  (ii) Every list position takes part in at most one merge: the
partner is a later position, makes no merge of its own, is the partner of no
other position, and a merged position is the partner of none.  (iii), (iv) When
the nodes of the list are distinct, these are the final labels: a moved node
ends in the cluster of its partner, whose label never changes, and a node at a
position without merge keeps its label. -/
theorem cluster_isolated_nodes_pairwise (cfg : PartitionConfig) (G : graph_access)
    (cid sizes : List Nat) (ub : Nat) (iso : List Nat)
    (hin : ∀ x, x ∈ iso → x < cid.length) :
    (cluster_isolated_nodes cfg G cid sizes ub iso
        = iso_before cfg G cid sizes ub iso iso.length ∧
      iso_before cfg G cid sizes ub iso 0
        = { combined := List.replicate iso.length false, cluster_id := cid,
            cluster_sizes := sizes } ∧
      ∀ it, iso_before cfg G cid sizes ub iso (it + 1)
        = iso_outer cfg G ub iso (iso_before cfg G cid sizes ub iso it) it) ∧
    (∀ st node target, iso_accepts cfg G ub st node target = true
      ↔ partner_test cfg G ub st.cluster_id st.cluster_sizes node target) ∧
    (∀ cluster_id cluster_sizes node target,
      cluster_sizes.getD (cluster_id.getD target 0) 0 + G.getNodeWeight node < NodeWeight_mod →
      (partner_test cfg G ub cluster_id cluster_sizes node target ↔
        ((cluster_sizes.getD (cluster_id.getD target 0) 0 + G.getNodeWeight node ≤ ub ∨
            cluster_id.getD target 0 = cluster_id.getD node 0) ∧
          (cfg.graph_allready_partitioned = true →
            G.getPartitionIndex node = G.getPartitionIndex target) ∧
          (cfg.combine = true →
            G.getSecondPartitionIndex node = G.getSecondPartitionIndex target)))) ∧
    (∀ it j, merge_partner cfg G cid sizes ub iso it = some j ↔
      ((iso_before cfg G cid sizes ub iso it).combined.getD it false = false ∧
        it < j ∧ j < iso.length ∧
        (iso_before cfg G cid sizes ub iso it).combined.getD j false = false ∧
        partner_test cfg G ub (iso_before cfg G cid sizes ub iso it).cluster_id
          (iso_before cfg G cid sizes ub iso it).cluster_sizes (iso.getD it 0) (iso.getD j 0) ∧
        ∀ j1, it < j1 → j1 < j →
          (iso_before cfg G cid sizes ub iso it).combined.getD j1 false = true ∨
          ¬ partner_test cfg G ub (iso_before cfg G cid sizes ub iso it).cluster_id
            (iso_before cfg G cid sizes ub iso it).cluster_sizes (iso.getD it 0)
            (iso.getD j1 0))) ∧
    (∀ it, merge_partner cfg G cid sizes ub iso it = none ↔
      ((iso_before cfg G cid sizes ub iso it).combined.getD it false = true ∨
        ∀ j, it < j → j < iso.length →
          (iso_before cfg G cid sizes ub iso it).combined.getD j false = true ∨
          ¬ partner_test cfg G ub (iso_before cfg G cid sizes ub iso it).cluster_id
            (iso_before cfg G cid sizes ub iso it).cluster_sizes (iso.getD it 0)
            (iso.getD j 0))) ∧
    (∀ it, it ≤ iso.length → ∀ p, p < iso.length →
      ((iso_before cfg G cid sizes ub iso it).combined.getD p false = true
        ↔ (p < it ∨ ∃ i, i < it ∧ merge_partner cfg G cid sizes ub iso i = some p))) ∧
    (∀ it j, merge_partner cfg G cid sizes ub iso it = some j →
      (iso_before cfg G cid sizes ub iso (it + 1)).cluster_id
        = (iso_before cfg G cid sizes ub iso it).cluster_id.set (iso.getD it 0)
            ((iso_before cfg G cid sizes ub iso it).cluster_id.getD (iso.getD j 0) 0) ∧
      (iso_before cfg G cid sizes ub iso (it + 1)).cluster_sizes
        = transfer (iso_before cfg G cid sizes ub iso it).cluster_sizes
            ((iso_before cfg G cid sizes ub iso it).cluster_id.getD (iso.getD it 0) 0)
            ((iso_before cfg G cid sizes ub iso it).cluster_id.getD (iso.getD j 0) 0)
            (G.getNodeWeight (iso.getD it 0)) ∧
      (iso_before cfg G cid sizes ub iso (it + 1)).cluster_id.getD (iso.getD it 0) 0
        = (iso_before cfg G cid sizes ub iso it).cluster_id.getD (iso.getD j 0) 0) ∧
    (∀ it, merge_partner cfg G cid sizes ub iso it = none →
      (iso_before cfg G cid sizes ub iso (it + 1)).cluster_id
        = (iso_before cfg G cid sizes ub iso it).cluster_id ∧
      (iso_before cfg G cid sizes ub iso (it + 1)).cluster_sizes
        = (iso_before cfg G cid sizes ub iso it).cluster_sizes) ∧
    (∀ x, x ∉ iso →
      (cluster_isolated_nodes cfg G cid sizes ub iso).cluster_id.getD x 0 = cid.getD x 0) ∧
    (∀ i j, merge_partner cfg G cid sizes ub iso i = some j →
      i < j ∧ j < iso.length ∧
      merge_partner cfg G cid sizes ub iso j = none ∧
      (∀ i1, merge_partner cfg G cid sizes ub iso i1 = some j → i1 = i) ∧
      (∀ i1, merge_partner cfg G cid sizes ub iso i1 ≠ some i)) ∧
    (iso.Nodup →
      (∀ i j, merge_partner cfg G cid sizes ub iso i = some j →
        (cluster_isolated_nodes cfg G cid sizes ub iso).cluster_id.getD (iso.getD i 0) 0
          = (cluster_isolated_nodes cfg G cid sizes ub iso).cluster_id.getD (iso.getD j 0) 0 ∧
        (cluster_isolated_nodes cfg G cid sizes ub iso).cluster_id.getD (iso.getD j 0) 0
          = cid.getD (iso.getD j 0) 0) ∧
      (∀ i, i < iso.length → merge_partner cfg G cid sizes ub iso i = none →
        (cluster_isolated_nodes cfg G cid sizes ub iso).cluster_id.getD (iso.getD i 0) 0
          = cid.getD (iso.getD i 0) 0)) := by
  have hfinal : cluster_isolated_nodes cfg G cid sizes ub iso
      = iso_before cfg G cid sizes ub iso iso.length := rfl
  refine ⟨⟨hfinal, rfl, iso_before_succ cfg G cid sizes ub iso⟩,
    iso_accepts_iff cfg G ub,
    fun cluster_id cluster_sizes node target h => by
      unfold partner_test
      rw [Nat.mod_eq_of_lt h],
    merge_partner_iff cfg G cid sizes ub iso,
    merge_partner_none_iff cfg G cid sizes ub iso,
    fun it hit => (iso_before_combined cfg G cid sizes ub iso it hit).2,
    ?_,
    fun it h => ⟨(iso_before_succ_none cfg G cid sizes ub iso it h).1,
      (iso_before_succ_none cfg G cid sizes ub iso it h).2.1⟩,
    ?_, merge_partner_once cfg G cid sizes ub iso, ?_⟩
  · intro it j h
    obtain ⟨_, hij, hjl, _⟩ := merge_partner_some cfg G cid sizes ub iso it j h
    exact ⟨(iso_before_merge_fields cfg G cid sizes ub iso it j h).1,
      (iso_before_merge_fields cfg G cid sizes ub iso it j h).2,
      iso_before_merge_label cfg G cid sizes ub iso it j h
        (hin _ (getD_mem_of_lt iso it (by omega)))⟩
  · intro x hx
    rw [hfinal]
    exact iso_final_outside cfg G cid sizes ub iso x hx
  · intro hnd
    rw [hfinal]
    exact ⟨iso_final_merged cfg G cid sizes ub iso hin hnd,
      iso_final_unmerged cfg G cid sizes ub iso hnd⟩

/-- Witness of `cluster_isolated_nodes_pairwise` on three unit nodes without
edges, with the bound 3 and the list 1, 2: the first iteration merges node 1
into the cluster of node 2, and node 1 ends with the label of node 2. -/
theorem cluster_isolated_nodes_pairwise_witness :
    (∀ x, x ∈ [1, 2] → x < ([0, 1, 2] : List Nat).length) ∧
    merge_partner example_config example_graph3 [0, 1, 2] [1, 1, 1] 3 [1, 2] 0 = some 1 ∧
    (cluster_isolated_nodes example_config example_graph3 [0, 1, 2] [1, 1, 1] 3
      [1, 2]).cluster_id.getD (([1, 2] : List Nat).getD 0 0) 0
      = ([0, 1, 2] : List Nat).getD (([1, 2] : List Nat).getD 1 0) 0 :=
  have hm : merge_partner example_config example_graph3 [0, 1, 2] [1, 1, 1] 3 [1, 2] 0
      = some 1 :=
    ((cluster_isolated_nodes_pairwise example_config example_graph3 [0, 1, 2] [1, 1, 1] 3
      [1, 2] (by decide)).2.2.2.1 0 1).mpr
      ⟨by decide, by decide, by decide, by decide,
        by unfold partner_test; decide,
        fun j1 h1 h2 => absurd h2 (by omega)⟩
  ⟨by decide, hm,
    (((cluster_isolated_nodes_pairwise example_config example_graph3 [0, 1, 2] [1, 1, 1] 3
      [1, 2] (by decide)).2.2.2.2.2.2.2.2.2.2 (by decide)).1 0 1 hm).1.trans
    (((cluster_isolated_nodes_pairwise example_config example_graph3 [0, 1, 2] [1, 1, 1] 3
      [1, 2] (by decide)).2.2.2.2.2.2.2.2.2.2 (by decide)).1 0 1 hm).2⟩

/-- Claim C12, amended.  For every fully connected graph on two nodes (each
node has out-edges, all of positive weight and all to the other node, and the
weights of the out-edges of a node add up to less than the word `EdgeWeight`
holds, so that no vote sum wraps) whose total node weight is strictly below
`block_upperbound`, with no quotient nodes, the partition tests off and
`label_iterations >= 1`, for every non-empty visiting order of node indices and
every tie-break stream, `label_propagation` ends with a single cluster
containing both nodes (`no_of_blocks = 1`). -/
theorem two_node_clique_single_cluster (cfg : PartitionConfig) (G : graph_access) (ub : Nat)
    (perm : List Nat) (coins : Nat → Bool)
    (hN : G.number_of_nodes = 2)
    (hedges : ∀ v, v < 2 → G.out_edges v ≠ [] ∧
      ∀ e, e ∈ G.out_edges v → e.target = 1 - v ∧ 0 < e.weight)
    (hsum : ∀ v, v < 2 → ((G.out_edges v).map Edge.weight).sum < EdgeWeight_mod)
    (hq : cfg.quotient_nodes = 0) (hpart : cfg.graph_allready_partitioned = false)
    (hcomb : cfg.combine = false) (hiter : 1 ≤ cfg.label_iterations)
    (hperm : ∀ node, node ∈ perm → node < 2) (hne : perm ≠ [])
    (htotal : G.getNodeWeight 0 + G.getNodeWeight 1 < ub) :
    (label_propagation cfg G ub perm coins).2 = 1 ∧
    (label_propagation cfg G ub perm coins).1.getD 0 0
      = (label_propagation cfg G ub perm coins).1.getD 1 0 := by
  cases perm with
  | nil => exact absurd rfl hne
  | cons v rest =>
    have hv : v < 2 := hperm v (List.mem_cons_self _ _)
    obtain ⟨hlen, hvis⟩ := visits_head cfg v rest hiter
    have hu : 1 - v < 2 := by omega
    have htot2 : G.getNodeWeight (1 - v) + G.getNodeWeight v < ub := by
      rcases Nat.lt_succ_iff_lt_or_eq.mp hv with h | h
      · have : v = 0 := by omega
        subst this; rw [Nat.add_comm]; exact htotal
      · subst h; exact htotal
    have hchosen : chosen_block cfg G ub (v :: rest) coins 0 = 1 - v := by
      unfold chosen_block
      rw [hvis, lp_after_zero]
      exact two_clique_first_visit cfg G ub coins v (1 - v) hN hv hu (hedges v hv).1
        (hedges v hv).2 hq hpart hcomb htot2 (hsum v hv)
    have hcid := lp_after_succ_cluster_id cfg G ub (v :: rest) coins 0 hlen
    rw [hchosen, hvis, lp_after_zero] at hcid
    have hsingle : ∀ i, i < G.number_of_nodes →
        (lp_after cfg G ub (v :: rest) coins 1).cluster_id.getD i 0 = 1 - v := by
      intro i hi
      rw [hcid]
      show ((List.range G.number_of_nodes).set v (1 - v)).getD i 0 = 1 - v
      rw [getD_set_ite _ _ _ _ (by rw [List.length_range, hN]; exact hv)]
      split
      · rfl
      · rename_i hiv
        rw [getD_range _ _ hi]
        omega
    have hperm2 : ∀ node, node ∈ v :: rest → node < G.number_of_nodes := by
      intro node hn; rw [hN]; exact hperm node hn
    have hkept := (single_cluster_kept cfg G ub (v :: rest) coins hperm2 (by omega) 1 (1 - v)
      hsingle).2
    obtain ⟨h1, h2⟩ := one_block_of_single cfg G ub (v :: rest) coins (by omega) (1 - v) hkept
    exact ⟨h1, h2 0 1 (by omega) (by omega)⟩

/-- Witness of `two_node_clique_single_cluster` on the clique on two unit
nodes with the bound 3. -/
theorem two_node_clique_single_cluster_witness :
    clique2.number_of_nodes = 2 ∧
    (∀ v, v < 2 → clique2.out_edges v ≠ [] ∧
      ∀ e, e ∈ clique2.out_edges v → e.target = 1 - v ∧ 0 < e.weight) ∧
    (∀ v, v < 2 → ((clique2.out_edges v).map Edge.weight).sum < EdgeWeight_mod) ∧
    one_sweep_config.quotient_nodes = 0 ∧
    one_sweep_config.graph_allready_partitioned = false ∧
    one_sweep_config.combine = false ∧
    1 ≤ one_sweep_config.label_iterations ∧
    (∀ node, node ∈ [0, 1] → node < 2) ∧
    ([0, 1] : List Nat) ≠ [] ∧
    clique2.getNodeWeight 0 + clique2.getNodeWeight 1 < 3 ∧
    (label_propagation one_sweep_config clique2 3 [0, 1] coins_true).2 = 1 :=
  ⟨by decide, by decide, by decide, by decide, by decide, by decide, by decide, by decide,
    by decide, by decide,
    (two_node_clique_single_cluster one_sweep_config clique2 3 [0, 1] coins_true
      (by decide) (by decide) (by decide) (by decide) (by decide) (by decide) (by decide)
      (by decide) (by decide) (by decide)).1⟩

end SCLP
